import Mathlib

/-! Sigil: the Book Browser model (`OPFModel`) and `Resource`

A shallow embedding of `src/MainUI/OPFModel.cpp` and of the path handling of
`src/ResourceObjects/Resource.cpp`, followed by the properties proved about them.

Conventions of the embedding

* A `QString` is the list of its characters.
* A `Resource *` is an index into the registry kept by the `FolderKeeper`
  (`Fin n` for a book with `n` members), so a pointer always designates a live member.
* Everything the C++ code does to the outside world is recorded in the state:
  file-system calls, signals, error dialogs, reference rewriting, spine updates.
* The file system answers through an oracle: the outcome of a call may depend on the
  call and on how many calls were made before it.
-/

namespace Sigil

/-! ## QString -/

/-- The characters of a `QString`. -/
abbrev QString := List Char

/-- The scan behind `QString::lastIndexOf(c)`: `acc` is the answer for the part already read,
`i` the index of the next character. -/
def lastIndexOfFrom (c : Char) : QString → Nat → Int → Int
  | [], _, acc => acc
  | x :: xs, i, acc => lastIndexOfFrom c xs (i + 1) (if x = c then (i : Int) else acc)

/-- The index of the last occurrence of `c` (`QString::lastIndexOf`), `-1` when there is none. -/
def lastIndexOf (s : QString) (c : Char) : Int :=
  lastIndexOfFrom c s 0 (-1)

/-- The `n` leftmost characters (`QString::left`): the whole string when `n` is negative or
not smaller than the size. -/
def left (s : QString) (n : Int) : QString :=
  if n < 0 ∨ (s.length : Int) ≤ n then s else s.take n.toNat

/-- The `n` rightmost characters (`QString::right`): the whole string when `n` is negative or
not smaller than the size. -/
def right (s : QString) (n : Int) : QString :=
  if n < 0 ∨ (s.length : Int) ≤ n then s else s.drop (s.length - n.toNat)

/-- The parts of `s` between occurrences of `sep`, empty parts kept (`QString::split`). -/
def split (sep : Char) : QString → List QString
  | [] => [[]]
  | c :: cs =>
    if c = sep then [] :: split sep cs
    else
      match split sep cs with
      | [] => [[c]]
      | p :: ps => (c :: p) :: ps

/-- The last part of a split (`QStringList::last`). -/
def splitLast (sep : Char) (s : QString) : QString :=
  (split sep s).getLastD []

/-- Whether `s` begins with `p` (`QString::startsWith`). -/
def startsWith (s p : QString) : Bool :=
  p.isPrefixOf s

/-- Case folding of one character, as used by `Qt::CaseInsensitive` comparisons.  Qt folds
with the Unicode tables; the embedding folds the ASCII letters, and no proof below looks
inside this function. -/
def foldCase (c : Char) : Char :=
  c.toLower

/-- The case-folded form of a string. -/
def caseFolded (s : QString) : QString :=
  s.map foldCase

/-- The test `QStringList::contains(str, Qt::CaseInsensitive)`. -/
def containsCI (l : List QString) (str : QString) : Bool :=
  l.any fun s => decide (caseFolded s = caseFolded str)

/-- The suffix reported by `QFileInfo(name).suffix()` for a name without directory part:
what follows the last `'.'`, empty when there is no `'.'`. -/
def suffix (name : QString) : QString :=
  let fileName := splitLast '/' name
  let dot := lastIndexOf fileName '.'
  if dot < 0 then [] else fileName.drop (dot.toNat + 1)

/-! ## Resource -/

/-- The values of `Resource::ResourceType` that the model distinguishes, and
`TextResourceType` for a type none of its tests names. -/
inductive ResourceType where
  | GenericResourceType
  | TextResourceType
  | XMLResourceType
  | HTMLResourceType
  | CSSResourceType
  | ImageResourceType
  | SVGResourceType
  | FontResourceType
  | OPFResourceType
  | NCXResourceType
  | MiscTextResourceType
  | AudioResourceType
  | VideoResourceType
  deriving DecidableEq, Repr

/-- The fields of a `Resource` object; `type` is the answer of the virtual `Type()` (a
reserved word in Lean, hence the field). -/
structure Resource where
  m_Identifier : QString
  m_MainFolder : QString
  m_FullFilePath : QString
  m_ShortName : QString
  m_CurrentBookRelPath : QString
  m_LastSaved : Int
  m_LastWrittenTo : Int
  m_LastWrittenSize : Int
  type : ResourceType
  deriving DecidableEq, Repr

namespace Resource

/-- The book path, `Resource::GetRelativePath`. -/
def GetRelativePath (r : Resource) : QString :=
  right r.m_FullFilePath ((r.m_FullFilePath.length : Int) - (r.m_MainFolder.length : Int) - 1)

/-- The file name, `Resource::Filename`. -/
def Filename (r : Resource) : QString :=
  splitLast '/' r.GetRelativePath

/-- The short display name, `Resource::ShortPathName`. -/
def ShortPathName (r : Resource) : QString :=
  r.m_ShortName

/-- The accessor `Resource::GetIdentifier`. -/
def GetIdentifier (r : Resource) : QString :=
  r.m_Identifier

/-- The setter `Resource::SetCurrentBookRelPath`. -/
def SetCurrentBookRelPath (r : Resource) (current_path : QString) : Resource :=
  { r with m_CurrentBookRelPath := current_path }

end Resource

/-- The constructor `Resource::Resource(mainfolder, fullfilepath)`, with the identifier that
`Utility::CreateUUID` produced and the type of the subclass. -/
def newResource (identifier mainfolder fullfilepath : QString) (type : ResourceType) : Resource :=
  { m_Identifier := identifier, m_MainFolder := mainfolder, m_FullFilePath := fullfilepath,
    m_ShortName := [], m_CurrentBookRelPath := [], m_LastSaved := 0, m_LastWrittenTo := 0,
    m_LastWrittenSize := 0, type := type }

/-! ## Validation of names and paths -/

/-- The characters of `FORBIDDEN_FILENAME_CHARS`. -/
def FORBIDDEN_FILENAME_CHARS : List Char :=
  ['<', '>', ':', '"', '/', '\\', '|', '?', '*']

/-- Modelled from the spec: `Utility::startingDir` is not among the sources; it yields the
folder of a book path, the text before its last `'/'`, empty for a file at the root. -/
def startingDir (file_bookpath : QString) : QString :=
  let pos := lastIndexOf file_bookpath '/'
  if pos > -1 then left file_bookpath pos else []

/-- The error dialogs of the two validators. -/
inductive Dialog where
  | forbiddenCharacter (character : Char)
  | emptyFilename
  | filenameInUse (new_filename : QString)
  | emptyBookPath
  | bookPathInUse (new_bookpath : QString)
  deriving DecidableEq, Repr

/-- The path that `FilenameIsValid` checks against the existing book paths. -/
def proposedBookPath (old_bookpath new_filename : QString) : QString :=
  let sdir := startingDir old_bookpath
  if sdir.isEmpty then new_filename else sdir ++ '/' :: new_filename

/-- The body of `OPFModel::FilenameIsValid`, given the list returned by
`FolderKeeper::GetAllBookPaths`: the dialog shown on rejection, `none` on acceptance. -/
def filenameProblem (existing_bookpaths : List QString) (old_bookpath new_filename : QString) :
    Option Dialog :=
  match new_filename.find? (fun character => FORBIDDEN_FILENAME_CHARS.contains character) with
  | some character => some (Dialog.forbiddenCharacter character)
  | none =>
    let extension := suffix new_filename
    let new_filename_without_extension :=
      left new_filename ((new_filename.length : Int) - (extension.length : Int) - 1)
    if new_filename.isEmpty || new_filename_without_extension.isEmpty then
      some Dialog.emptyFilename
    else if containsCI existing_bookpaths (proposedBookPath old_bookpath new_filename) then
      some (Dialog.filenameInUse new_filename)
    else none

/-- The body of `OPFModel::BookPathIsValid`: the dialog shown on rejection, `none` on
acceptance. -/
def bookPathProblem (existing_bookpaths : List QString) (new_bookpath : QString) :
    Option Dialog :=
  if new_bookpath.isEmpty then some Dialog.emptyBookPath
  else if existing_bookpaths.contains new_bookpath then some (Dialog.bookPathInUse new_bookpath)
  else none

/-! ## The tree of the Book Browser -/

/-- The seven folder items created by the constructor of `OPFModel`. -/
inductive Folder where
  | Text
  | Styles
  | Images
  | Fonts
  | Misc
  | Audio
  | Video
  deriving DecidableEq, Repr

/-- The sort roles a model is given in `OPFModel.cpp`. -/
inductive SortRole where
  | DisplayRole
  | READING_ORDER_ROLE
  | ALPHANUMERIC_ORDER_ROLE
  deriving DecidableEq, Repr

/-- An `AlphanumericItem` of the tree.  `identifier` is the item's `data()`, `readingOrder` its
data for `READING_ORDER_ROLE`, `alphanumericOrder` its data for `ALPHANUMERIC_ORDER_ROLE`
(`none` while the role was never set), and `icon` the full path the icon provider was asked
about. -/
structure Item where
  text : QString
  icon : QString
  identifier : QString
  toolTip : QString
  readingOrder : Option Int
  alphanumericOrder : Option QString
  editable : Bool
  dragEnabled : Bool
  dropEnabled : Bool
  deriving DecidableEq, Repr

/-- A row of the invisible root item: one of the folder items, or the item of a file. -/
inductive TopRow where
  | folder (f : Folder)
  | file (item : Item)
  deriving DecidableEq, Repr

/-- Whether a top-level row is one of the seven folder items. -/
def TopRow.isFolder : TopRow → Bool
  | TopRow.folder _ => true
  | TopRow.file _ => false

/-- The tree held by an `OPFModel`: the rows of the invisible root item, the rows of each of
the seven folder items, the sort role of the model and the refresh flag. -/
structure OPFModel where
  root : List TopRow
  m_TextFolderItem : List Item
  m_StylesFolderItem : List Item
  m_ImagesFolderItem : List Item
  m_FontsFolderItem : List Item
  m_MiscFolderItem : List Item
  m_AudioFolderItem : List Item
  m_VideoFolderItem : List Item
  sortRole : SortRole
  m_RefreshInProgress : Bool
  deriving DecidableEq, Repr

namespace OPFModel

/-- The rows of a folder item. -/
def rows (m : OPFModel) : Folder → List Item
  | Folder.Text => m.m_TextFolderItem
  | Folder.Styles => m.m_StylesFolderItem
  | Folder.Images => m.m_ImagesFolderItem
  | Folder.Fonts => m.m_FontsFolderItem
  | Folder.Misc => m.m_MiscFolderItem
  | Folder.Audio => m.m_AudioFolderItem
  | Folder.Video => m.m_VideoFolderItem

/-- Replace the rows of a folder item. -/
def setRows (m : OPFModel) (f : Folder) (l : List Item) : OPFModel :=
  match f with
  | Folder.Text => { m with m_TextFolderItem := l }
  | Folder.Styles => { m with m_StylesFolderItem := l }
  | Folder.Images => { m with m_ImagesFolderItem := l }
  | Folder.Fonts => { m with m_FontsFolderItem := l }
  | Folder.Misc => { m with m_MiscFolderItem := l }
  | Folder.Audio => { m with m_AudioFolderItem := l }
  | Folder.Video => { m with m_VideoFolderItem := l }

/-- The files shown at top level, outside any folder. -/
def topFiles (m : OPFModel) : List Item :=
  m.root.filterMap fun row =>
    match row with
    | TopRow.folder _ => none
    | TopRow.file item => some item

/-- Every item of the tree: the rows of the seven folders and the top-level files. -/
def allItems (m : OPFModel) : List Item :=
  m.m_TextFolderItem ++ m.m_StylesFolderItem ++ m.m_ImagesFolderItem ++ m.m_FontsFolderItem ++
    m.m_MiscFolderItem ++ m.m_AudioFolderItem ++ m.m_VideoFolderItem ++ m.topFiles

end OPFModel

/-- The tree built by the constructor `OPFModel::OPFModel`. -/
def newOPFModel : OPFModel :=
  { root := [TopRow.folder Folder.Text, TopRow.folder Folder.Styles, TopRow.folder Folder.Images,
      TopRow.folder Folder.Fonts, TopRow.folder Folder.Audio, TopRow.folder Folder.Video,
      TopRow.folder Folder.Misc],
    m_TextFolderItem := [], m_StylesFolderItem := [], m_ImagesFolderItem := [],
    m_FontsFolderItem := [], m_MiscFolderItem := [], m_AudioFolderItem := [],
    m_VideoFolderItem := [], sortRole := SortRole.DisplayRole, m_RefreshInProgress := false }

/-! ## What the model reads from its collaborators -/

/-- A call to the file system made by a `Resource`. -/
inductive FsCall where
  | RenameFile (oldpath newpath : QString)
  | SMoveFile (oldpath newpath : QString)
  deriving DecidableEq, Repr

/-- What `OPFModel` obtains from code outside the sources at hand, for a book of `n` members.

* `showFullPathOn`: the setting read through `SettingsStore`;
* `NO_READING_ORDER`: the constant of `sigil_constants.h`;
* `GetReadingOrderAll`: the reading order the manifest reports, absent for a member that the
  returned hash does not contain;
* `GetEpubVersion`, `GetLandmarkNameForPaths`, `GetManifestPropertiesForPaths`,
  `GetGuideSemanticNameForPaths`: the answers of the manifest and of the navigation document;
* `GetDescription`: the description of a font;
* `itemLess`: `AlphanumericItem::operator<`, which depends on the sort role of the model;
* `fs`: the file system, answering a call given the number of calls made before it. -/
structure Context (n : Nat) where
  showFullPathOn : Bool
  NO_READING_ORDER : Int
  GetReadingOrderAll : Fin n → Option Int
  GetEpubVersion : QString
  GetLandmarkNameForPaths : QString → Option QString
  GetManifestPropertiesForPaths : QString → Option QString
  GetGuideSemanticNameForPaths : QString → Option QString
  GetDescription : Fin n → QString
  itemLess : SortRole → Item → Item → Bool
  fs : Nat → FsCall → Bool

/-- Modelled from the spec: `QStandardItem::sortChildren(0)` belongs to Qt and the comparison
to `AlphanumericItem`, neither among the sources.  Groups are "re-sorted" on the key of the
current sort role; Qt sorts with a stable sort, ascending, and an insertion sort that never
moves a row in front of one it is not smaller than is a stable sort. -/
def sortChildren {n : Nat} (cx : Context n) (role : SortRole) (l : List Item) : List Item :=
  l.insertionSort fun a b => cx.itemLess role b a = false

/-! ## Refresh -/

/-- The second loop of `OPFModel::ClearModel`: the rows of the root that are not folder items
are removed, the others stay where they are. -/
def removeTopFiles : List TopRow → List TopRow
  | [] => []
  | TopRow.folder f :: rest => TopRow.folder f :: removeTopFiles rest
  | TopRow.file _ :: rest => removeTopFiles rest

/-- The function `OPFModel::ClearModel`.  The rows are removed while `m_RefreshInProgress` is
set, so `RowsRemovedHandler` returns at once for each of them. -/
def ClearModel (m : OPFModel) : OPFModel :=
  { m with
    m_TextFolderItem := [], m_StylesFolderItem := [], m_ImagesFolderItem := [],
    m_FontsFolderItem := [], m_MiscFolderItem := [], m_AudioFolderItem := [],
    m_VideoFolderItem := [], root := removeTopFiles m.root }

/-- The semantic names `InitializeModel` looks paths up in: landmarks for version 3, the guide
otherwise. -/
def semantic_type_all {n : Nat} (cx : Context n) (path : QString) : Option QString :=
  if startsWith cx.GetEpubVersion ['3'] then cx.GetLandmarkNameForPaths path
  else cx.GetGuideSemanticNameForPaths path

/-- The manifest properties `InitializeModel` looks paths up in: empty unless version 3. -/
def manifest_properties_all {n : Nat} (cx : Context n) (path : QString) : Option QString :=
  if startsWith cx.GetEpubVersion ['3'] then cx.GetManifestPropertiesForPaths path else none

/-- The tooltip computed by `InitializeModel` before the type of the member is looked at. -/
def tooltipOf {n : Nat} (cx : Context n) (res : Fin n → Resource) (i : Fin n) : QString :=
  let path := (res i).GetRelativePath
  let t0 := (res i).GetRelativePath
  let t1 := if (res i).type = ResourceType.FontResourceType
    then t0 ++ " (".toList ++ cx.GetDescription i ++ ")".toList else t0
  let t2 := match semantic_type_all cx path with
    | some sem => t1 ++ " (".toList ++ sem ++ ")".toList
    | none => t1
  match manifest_properties_all cx path with
  | some props => t2 ++ " [".toList ++ props ++ "]".toList
  | none => t2

/-- The name shown for a member: the book path or the short name, after the setting. -/
def displayName {n : Nat} (cx : Context n) (r : Resource) : QString :=
  if cx.showFullPathOn then r.GetRelativePath else r.ShortPathName

/-- The item `InitializeModel` creates for member `i`, as it is when appended to its parent. -/
def itemFor {n : Nat} (cx : Context n) (res : Fin n → Resource) (i : Fin n) : Item :=
  let item : Item :=
    { text := displayName cx (res i), icon := (res i).m_FullFilePath,
      identifier := (res i).GetIdentifier, toolTip := tooltipOf cx res i,
      readingOrder := none, alphanumericOrder := none,
      editable := true, dragEnabled := true, dropEnabled := false }
  match (res i).type with
  | ResourceType.HTMLResourceType =>
    let reading_order := match cx.GetReadingOrderAll i with
      | some order => order
      | none => cx.NO_READING_ORDER
    let name := left (displayName cx (res i)) (lastIndexOf (displayName cx (res i)) '.')
    { item with readingOrder := some reading_order, alphanumericOrder := some name }
  | ResourceType.OPFResourceType =>
    { item with editable := true, dragEnabled := false, toolTip := (res i).GetRelativePath }
  | ResourceType.NCXResourceType =>
    { item with editable := true, dragEnabled := false, toolTip := (res i).GetRelativePath }
  | _ => { item with dragEnabled := false }

/-- Where `InitializeModel` appends the item of a member of the given type: a folder, or
`none` for the root. -/
def folderOfType : ResourceType → Option Folder
  | ResourceType.HTMLResourceType => some Folder.Text
  | ResourceType.CSSResourceType => some Folder.Styles
  | ResourceType.ImageResourceType => some Folder.Images
  | ResourceType.SVGResourceType => some Folder.Images
  | ResourceType.FontResourceType => some Folder.Fonts
  | ResourceType.AudioResourceType => some Folder.Audio
  | ResourceType.VideoResourceType => some Folder.Video
  | ResourceType.OPFResourceType => none
  | ResourceType.NCXResourceType => none
  | _ => some Folder.Misc

/-- The body of the loop of `InitializeModel` for member `i`. -/
def appendResource {n : Nat} (cx : Context n) (res : Fin n → Resource) (m : OPFModel)
    (i : Fin n) : OPFModel :=
  match folderOfType (res i).type with
  | some f => m.setRows f (m.rows f ++ [itemFor cx res i])
  | none => { m with root := m.root ++ [TopRow.file (itemFor cx res i)] }

/-- The function `OPFModel::InitializeModel`; the members are visited in the order of
`FolderKeeper::GetResourceList`, here the order of the registry. -/
def InitializeModel {n : Nat} (cx : Context n) (res : Fin n → Resource) (m : OPFModel) :
    OPFModel :=
  (List.finRange n).foldl (appendResource cx res) (ClearModel m)

/-- The body of the loop of `SortFilesByFilenames` for one row of the root: the children of
the row are sorted; the item of a file has none. -/
def sortRow {n : Nat} (cx : Context n) (m : OPFModel) : TopRow → OPFModel
  | TopRow.folder f => m.setRows f (sortChildren cx m.sortRole (m.rows f))
  | TopRow.file _ => m

/-- The function `OPFModel::SortFilesByFilenames`. -/
def SortFilesByFilenames {n : Nat} (cx : Context n) (m : OPFModel) : OPFModel :=
  m.root.foldl (sortRow cx) m

/-- The function `OPFModel::SortHTMLFilesByReadingOrder`. -/
def SortHTMLFilesByReadingOrder {n : Nat} (cx : Context n) (m : OPFModel) : OPFModel :=
  let old_sort_role := m.sortRole
  let m1 := { m with sortRole := SortRole.READING_ORDER_ROLE }
  let m2 := { m1 with m_TextFolderItem := sortChildren cx m1.sortRole m1.m_TextFolderItem }
  { m2 with sortRole := old_sort_role }

/-- The function `OPFModel::Refresh`. -/
def Refresh {n : Nat} (cx : Context n) (res : Fin n → Resource) (m : OPFModel) : OPFModel :=
  let m1 := { m with m_RefreshInProgress := true }
  let m2 := InitializeModel cx res m1
  let m3 := SortFilesByFilenames cx m2
  let m4 := SortHTMLFilesByReadingOrder cx m3
  { m4 with m_RefreshInProgress := false }

/-! ## The state of a book and its Book Browser -/

/-- The signals emitted by the members and by the model. -/
inductive Signal (n : Nat) where
  | Renamed (resource : Fin n) (old_path : QString)
  | Moved (resource : Fin n) (old_path : QString)
  | BookContentModified
  | ResourceRenamed
  deriving DecidableEq, Repr

/-- The calls the model makes to its collaborators. -/
inductive Call (n : Nat) where
  | PerformUniversalUpdates (resources : List (Fin n)) (update : List (QString × QString))
  | UpdateSpineOrder (reading_order_htmls : List (Fin n))
  | SetModified
  deriving DecidableEq, Repr

/-- A book with `n` members and its Book Browser: the registry of the `FolderKeeper`, the
tree, and the record of everything done to the outside, oldest first. -/
structure State (n : Nat) where
  res : Fin n → Resource
  model : OPFModel
  fsCalls : List FsCall
  signals : List (Signal n)
  dialogs : List Dialog
  calls : List (Call n)

/-- Modelled from the spec: `FolderKeeper::GetAllBookPaths` is not among the sources; it is
the registry's `getAllPaths()`, the book path of every member. -/
def GetAllBookPaths {n : Nat} (res : Fin n → Resource) : List QString :=
  (List.finRange n).map fun i => (res i).GetRelativePath

/-- The list of `FolderKeeper::GetResourceList`: every member, in the order of the registry. -/
def GetResourceList (n : Nat) : List (Fin n) :=
  List.finRange n

/-- The function `OPFModel::FilenameIsValid`: the answer, and the state with the dialog shown
on rejection. -/
def FilenameIsValid {n : Nat} (st : State n) (old_bookpath new_filename : QString) :
    State n × Bool :=
  match filenameProblem (GetAllBookPaths st.res) old_bookpath new_filename with
  | some d => ({ st with dialogs := st.dialogs ++ [d] }, false)
  | none => (st, true)

/-- The function `OPFModel::BookPathIsValid`: the answer, and the state with the dialog shown
on rejection.  The old book path is an argument the function never reads. -/
def BookPathIsValid {n : Nat} (st : State n) (_old_bookpath new_bookpath : QString) :
    State n × Bool :=
  match bookPathProblem (GetAllBookPaths st.res) new_bookpath with
  | some d => ({ st with dialogs := st.dialogs ++ [d] }, false)
  | none => (st, true)

/-- The directory reported by `QFileInfo(path).absolutePath()` for the clean absolute paths
that members have: the text before the last `'/'`, and `"/"` for a file of the root
directory. -/
def absolutePath (path : QString) : QString :=
  let pos := lastIndexOf path '/'
  if pos ≤ 0 then ['/'] else left path pos

/-- The function `Resource::RenameTo` on member `resource`: the file system is asked first, and
only when it succeeds the path and the short name change and `Renamed` is emitted. -/
def RenameTo {n : Nat} (cx : Context n) (st : State n) (resource : Fin n)
    (new_filename : QString) : State n × Bool :=
  let r := st.res resource
  let new_path := absolutePath r.m_FullFilePath ++ '/' :: new_filename
  let call := FsCall.RenameFile r.m_FullFilePath new_path
  let successful := cx.fs st.fsCalls.length call
  let st1 := { st with fsCalls := st.fsCalls ++ [call] }
  if successful then
    let old_path := r.m_FullFilePath
    ({ st1 with
        res := Function.update st1.res resource
          { r with m_FullFilePath := new_path, m_ShortName := new_filename },
        signals := st1.signals ++ [Signal.Renamed resource old_path] }, true)
  else (st1, false)

/-- The function `Resource::MoveTo` on member `resource`. -/
def MoveTo {n : Nat} (cx : Context n) (st : State n) (resource : Fin n)
    (new_bookpath : QString) : State n × Bool :=
  let r := st.res resource
  let new_path := r.m_MainFolder ++ '/' :: new_bookpath
  let call := FsCall.SMoveFile r.m_FullFilePath new_path
  let successful := cx.fs st.fsCalls.length call
  let st1 := { st with fsCalls := st.fsCalls ++ [call] }
  if successful then
    let old_path := r.m_FullFilePath
    ({ st1 with
        res := Function.update st1.res resource { r with m_FullFilePath := new_path },
        signals := st1.signals ++ [Signal.Moved resource old_path] }, true)
  else (st1, false)

/-- Modelled from the spec: `OPFResource::RenameTo` and `NCXResource::RenameTo` are not among
the sources.  They are the "specialized rename entry points" of the two descriptors, which
rename the file as the generic one does and "also update self-referential manifest metadata";
that metadata is no part of the state. -/
def DescriptorRenameTo {n : Nat} (cx : Context n) (st : State n) (resource : Fin n)
    (new_filename : QString) : State n × Bool :=
  RenameTo cx st resource new_filename

/-- Modelled from the spec: `OPFResource::MoveTo` and `NCXResource::MoveTo` are not among the
sources.  They are the "specialized move entry points" of the two descriptors, which move
the file as the generic one does and "also update self-referential manifest metadata". -/
def DescriptorMoveTo {n : Nat} (cx : Context n) (st : State n) (resource : Fin n)
    (new_bookpath : QString) : State n × Bool :=
  MoveTo cx st resource new_bookpath

/-- The assignment `hash[key] = value` on a `QHash`, kept as the list of its entries. -/
def hashInsert (key value : QString) (hash : List (QString × QString)) :
    List (QString × QString) :=
  (key, value) :: hash.filter fun entry => decide (entry.1 ≠ key)

/-- The local variables of a batch: the state, the list `not_renamed` or `not_moved`, and
the hash `update`. -/
structure Batch (n : Nat) where
  st : State n
  not_processed : List QString
  update : List (QString × QString)

/-- The extension `RenameResourceList` computes from the current file name. -/
def extensionOf (old_filename : QString) : QString :=
  right old_filename ((old_filename.length : Int) - lastIndexOf old_filename '.')

/-- The name `RenameResourceList` validates and applies for a proposed name. -/
def withExtension (old_filename new_filename : QString) : QString :=
  if new_filename.contains '.' then new_filename else new_filename ++ extensionOf old_filename

/-- The body of the loop of `RenameResourceList` for one member and the name read for it. -/
def renamePair {n : Nat} (cx : Context n) (b : Batch n) (resource : Fin n)
    (new_filename : QString) : Batch n :=
  let old_bookpath := (b.st.res resource).GetRelativePath
  let old_filename := (b.st.res resource).Filename
  let new_filename_with_extension := withExtension old_filename new_filename
  if startsWith old_bookpath "META-INF/".toList then b
  else if old_filename = new_filename_with_extension then b
  else
    let checked := FilenameIsValid b.st old_bookpath new_filename_with_extension
    if checked.2 = false then
      { b with st := checked.1,
               not_processed := b.not_processed ++ [displayName cx (checked.1.res resource)] }
    else
      let renamed :=
        if (checked.1.res resource).type = ResourceType.OPFResourceType
            ∨ (checked.1.res resource).type = ResourceType.NCXResourceType then
          DescriptorRenameTo cx checked.1 resource new_filename_with_extension
        else RenameTo cx checked.1 resource new_filename_with_extension
      if renamed.2 = false then
        { b with st := renamed.1,
                 not_processed := b.not_processed ++ [displayName cx (renamed.1.res resource)] }
      else
        { b with st := renamed.1,
                 update := hashInsert old_bookpath (renamed.1.res resource).GetRelativePath
                   b.update }

/-- The body of the loop of `MoveResourceList` for one member and the path read for it. -/
def movePair {n : Nat} (cx : Context n) (b : Batch n) (resource : Fin n)
    (newbookpath : QString) : Batch n :=
  let oldbookpath := (b.st.res resource).GetRelativePath
  if startsWith oldbookpath "META-INF/".toList then b
  else
    let checked := BookPathIsValid b.st oldbookpath newbookpath
    if checked.2 = false then
      { b with st := checked.1, not_processed := b.not_processed ++ [oldbookpath] }
    else
      let moved :=
        if (checked.1.res resource).type = ResourceType.OPFResourceType
            ∨ (checked.1.res resource).type = ResourceType.NCXResourceType then
          DescriptorMoveTo cx checked.1 resource newbookpath
        else MoveTo cx checked.1 resource newbookpath
      if moved.2 = false then
        { b with st := moved.1, not_processed := b.not_processed ++ [oldbookpath] }
      else
        let res1 := Function.update moved.1.res resource
          ((moved.1.res resource).SetCurrentBookRelPath oldbookpath)
        { b with st := { moved.1 with res := res1 },
                 update := hashInsert oldbookpath (res1 resource).GetRelativePath b.update }

/-! ## Batch rename and batch move -/

/-- The `foreach` of a batch: the member at position `i` of the first list is processed with
entry `i` of the second list, read with `QList::at(i++)` before anything else; reading past
the end of the second list is an error. -/
def batchLoop {n : Nat} (body : Batch n → Fin n → QString → Batch n) (second : List QString) :
    List (Fin n) → Nat → Batch n → Option (Batch n)
  | [], _, b => some b
  | resource :: rest, i, b =>
    match second.get? i with
    | none => none
    | some entry => batchLoop body second rest (i + 1) (body b resource entry)

/-- What both batch functions do after their loop: reference rewriting and the
`BookContentModified` signal when the hash is not empty, then `Refresh`, and the answer
whether the list of members not processed is empty. -/
def finishBatch {n : Nat} (cx : Context n) (b : Batch n) : State n × Bool :=
  let st1 : State n :=
    if b.update.length > 0 then
      { b.st with
        calls := b.st.calls ++ [Call.PerformUniversalUpdates (GetResourceList n) b.update],
        signals := b.st.signals ++ [Signal.BookContentModified] }
    else b.st
  ({ st1 with model := Refresh cx st1.res st1.model }, b.not_processed.isEmpty)

/-- The batch with the initial values of the local variables. -/
def startBatch {n : Nat} (st : State n) : Batch n :=
  { st := st, not_processed := [], update := [] }

/-- The function `OPFModel::RenameResourceList`; `none` when `new_filenames` is too short. -/
def RenameResourceList {n : Nat} (cx : Context n) (st : State n) (resources : List (Fin n))
    (new_filenames : List QString) : Option (State n × Bool) :=
  (batchLoop (renamePair cx) new_filenames resources 0 (startBatch st)).map (finishBatch cx)

/-- The function `OPFModel::MoveResourceList`; `none` when `new_bookpaths` is too short. -/
def MoveResourceList {n : Nat} (cx : Context n) (st : State n) (resources : List (Fin n))
    (new_bookpaths : List QString) : Option (State n × Bool) :=
  (batchLoop (movePair cx) new_bookpaths resources 0 (startBatch st)).map (finishBatch cx)

/-- The function `OPFModel::RenameResource`. -/
def RenameResource {n : Nat} (cx : Context n) (st : State n) (resource : Fin n)
    (new_filename : QString) : Option (State n × Bool) :=
  RenameResourceList cx st [resource] [new_filename]

/-! ## Reading order -/

/-- Modelled from the spec: `FolderKeeper::GetResourceByIdentifier` is not among the sources;
it is the registry's `getMemberByIdentifier(id)`.  An identifier that no member carries has
no member. -/
def GetResourceByIdentifier {n : Nat} (res : Fin n → Resource) (identifier : QString) :
    Option (Fin n) :=
  (List.finRange n).find? fun i => decide ((res i).GetIdentifier = identifier)

/-- The member `qobject_cast<HTMLResource *>` lets through: the member carrying the
identifier when it is an HTML file. -/
def htmlResourceOf {n : Nat} (res : Fin n → Resource) (identifier : QString) : Option (Fin n) :=
  match GetResourceByIdentifier res identifier with
  | some r => if (res r).type = ResourceType.HTMLResourceType then some r else none
  | none => none

/-- The loop of `UpdateHTMLReadingOrders` from row `i` on: the rows with their new data, and
the members appended to `reading_order_htmls`. -/
def updateReadingOrders {n : Nat} (res : Fin n → Resource) :
    Nat → List Item → List Item × List (Fin n)
  | _, [] => ([], [])
  | i, html_item :: rest =>
    let numbered := { html_item with readingOrder := some (i : Int) }
    let others := updateReadingOrders res (i + 1) rest
    match htmlResourceOf res html_item.identifier with
    | some html_resource =>
      ({ numbered with icon := (res html_resource).m_FullFilePath } :: others.1,
        html_resource :: others.2)
    | none => (numbered :: others.1, others.2)

/-- The function `OPFModel::UpdateHTMLReadingOrders`.  The statements of the function are
followed; what the slots connected to `itemChanged` do when the data of an item is set is
not. -/
def UpdateHTMLReadingOrders {n : Nat} (st : State n) : State n :=
  let result := updateReadingOrders st.res 0 st.model.m_TextFolderItem
  { st with
    model := { st.model with m_TextFolderItem := result.1 },
    calls := st.calls ++ [Call.UpdateSpineOrder result.2, Call.SetModified] }

/-- The function `OPFModel::RowsRemovedHandler`; `parent` is the folder item the index
designates, `none` when it designates none of the seven. -/
def RowsRemovedHandler {n : Nat} (st : State n) (parent : Option Folder) (_start _end : Int) :
    State n :=
  if st.model.m_RefreshInProgress = true ∨ parent ≠ some Folder.Text then st
  else UpdateHTMLReadingOrders st

/-! ## Sorting the selected HTML files -/

/-- The search of the `while` loop of `SortHTMLFilesByAlphanumeric`: the first row from
position `i` on that is the item looked for.  A row is a pair of the position the item had
when the function was called, which stands for the pointer to it, and the item. -/
def findRow (item : Nat) : List (Nat × Item) → Nat → Option Nat
  | [], _ => none
  | row :: rest, i => if row.1 = item then some i else findRow item rest (i + 1)

/-- The local state of the first loop of `SortHTMLFilesByAlphanumeric`: the rows of the Text
folder, `first_item_position`, and the rows of the temporary item `items`. -/
structure Taken where
  text : List (Nat × Item)
  first_item_position : Int
  items : List (Nat × Item)
  deriving DecidableEq, Repr

/-- The body of the first loop of `SortHTMLFilesByAlphanumeric` for one selected item. -/
def takeItem (t : Taken) (item : Nat) : Taken :=
  match findRow item t.text 0 with
  | none => t
  | some i =>
    { text := t.text.eraseIdx i,
      first_item_position := if t.first_item_position < 0 then (i : Int)
        else t.first_item_position,
      items := t.items ++ (t.text.get? i).toList }

/-- The function `QStandardItem::insertRow(row, item)`: nothing is inserted when `row` is
negative or larger than the number of rows. -/
def insertRow {α : Type} (l : List α) (row : Int) (item : α) : List α :=
  if row < 0 ∨ (l.length : Int) < row then l else l.take row.toNat ++ item :: l.drop row.toNat

/-- The second loop of `SortHTMLFilesByAlphanumeric`: each row of `items`, from the top, is
taken and inserted in the Text folder at `first_item_position++`. -/
def reinsert {α : Type} : List α → Int → List α → List α
  | [], _, text => text
  | one_item :: rest, first_item_position, text =>
    reinsert rest (first_item_position + 1) (insertRow text first_item_position one_item)

/-- The rows of a folder paired with their positions. -/
def withPositions {α : Type} (l : List α) : List (Nat × α) :=
  (List.range l.length).zip l

/-- The rows of the Text folder after `SortHTMLFilesByAlphanumeric`, each with the position
it had before; `index_list` holds the rows of the selected indexes, an index outside the
Text folder being one that no row answers to. -/
def sortSelected {n : Nat} (cx : Context n) (text : List Item) (index_list : List Nat) :
    List (Nat × Item) :=
  let taken := index_list.foldl takeItem
    { text := withPositions text, first_item_position := -1, items := [] }
  let sorted := taken.items.insertionSort fun a b =>
    cx.itemLess SortRole.ALPHANUMERIC_ORDER_ROLE b.2 a.2 = false
  reinsert sorted taken.first_item_position taken.text

/-- The function `OPFModel::SortHTMLFilesByAlphanumeric`. -/
def SortHTMLFilesByAlphanumeric {n : Nat} (cx : Context n) (m : OPFModel)
    (index_list : List Nat) : OPFModel :=
  { m with m_TextFolderItem := (sortSelected cx m.m_TextFolderItem index_list).map Prod.snd }

/-- The function `OPFModel::SortHTML`. -/
def SortHTML {n : Nat} (cx : Context n) (st : State n) (index_list : List Nat) : State n :=
  let st1 := { st with model := { st.model with m_RefreshInProgress := true } }
  let st2 := { st1 with model := SortHTMLFilesByAlphanumeric cx st1.model index_list }
  let st3 := UpdateHTMLReadingOrders st2
  { st3 with model := { st3.model with m_RefreshInProgress := false } }

/-! ## Sample data used to instantiate the theorems -/

/-- A comparison of items for the samples: by text, by reading order, or by the
alphanumeric key, after the sort role. -/
def sampleItemLess : SortRole → Item → Item → Bool
  | SortRole.DisplayRole, a, b => decide (a.text < b.text)
  | SortRole.READING_ORDER_ROLE, a, b =>
    match a.readingOrder, b.readingOrder with
    | some x, some y => decide (x < y)
    | some _, none => true
    | none, _ => false
  | SortRole.ALPHANUMERIC_ORDER_ROLE, a, b =>
    match a.alphanumericOrder, b.alphanumericOrder with
    | some x, some y => decide (x < y)
    | _, _ => false

/-- A sample context: full paths shown, version 2, a manifest that reports no reading order,
and a file system on which every call succeeds. -/
def sampleContext (n : Nat) : Context n :=
  { showFullPathOn := true, NO_READING_ORDER := 2147483647,
    GetReadingOrderAll := fun _ => none,
    GetEpubVersion := "2.0".toList, GetLandmarkNameForPaths := fun _ => none,
    GetManifestPropertiesForPaths := fun _ => none,
    GetGuideSemanticNameForPaths := fun _ => none,
    GetDescription := fun _ => [], itemLess := sampleItemLess, fs := fun _ _ => true }

/-- A member of a sample book kept in the folder `/b`, identified by its book path. -/
def sampleFile (bookpath : String) (type : ResourceType) : Resource :=
  newResource bookpath.toList "/b".toList ("/b/" ++ bookpath).toList type

/-- The state of a book just opened: the given registry, the tree of the constructor, and
nothing done yet. -/
def newState {n : Nat} (res : Fin n → Resource) : State n :=
  { res := res, model := newOPFModel, fsCalls := [], signals := [], dialogs := [], calls := [] }

/-- Two members of the protected folder `META-INF`. -/
def sampleMetaInf : Fin 2 → Resource :=
  ![sampleFile "META-INF/a.xml" ResourceType.XMLResourceType,
    sampleFile "META-INF/b.xml" ResourceType.XMLResourceType]

/-- Two HTML files of the folder `Text` whose names differ in case only. -/
def sampleCaseTwins : Fin 2 → Resource :=
  ![sampleFile "Text/a.html" ResourceType.HTMLResourceType,
    sampleFile "Text/A.html" ResourceType.HTMLResourceType]

/-- Three HTML files of the folder `Text`. -/
def sampleThree : Fin 3 → Resource :=
  ![sampleFile "Text/a.html" ResourceType.HTMLResourceType,
    sampleFile "Text/b.html" ResourceType.HTMLResourceType,
    sampleFile "Text/c.html" ResourceType.HTMLResourceType]

/-! ## What happens to a pair of a batch -/

/-- The four ways in which the body of a batch loop ends for a pair. -/
inductive Outcome where
  | skipped
  | rejected
  | failed
  | applied
  deriving DecidableEq, Repr

/-- The call `Resource::RenameTo` makes to the file system. -/
def renameCall (r : Resource) (new_filename : QString) : FsCall :=
  FsCall.RenameFile r.m_FullFilePath (absolutePath r.m_FullFilePath ++ '/' :: new_filename)

/-- The call `Resource::MoveTo` makes to the file system. -/
def moveCall (r : Resource) (new_bookpath : QString) : FsCall :=
  FsCall.SMoveFile r.m_FullFilePath (r.m_MainFolder ++ '/' :: new_bookpath)

/-- The way the body of the rename loop ends for a pair, from the tests it makes in turn:
skipped for a member under `META-INF/` or a name that is the current one, rejected by
`FilenameIsValid`, failed in the file system, or applied. -/
def renameOutcome {n : Nat} (cx : Context n) (b : Batch n) (resource : Fin n)
    (new_filename : QString) : Outcome :=
  let r := b.st.res resource
  let name := withExtension r.Filename new_filename
  if startsWith r.GetRelativePath "META-INF/".toList then Outcome.skipped
  else if r.Filename = name then Outcome.skipped
  else if (filenameProblem (GetAllBookPaths b.st.res) r.GetRelativePath name).isSome then
    Outcome.rejected
  else if cx.fs b.st.fsCalls.length (renameCall r name) then Outcome.applied
  else Outcome.failed

/-- The way the body of the move loop ends for a pair: skipped for a member under
`META-INF/`, rejected by `BookPathIsValid`, failed in the file system, or applied. -/
def moveOutcome {n : Nat} (cx : Context n) (b : Batch n) (resource : Fin n)
    (newbookpath : QString) : Outcome :=
  let r := b.st.res resource
  if startsWith r.GetRelativePath "META-INF/".toList then Outcome.skipped
  else if (bookPathProblem (GetAllBookPaths b.st.res) newbookpath).isSome then Outcome.rejected
  else if cx.fs b.st.fsCalls.length (moveCall r newbookpath) then Outcome.applied
  else Outcome.failed

/-- The bodies of a batch loop applied to a list of pairs, from left to right. -/
def runPairs {n : Nat} (body : Batch n → Fin n → QString → Batch n) (b : Batch n)
    (pairs : List (Fin n × QString)) : Batch n :=
  pairs.foldl (fun acc p => body acc p.1 p.2) b

/-- The outcomes of the pairs of a batch, each at its turn. -/
def outcomes {n : Nat} (body : Batch n → Fin n → QString → Batch n)
    (outcome : Batch n → Fin n → QString → Outcome) :
    Batch n → List (Fin n × QString) → List Outcome
  | _, [] => []
  | b, p :: rest => outcome b p.1 p.2 :: outcomes body outcome (body b p.1 p.2) rest

/-- A batch of three pairs over `sampleThree`: `a.html` to `x`, `b.html` to `c` (the path
`Text/c.html` is owned at that turn), `c.html` to `z`. -/
def sampleBatch : List (Fin 3 × QString) :=
  [(0, "x".toList), (1, "c".toList), (2, "z".toList)]

/-- The changes of path made by a batch, oldest first: for each pair applied at its turn,
the book path the member had before and the one it has after. -/
def changes {n : Nat} (body : Batch n → Fin n → QString → Batch n)
    (outcome : Batch n → Fin n → QString → Outcome) :
    Batch n → List (Fin n × QString) → List (QString × QString)
  | _, [] => []
  | b, p :: rest =>
    if outcome b p.1 p.2 = Outcome.applied then
      ((b.st.res p.1).GetRelativePath, ((body b p.1 p.2).st.res p.1).GetRelativePath)
        :: changes body outcome (body b p.1 p.2) rest
    else changes body outcome (body b p.1 p.2) rest

/-- A batch that renames the first member of `sampleThree` three times: to `x`, back to `a`,
then to `y`. -/
def sampleThrice : List (Fin 3 × QString) :=
  [(0, "x".toList), (0, "a".toList), (0, "y".toList)]

/-- A batch that moves the first member of `sampleThree` to the folder `Extra`. -/
def sampleMoves : List (Fin 3 × QString) :=
  [(0, "Extra/a.html".toList)]

/-! ## Reading-order keys -/

/-- The members of type HTML, in the order of the registry. -/
def htmlMembers {n : Nat} (res : Fin n → Resource) : List (Fin n) :=
  (List.finRange n).filter fun i => decide ((res i).type = ResourceType.HTMLResourceType)

/-- The reading order `InitializeModel` stores for an HTML member: the one the manifest
reports, `NO_READING_ORDER` for a member the manifest does not report. -/
def manifestOrderKey {n : Nat} (cx : Context n) (i : Fin n) : Int :=
  match cx.GetReadingOrderAll i with
  | some order => order
  | none => cx.NO_READING_ORDER

/-- The data for `READING_ORDER_ROLE` of the rows of the Text folder, from the top. -/
def orderKeys (m : OPFModel) : List (Option Int) :=
  m.m_TextFolderItem.map fun item => item.readingOrder

/-- The keys `0, 1, ..., N-1`. -/
def firstKeys (N : Nat) : List (Option Int) :=
  List.map (fun k : Nat => some (Int.ofNat k)) (List.range N)

/-- What holds of the reading-order keys of the Text folder after a refresh: they are, in
some order, the keys of the manifest for the HTML members; and they are `0, ..., N-1` in
some order, `N` the number of HTML members, when the manifest reports for each HTML member
a position below `N` and no position twice. -/
def OrderKeysFromManifest {n : Nat} (cx : Context n) (st : State n) : Prop :=
  (orderKeys st.model).Perm ((htmlMembers st.res).map fun i => some (manifestOrderKey cx i))
  ∧ ((∀ i ∈ htmlMembers st.res, ∃ k : Nat, k < (htmlMembers st.res).length
        ∧ cx.GetReadingOrderAll i = some (k : Int)) →
      ((htmlMembers st.res).map cx.GetReadingOrderAll).Nodup →
      (orderKeys st.model).Perm (firstKeys (htmlMembers st.res).length))

/-- A sample context whose manifest reports a reading order for the first member only. -/
def sampleFirstOnly : Context 3 :=
  { sampleContext 3 with GetReadingOrderAll := fun i => if i = 0 then some 0 else none }

/-- The number of items of a tree that carry the given identifier, folders and top level
together. -/
def nodesOf (m : OPFModel) (identifier : QString) : Nat :=
  m.allItems.countP fun item => decide (item.identifier = identifier)

/-- A book with one member of each kind of parent: an HTML file, a stylesheet, an image,
the manifest, the navigation descriptor, and a file of a type none of the tests names. -/
def sampleKinds : Fin 6 → Resource :=
  ![sampleFile "Text/a.html" ResourceType.HTMLResourceType,
    sampleFile "Styles/s.css" ResourceType.CSSResourceType,
    sampleFile "Images/i.svg" ResourceType.SVGResourceType,
    sampleFile "content.opf" ResourceType.OPFResourceType,
    sampleFile "toc.ncx" ResourceType.NCXResourceType,
    sampleFile "Misc/notes.txt" ResourceType.TextResourceType]

/-- An item with its reading order and its icon blanked: what `UpdateHTMLReadingOrders`
does not touch. -/
def Item.withoutOrder (item : Item) : Item :=
  { item with readingOrder := none, icon := [] }

/-- What `UpdateHTMLReadingOrders` has done when it turned the state `before` into the state
`after`: the rows of the Text folder carry the keys `0, ..., N-1` from the top and differ
from the rows of `before` in reading order and icon only; `UpdateSpineOrder` was called
once, then `SetModified`, with the HTML members of the rows from the top, which are the
members of all the rows, in the same order, when every row is the row of an HTML member. -/
def Renumbered {n : Nat} (before after : State n) : Prop :=
  orderKeys after.model = firstKeys after.model.m_TextFolderItem.length
  ∧ after.model.m_TextFolderItem.map Item.withoutOrder
      = before.model.m_TextFolderItem.map Item.withoutOrder
  ∧ ∃ reading_order_htmls : List (Fin n),
      after.calls = before.calls ++ [Call.UpdateSpineOrder reading_order_htmls, Call.SetModified]
      ∧ reading_order_htmls
        = after.model.m_TextFolderItem.filterMap
            (fun item => htmlResourceOf before.res item.identifier)
      ∧ ((∀ item ∈ after.model.m_TextFolderItem,
            (htmlResourceOf before.res item.identifier).isSome = true) →
          reading_order_htmls.map (fun r => (before.res r).GetIdentifier)
            = after.model.m_TextFolderItem.map (fun item => item.identifier))

/-- The tree in which `SortHTML` calls `UpdateHTMLReadingOrders`: the refresh flag set and
the selected rows sorted. -/
def sortedModel {n : Nat} (cx : Context n) (m : OPFModel) (index_list : List Nat) : OPFModel :=
  SortHTMLFilesByAlphanumeric cx { m with m_RefreshInProgress := true } index_list

/-- Five HTML files of the folder `Text`. -/
def sampleFive : Fin 5 → Resource :=
  ![sampleFile "Text/a.html" ResourceType.HTMLResourceType,
    sampleFile "Text/b.html" ResourceType.HTMLResourceType,
    sampleFile "Text/c.html" ResourceType.HTMLResourceType,
    sampleFile "Text/d.html" ResourceType.HTMLResourceType,
    sampleFile "Text/e.html" ResourceType.HTMLResourceType]

/-- The texts of the rows of the Text folder, from the top. -/
def textRows (m : OPFModel) : List QString :=
  m.m_TextFolderItem.map fun item => item.text

/-- A sample context whose manifest reports the members in the order of the registry. -/
def sampleInOrder : Context 3 :=
  { sampleContext 3 with GetReadingOrderAll := fun i => some (Int.ofNat i.val) }

/-! ## Folders of a member -/

/-- The directory part reported by `QFileInfo(path).path()`: empty for an empty path, `"."`
for a path without `'/'`, `"/"` when the only `'/'` is the first character, and the text
before the last `'/'` otherwise. -/
def filePath (path : QString) : QString :=
  if path.isEmpty then []
  else
    let pos := lastIndexOf path '/'
    if pos < 0 then ['.'] else if pos = 0 then ['/'] else left path pos

/-- The folder of the member within the book, `Resource::GetFolder`. -/
def Resource.GetFolder (r : Resource) : QString :=
  filePath r.GetRelativePath

/-- The folder of the member on disk, `Resource::GetFullFolderPath`. -/
def Resource.GetFullFolderPath (r : Resource) : QString :=
  absolutePath r.m_FullFilePath

/-- The member as `Resource::RenameTo` leaves it after a successful rename. -/
def Resource.renamed (r : Resource) (new_filename : QString) : Resource :=
  { r with
    m_FullFilePath := absolutePath r.m_FullFilePath ++ '/' :: new_filename,
    m_ShortName := new_filename }

/-- A sample context on whose file system every call fails. -/
def sampleFailing (n : Nat) : Context n :=
  { sampleContext n with fs := fun _ _ => false }

/-- A book whose only member is the file `Misc/README`, a name without `'.'`. -/
def sampleReadme : Fin 1 → Resource :=
  ![sampleFile "Misc/README" ResourceType.MiscTextResourceType]

/-! ## Distinct book paths -/

/-- No two members have book paths that are equal up to the case of their letters. -/
def DistinctUpToCase {n : Nat} (res : Fin n → Resource) : Prop :=
  ∀ i j : Fin n, i ≠ j →
    caseFolded (res i).GetRelativePath ≠ caseFolded (res j).GetRelativePath

instance decidableDistinctUpToCase {n : Nat} (res : Fin n → Resource) :
    Decidable (DistinctUpToCase res) :=
  inferInstanceAs (Decidable (∀ i j : Fin n, i ≠ j →
    caseFolded (res i).GetRelativePath ≠ caseFolded (res j).GetRelativePath))

/-- No two members have the same book path, letter for letter. -/
def DistinctPaths {n : Nat} (res : Fin n → Resource) : Prop :=
  ∀ i j : Fin n, i ≠ j → (res i).GetRelativePath ≠ (res j).GetRelativePath

instance decidableDistinctPaths {n : Nat} (res : Fin n → Resource) :
    Decidable (DistinctPaths res) :=
  inferInstanceAs (Decidable (∀ i j : Fin n, i ≠ j →
    (res i).GetRelativePath ≠ (res j).GetRelativePath))

/-- The shape of a member kept in the folder of its book: the main folder has a name, the
full path is the main folder, `'/'` and the book path, and the book path does not begin
with `'/'`. -/
def UnderMainFolder (r : Resource) : Prop :=
  r.m_MainFolder ≠ [] ∧ r.m_FullFilePath = r.m_MainFolder ++ '/' :: r.GetRelativePath
    ∧ startsWith r.GetRelativePath ['/'] = false

instance decidableUnderMainFolder (r : Resource) : Decidable (UnderMainFolder r) :=
  inferInstanceAs (Decidable (r.m_MainFolder ≠ []
    ∧ r.m_FullFilePath = r.m_MainFolder ++ '/' :: r.GetRelativePath
    ∧ startsWith r.GetRelativePath ['/'] = false))

/-! ## Changes of a file on disk -/

/-- What a `QFileInfo` reports of the file of a member: the time of last modification in
milliseconds (`none` for a date that is not valid) and the size. -/
structure FileInfo where
  lastModified : Option Int
  size : Int
  deriving DecidableEq, Repr

/-- The value `lastModifiedDate.isValid() ? lastModifiedDate.toMSecsSinceEpoch() : 0`. -/
def FileInfo.stamp (info : FileInfo) : Int :=
  match info.lastModified with
  | some msecs => msecs
  | none => 0

/-- The two signals `ResourceFileModified` can emit. -/
inductive DiskSignal where
  | ResourceUpdatedFromDisk
  | ResourceUpdatedOnDisk
  deriving DecidableEq, Repr

/-- A member after one of its two slots ran: the member, the signals emitted, and whether
`QTimer::singleShot` was asked to run `ResourceFileModified` after `WAIT_FOR_WRITE_DELAY`. -/
structure Sampled where
  resource : Resource
  emitted : List DiskSignal
  scheduled : Bool
  deriving DecidableEq, Repr

/-- The function `Resource::SaveToDisk` of the base class: the stamp of the last save. -/
def SaveToDisk (r : Resource) (info : FileInfo) : Resource :=
  match info.lastModified with
  | some msecs => { r with m_LastSaved := msecs }
  | none => r

/-- The slot `Resource::FileChangedOnDisk`, given what the file reports. -/
def FileChangedOnDisk (r : Resource) (latestFileInfo : FileInfo) : Sampled :=
  { resource := { r with m_LastWrittenTo := latestFileInfo.stamp,
                         m_LastWrittenSize := latestFileInfo.size },
    emitted := [], scheduled := true }

/-- The slot `Resource::ResourceFileModified`, given what the file reports and the answer
of the virtual `LoadFromDisk`. -/
def ResourceFileModified (LoadFromDisk : Bool) (r : Resource) (newFileInfo : FileInfo) :
    Sampled :=
  let latestWrittenTo := newFileInfo.stamp
  let latestWrittenSize := newFileInfo.size
  if latestWrittenTo = r.m_LastSaved then
    { resource := r, emitted := [], scheduled := false }
  else if latestWrittenTo ≠ r.m_LastWrittenTo ∨ latestWrittenSize ≠ r.m_LastWrittenSize then
    { resource := { r with m_LastWrittenTo := latestWrittenTo,
                           m_LastWrittenSize := latestWrittenSize },
      emitted := [], scheduled := true }
  else
    { resource := r,
      emitted := (if LoadFromDisk then [DiskSignal.ResourceUpdatedFromDisk] else [])
        ++ [DiskSignal.ResourceUpdatedOnDisk],
      scheduled := false }

/-- The signals emitted while the timer keeps running `ResourceFileModified`: each run
takes the next report of the file, and another run follows when the timer was set again. -/
def resample (LoadFromDisk : Bool) : Resource → List FileInfo → List DiskSignal
  | _, [] => []
  | r, info :: later =>
    (ResourceFileModified LoadFromDisk r info).emitted
      ++ (if (ResourceFileModified LoadFromDisk r info).scheduled then
            resample LoadFromDisk (ResourceFileModified LoadFromDisk r info).resource later
          else [])

/-- The signals emitted after the watcher reported a change: `FileChangedOnDisk` takes the
first report of the file, the timer the later ones. -/
def watch (LoadFromDisk : Bool) (r : Resource) (first : FileInfo) (later : List FileInfo) :
    List DiskSignal :=
  (FileChangedOnDisk r first).emitted
    ++ (if (FileChangedOnDisk r first).scheduled then
          resample LoadFromDisk (FileChangedOnDisk r first).resource later
        else [])

/-- Two reports of the file that differ in time or in size. -/
def FileInfo.differs (a b : FileInfo) : Prop :=
  a.stamp ≠ b.stamp ∨ a.size ≠ b.size

instance decidableDiffers (a b : FileInfo) : Decidable (a.differs b) :=
  inferInstanceAs (Decidable (a.stamp ≠ b.stamp ∨ a.size ≠ b.size))

/-- A member last saved at time 5 whose last sample was time 3, size 10. -/
def sampleSaved : Resource :=
  { sampleFile "Text/a.html" ResourceType.HTMLResourceType with
    m_LastSaved := 5, m_LastWrittenTo := 3, m_LastWrittenSize := 10 }

/-! ## Editing the name of an item in place -/

/-- The texts the constructor of `OPFModel` gives the seven folder items. -/
def Folder.text : Folder → QString
  | Folder.Text => "Text".toList
  | Folder.Styles => "Styles".toList
  | Folder.Images => "Images".toList
  | Folder.Fonts => "Fonts".toList
  | Folder.Misc => "Misc".toList
  | Folder.Audio => "Audio".toList
  | Folder.Video => "Video".toList

/-- A `QStandardItem *` into the tree: the row of a folder item, or the row of the root (a
folder item or the item of a file shown at top level). -/
inductive ItemRef where
  | child (f : Folder) (row : Nat)
  | top (row : Nat)
  deriving DecidableEq, Repr

/-- The answers of `item->text()` and `item->data().toString()` for the item pointed at;
a folder item has no data.  `none` when no item is there. -/
def textAndData (m : OPFModel) : ItemRef → Option (QString × QString)
  | ItemRef.child f row =>
    match (m.rows f).get? row with
    | some item => some (item.text, item.identifier)
    | none => none
  | ItemRef.top row =>
    match m.root.get? row with
    | some (TopRow.file item) => some (item.text, item.identifier)
    | some (TopRow.folder f) => some (f.text, [])
    | none => none

/-- The stores of `item->setText(text)` in the item of a file.  The text of a folder item is
no part of the tree kept here; `ItemChangedHandler` sets the text of items with data only,
and a folder item has none. -/
def storeText (m : OPFModel) (text : QString) : ItemRef → OPFModel
  | ItemRef.child f row =>
    match (m.rows f).get? row with
    | some item => m.setRows f ((m.rows f).set row { item with text := text })
    | none => m
  | ItemRef.top row =>
    match m.root.get? row with
    | some (TopRow.file item) =>
      { m with root := m.root.set row (TopRow.file { item with text := text }) }
    | _ => m

/-- The slot `OPFModel::ItemChangedHandler`, run for an item of the tree.

`use_filename_warning` is `Utility::use_filename_warning`, not among the sources.  The
constructor connects the signal `itemChanged` of the model to this slot, and
`QStandardItem::setText` on an item of a model emits that signal, before it returns, when
the text it is given is not the text the item has: so the slot runs again, for the same
item, inside `item->setText(...)`.  `fuel` bounds the depth of these runs; `none` stands for
a run that does not end well: no fuel left, no item, or no member for the identifier (the
pointer returned is used unchecked). -/
def ItemChangedHandler {n : Nat} (use_filename_warning : QString → Bool) (cx : Context n) :
    Nat → State n → ItemRef → Option (State n)
  | 0, _, _ => none
  | fuel + 1, st, item =>
    match textAndData st.model item with
    | none => none
    | some (text, identifier) =>
      if identifier.isEmpty then
        some { st with signals := st.signals ++ [Signal.ResourceRenamed] }
      else
        match GetResourceByIdentifier st.res identifier with
        | none => none
        | some resource =>
          let new_filename := if text.isEmpty then text else splitLast '/' text
          if new_filename ≠ (st.res resource).Filename then
            if use_filename_warning new_filename = false then
              let shown := displayName cx (st.res resource)
              if text = shown then some st
              else
                ItemChangedHandler use_filename_warning cx fuel
                  { st with model := storeText st.model shown item } item
            else
              match RenameResource cx st resource new_filename with
              | none => none
              | some renamed =>
                some { renamed.1 with signals := renamed.1.signals ++ [Signal.ResourceRenamed] }
          else some { st with signals := st.signals ++ [Signal.ResourceRenamed] }

/-- The book `sampleThree` as shown after a refresh, the text of the first row of the folder
`Text` just edited to `Text/new.html`. -/
def sampleEdited : State 3 :=
  { newState sampleThree with
    model := storeText (Refresh (sampleContext 3) sampleThree newOPFModel)
      "Text/new.html".toList (ItemRef.child Folder.Text 0) }

/-! ## Looking a member up in the tree -/

/-- The values of `IndexChoice` that `OPFModel.cpp` names, and `exact` for the value that
asks for the row itself (the declaration of the type is not among the sources). -/
inductive IndexChoice where
  | exact
  | IndexChoice_Previous
  | IndexChoice_Next
  deriving DecidableEq, Repr

/-- An item that has rows: `invisibleRootItem()` or one of the seven folder items. -/
inductive Parent where
  | root
  | folder (f : Folder)
  deriving DecidableEq, Repr

/-- A `QModelIndex` of the tree, column 0: no index, or a row of a parent. -/
inductive ModelIndex where
  | invalid
  | valid (parent : Parent) (row : Nat)
  deriving DecidableEq, Repr

/-- The answers of `folder->child(i)->data().toString()` for the rows of a parent, from the
top; a folder item has no data. -/
def childData (m : OPFModel) : Parent → List QString
  | Parent.root =>
    m.root.map fun row =>
      match row with
      | TopRow.folder _ => []
      | TopRow.file item => item.identifier
  | Parent.folder f => (m.rows f).map fun item => item.identifier

/-- The call `index(row, 0, parent->index())` of `QStandardItemModel`: no index when the
parent has no such row.  The seven folder items are rows of the root from the constructor
on, and the index of the root item is the index that is not valid, whose rows are the top
level. -/
def index (m : OPFModel) (row : Nat) (parent : Parent) : ModelIndex :=
  if row < (childData m parent).length then ModelIndex.valid parent row else ModelIndex.invalid

/-- The search of the loop of `GetModelFolderItemIndex`, from row `i` on: the first row
whose data is not empty and is the identifier. -/
def firstRowOf (identifier : QString) : List QString → Nat → Option Nat
  | [], _ => none
  | data :: rest, i =>
    if data.isEmpty = false ∧ data = identifier then some i
    else firstRowOf identifier rest (i + 1)

/-- The function `OPFModel::GetModelFolderItemIndex`; `folder` is `none` for `NULL`. -/
def GetModelFolderItemIndex {n : Nat} (m : OPFModel) (res : Fin n → Resource)
    (folder : Option Parent) (resource : Fin n) (indexChoice : IndexChoice) : ModelIndex :=
  match folder with
  | some parent =>
    let rowCount := (childData m parent).length
    match firstRowOf (res resource).GetIdentifier (childData m parent) 0 with
    | some i =>
      let row :=
        if parent ≠ Parent.root then
          if indexChoice = IndexChoice.IndexChoice_Previous ∧ i > 0 then i - 1
          else if indexChoice = IndexChoice.IndexChoice_Next ∧ i + 1 < rowCount then i + 1
          else i
        else i
      index m row parent
    | none => index m 0 Parent.root
  | none => index m 0 Parent.root

/-- The test of the loop of `GetModelItemIndex` on a row of the root: whether the row is the
folder item searched for a member of the type. -/
def searchedFor (resourceType : ResourceType) : TopRow → Bool
  | TopRow.folder Folder.Text => resourceType = ResourceType.HTMLResourceType
  | TopRow.folder Folder.Images =>
    resourceType = ResourceType.ImageResourceType ∨ resourceType = ResourceType.SVGResourceType
  | TopRow.folder Folder.Styles => resourceType = ResourceType.CSSResourceType
  | TopRow.folder Folder.Fonts => resourceType = ResourceType.FontResourceType
  | TopRow.folder Folder.Misc =>
    resourceType = ResourceType.GenericResourceType ∨ resourceType = ResourceType.XMLResourceType
  | TopRow.folder Folder.Audio => resourceType = ResourceType.AudioResourceType
  | TopRow.folder Folder.Video => resourceType = ResourceType.VideoResourceType
  | TopRow.file _ => false

/-- The parent `GetModelItemIndex` hands to `GetModelFolderItemIndex` for a type: the root
for the two descriptors, else the first row of the root that passes the test, `none` for
`NULL`. -/
def searchedParent (m : OPFModel) (resourceType : ResourceType) : Option Parent :=
  if resourceType = ResourceType.OPFResourceType ∨ resourceType = ResourceType.NCXResourceType
  then some Parent.root
  else
    match m.root.find? (searchedFor resourceType) with
    | some (TopRow.folder f) => some (Parent.folder f)
    | _ => none

/-- The function `OPFModel::GetModelItemIndex`. -/
def GetModelItemIndex {n : Nat} (m : OPFModel) (res : Fin n → Resource) (resource : Fin n)
    (indexChoice : IndexChoice) : ModelIndex :=
  let resourceType := (res resource).type
  GetModelFolderItemIndex m res (searchedParent m resourceType) resource indexChoice

/-- The folder `GetResourceListInFolder` lists for a type, `none` for `NULL`. -/
def listedFolder : ResourceType → Option Folder
  | ResourceType.HTMLResourceType => some Folder.Text
  | ResourceType.CSSResourceType => some Folder.Styles
  | ResourceType.ImageResourceType => some Folder.Images
  | ResourceType.SVGResourceType => some Folder.Images
  | ResourceType.FontResourceType => some Folder.Fonts
  | ResourceType.MiscTextResourceType => some Folder.Misc
  | ResourceType.AudioResourceType => some Folder.Audio
  | ResourceType.VideoResourceType => some Folder.Video
  | ResourceType.OPFResourceType => none
  | ResourceType.NCXResourceType => none
  | _ => some Folder.Misc

/-- The function `OPFModel::GetResourceListInFolder(Resource::ResourceType)`: for each row
of the folder the member `GetResourceByIdentifier` answers, `none` for no member. -/
def GetResourceListInFolder {n : Nat} (m : OPFModel) (res : Fin n → Resource)
    (resource_type : ResourceType) : List (Option (Fin n)) :=
  match listedFolder resource_type with
  | some folder => (m.rows folder).map fun item => GetResourceByIdentifier res item.identifier
  | none => []

/-- The function `OPFModel::GetResourceListInFolder(Resource *)`. -/
def GetResourceListInFolderOf {n : Nat} (m : OPFModel) (res : Fin n → Resource)
    (resource : Fin n) : List (Option (Fin n)) :=
  GetResourceListInFolder m res (res resource).type

/-- A book with a file of the type `MiscTextResourceType` beside an HTML file and the
manifest. -/
def sampleMiscText : Fin 3 → Resource :=
  ![sampleFile "Text/a.html" ResourceType.HTMLResourceType,
    sampleFile "content.opf" ResourceType.OPFResourceType,
    sampleFile "Misc/notes.txt" ResourceType.MiscTextResourceType]

/-- The parent to which `InitializeModel` appends the item of a member of the given type:
the folder item of the type, the root for the two descriptors. -/
def appendedTo (resourceType : ResourceType) : Parent :=
  match folderOfType resourceType with
  | some f => Parent.folder f
  | none => Parent.root

/-- The rows of the Text folder from the top, each as the identifier it carries and its
data for `READING_ORDER_ROLE`. -/
def keyedRows (m : OPFModel) : List (QString × Option Int) :=
  m.m_TextFolderItem.map fun item => (item.identifier, item.readingOrder)

/-- The HTML members in the order of the registry, each as its identifier and the key of
the manifest for it. -/
def manifestKeyedRows {n : Nat} (cx : Context n) (res : Fin n → Resource) :
    List (QString × Option Int) :=
  (htmlMembers res).map fun i => ((res i).GetIdentifier, some (manifestOrderKey cx i))

/-- What holds of the rows of the Text folder after a refresh, member by member: the rows
are, in some order, one row for each HTML member, carrying the identifier of the member and
the key of the manifest for it; so every row belongs to an HTML member and has its key, and
every HTML member has a row with its key. -/
def NodesKeyedByManifest {n : Nat} (cx : Context n) (st : State n) : Prop :=
  (keyedRows st.model).Perm (manifestKeyedRows cx st.res)
  ∧ (∀ item ∈ st.model.m_TextFolderItem, ∃ i ∈ htmlMembers st.res,
      item.identifier = (st.res i).GetIdentifier
        ∧ item.readingOrder = some (manifestOrderKey cx i))
  ∧ (∀ i ∈ htmlMembers st.res, ∃ item ∈ st.model.m_TextFolderItem,
      item.identifier = (st.res i).GetIdentifier
        ∧ item.readingOrder = some (manifestOrderKey cx i))

theorem mem_GetAllBookPaths {n : Nat} (res : Fin n → Resource) (i : Fin n) :
    (res i).GetRelativePath ∈ GetAllBookPaths res := by
  unfold GetAllBookPaths
  exact List.mem_map.mpr ⟨i, List.mem_finRange i, rfl⟩

theorem containsCI_of_mem {l : List QString} {s str : QString} (hs : s ∈ l)
    (h : caseFolded str = caseFolded s) : containsCI l str = true := by
  unfold containsCI
  exact List.any_eq_true.mpr ⟨s, hs, by simp [h]⟩

/-- A name whose path is owned, up to case, by some member is rejected, with one of the three
dialogs, and with the one for a name in use when the two earlier tests let it through. -/
theorem filenameProblem_of_owned {n : Nat} (res : Fin n → Resource) (owner : Fin n)
    (old_bookpath new_filename : QString)
    (h : caseFolded (proposedBookPath old_bookpath new_filename)
      = caseFolded (res owner).GetRelativePath) :
    filenameProblem (GetAllBookPaths res) old_bookpath new_filename
        = some (Dialog.filenameInUse new_filename)
      ∨ filenameProblem (GetAllBookPaths res) old_bookpath new_filename
        = some Dialog.emptyFilename
      ∨ ∃ character, character ∈ new_filename ∧
          FORBIDDEN_FILENAME_CHARS.contains character = true ∧
          filenameProblem (GetAllBookPaths res) old_bookpath new_filename
            = some (Dialog.forbiddenCharacter character) := by
  have hc := containsCI_of_mem (mem_GetAllBookPaths res owner) h
  unfold filenameProblem
  cases hf : new_filename.find? (fun character => FORBIDDEN_FILENAME_CHARS.contains character) with
  | some character =>
    right; right
    exact ⟨character, List.mem_of_find?_eq_some hf, List.find?_some hf, rfl⟩
  | none =>
    simp only [hc]
    split
    · right; left; rfl
    · left; rfl

/-! ## Lemmas on the body of the rename loop -/

theorem renamePair_protected {n : Nat} (cx : Context n) (b : Batch n) (resource : Fin n)
    (new_filename : QString)
    (h : startsWith (b.st.res resource).GetRelativePath "META-INF/".toList = true) :
    renamePair cx b resource new_filename = b := by
  simp only [renamePair, h, if_true]

theorem renamePair_same_name {n : Nat} (cx : Context n) (b : Batch n) (resource : Fin n)
    (new_filename : QString)
    (h : (b.st.res resource).Filename
      = withExtension (b.st.res resource).Filename new_filename) :
    renamePair cx b resource new_filename = b := by
  unfold renamePair
  simp only [← h, if_true, ite_self]

theorem renamePair_rejected {n : Nat} (cx : Context n) (b : Batch n) (resource : Fin n)
    (new_filename : QString) (d : Dialog)
    (hmeta : startsWith (b.st.res resource).GetRelativePath "META-INF/".toList = false)
    (hname : (b.st.res resource).Filename
      ≠ withExtension (b.st.res resource).Filename new_filename)
    (hd : filenameProblem (GetAllBookPaths b.st.res) (b.st.res resource).GetRelativePath
      (withExtension (b.st.res resource).Filename new_filename) = some d) :
    renamePair cx b resource new_filename
      = { b with st := { b.st with dialogs := b.st.dialogs ++ [d] },
                 not_processed := b.not_processed ++ [displayName cx (b.st.res resource)] } := by
  simp only [renamePair, hmeta, hname, FilenameIsValid, hd, if_true, if_false,
    Bool.false_eq_true]

theorem renamePair_accepted {n : Nat} (cx : Context n) (b : Batch n) (resource : Fin n)
    (new_filename : QString)
    (hmeta : startsWith (b.st.res resource).GetRelativePath "META-INF/".toList = false)
    (hname : (b.st.res resource).Filename
      ≠ withExtension (b.st.res resource).Filename new_filename)
    (hd : filenameProblem (GetAllBookPaths b.st.res) (b.st.res resource).GetRelativePath
      (withExtension (b.st.res resource).Filename new_filename) = none) :
    renamePair cx b resource new_filename
      = if (RenameTo cx b.st resource
            (withExtension (b.st.res resource).Filename new_filename)).2 = false then
          { b with
            st := (RenameTo cx b.st resource
              (withExtension (b.st.res resource).Filename new_filename)).1,
            not_processed := b.not_processed ++ [displayName cx
              ((RenameTo cx b.st resource
                (withExtension (b.st.res resource).Filename new_filename)).1.res resource)] }
        else
          { b with
            st := (RenameTo cx b.st resource
              (withExtension (b.st.res resource).Filename new_filename)).1,
            update := hashInsert (b.st.res resource).GetRelativePath
              ((RenameTo cx b.st resource
                (withExtension (b.st.res resource).Filename new_filename)).1.res
                  resource).GetRelativePath b.update } := by
  simp only [renamePair, hmeta, hname, FilenameIsValid, hd, DescriptorRenameTo, if_true,
    if_false, Bool.false_eq_true, ite_self, Bool.true_eq_false]

theorem RenameResourceList_single {n : Nat} (cx : Context n) (st : State n) (resource : Fin n)
    (new_filename : QString) :
    RenameResourceList cx st [resource] [new_filename]
      = some (finishBatch cx (renamePair cx (startBatch st) resource new_filename)) := by
  simp [RenameResourceList, batchLoop]

theorem finishBatch_res {n : Nat} (cx : Context n) (b : Batch n) :
    (finishBatch cx b).1.res = b.st.res := by
  unfold finishBatch
  split <;> rfl

theorem finishBatch_fsCalls {n : Nat} (cx : Context n) (b : Batch n) :
    (finishBatch cx b).1.fsCalls = b.st.fsCalls := by
  unfold finishBatch
  split <;> rfl

theorem finishBatch_answer {n : Nat} (cx : Context n) (b : Batch n) :
    (finishBatch cx b).2 = b.not_processed.isEmpty := rfl

/-! ## Renaming onto a path that is owned -/

/-- C1 (as amended).  When the path that results from renaming member `A` to a proposed name
(the extension completed as `RenameResourceList` does) equals the book path of a member `B`
up to case, `FilenameIsValid` answers false, with the dialog of a name in use unless the name
was rejected before for a forbidden character or as empty, and `RenameResourceList` on
that pair leaves the registry as it was and calls the file system not at all; it answers
false as soon as `A` is outside `META-INF/` and the completed name is not the current file
name of `A`. -/
theorem C1_rename_onto_owned_path {n : Nat} (cx : Context n) (st : State n) (A B : Fin n)
    (new_filename : QString)
    (h : caseFolded (proposedBookPath (st.res A).GetRelativePath
        (withExtension (st.res A).Filename new_filename))
      = caseFolded (st.res B).GetRelativePath) :
    (FilenameIsValid st (st.res A).GetRelativePath
        (withExtension (st.res A).Filename new_filename)).2 = false
    ∧ (filenameProblem (GetAllBookPaths st.res) (st.res A).GetRelativePath
          (withExtension (st.res A).Filename new_filename)
        = some (Dialog.filenameInUse (withExtension (st.res A).Filename new_filename))
      ∨ filenameProblem (GetAllBookPaths st.res) (st.res A).GetRelativePath
          (withExtension (st.res A).Filename new_filename) = some Dialog.emptyFilename
      ∨ ∃ character, character ∈ withExtension (st.res A).Filename new_filename ∧
          FORBIDDEN_FILENAME_CHARS.contains character = true ∧
          filenameProblem (GetAllBookPaths st.res) (st.res A).GetRelativePath
            (withExtension (st.res A).Filename new_filename)
              = some (Dialog.forbiddenCharacter character))
    ∧ ∃ st1 answer, RenameResourceList cx st [A] [new_filename] = some (st1, answer)
        ∧ st1.res = st.res ∧ st1.fsCalls = st.fsCalls
        ∧ (startsWith (st.res A).GetRelativePath "META-INF/".toList = false →
            (st.res A).Filename ≠ withExtension (st.res A).Filename new_filename →
            answer = false) := by
  have hp : ∃ d, filenameProblem (GetAllBookPaths st.res) (st.res A).GetRelativePath
      (withExtension (st.res A).Filename new_filename) = some d := by
    rcases filenameProblem_of_owned st.res B _ _ h with h1 | h1 | ⟨c, _, _, h1⟩
    · exact ⟨_, h1⟩
    · exact ⟨_, h1⟩
    · exact ⟨_, h1⟩
  obtain ⟨d, hd⟩ := hp
  refine ⟨by simp only [FilenameIsValid, hd], filenameProblem_of_owned st.res B _ _ h, ?_⟩
  have hst : (startBatch st).st = st := rfl
  have hnp : (startBatch st).not_processed = [] := rfl
  refine ⟨(finishBatch cx (renamePair cx (startBatch st) A new_filename)).1,
    (finishBatch cx (renamePair cx (startBatch st) A new_filename)).2,
    RenameResourceList_single cx st A new_filename, ?_, ?_, ?_⟩
  · rw [finishBatch_res]
    by_cases hmeta : startsWith (st.res A).GetRelativePath "META-INF/".toList = true
    · rw [renamePair_protected cx (startBatch st) A new_filename (by rw [hst]; exact hmeta), hst]
    · by_cases hname : (st.res A).Filename = withExtension (st.res A).Filename new_filename
      · rw [renamePair_same_name cx (startBatch st) A new_filename (by rw [hst]; exact hname),
          hst]
      · rw [renamePair_rejected cx (startBatch st) A new_filename d
          (by rw [hst]; exact Bool.eq_false_iff.mpr hmeta) (by rw [hst]; exact hname)
          (by rw [hst]; exact hd), hst]
  · rw [finishBatch_fsCalls]
    by_cases hmeta : startsWith (st.res A).GetRelativePath "META-INF/".toList = true
    · rw [renamePair_protected cx (startBatch st) A new_filename (by rw [hst]; exact hmeta), hst]
    · by_cases hname : (st.res A).Filename = withExtension (st.res A).Filename new_filename
      · rw [renamePair_same_name cx (startBatch st) A new_filename (by rw [hst]; exact hname),
          hst]
      · rw [renamePair_rejected cx (startBatch st) A new_filename d
          (by rw [hst]; exact Bool.eq_false_iff.mpr hmeta) (by rw [hst]; exact hname)
          (by rw [hst]; exact hd), hst]
  · intro hmeta hname
    rw [finishBatch_answer, renamePair_rejected cx (startBatch st) A new_filename d
      (by rw [hst]; exact hmeta) (by rw [hst]; exact hname) (by rw [hst]; exact hd), hnp]
    rfl

/-- C1, witness: in a book of three HTML files, renaming `Text/a.html` to `B` gives the path
`Text/B.html`, owned up to case by `Text/b.html`. -/
theorem C1_rename_onto_owned_path_witness :
    caseFolded (proposedBookPath ((newState sampleThree).res 0).GetRelativePath
        (withExtension ((newState sampleThree).res 0).Filename "B".toList))
      = caseFolded ((newState sampleThree).res 1).GetRelativePath
    ∧ (FilenameIsValid (newState sampleThree) ((newState sampleThree).res 0).GetRelativePath
        (withExtension ((newState sampleThree).res 0).Filename "B".toList)).2 = false
    ∧ (filenameProblem (GetAllBookPaths (newState sampleThree).res)
          ((newState sampleThree).res 0).GetRelativePath
          (withExtension ((newState sampleThree).res 0).Filename "B".toList)
        = some (Dialog.filenameInUse
            (withExtension ((newState sampleThree).res 0).Filename "B".toList))
      ∨ filenameProblem (GetAllBookPaths (newState sampleThree).res)
          ((newState sampleThree).res 0).GetRelativePath
          (withExtension ((newState sampleThree).res 0).Filename "B".toList)
            = some Dialog.emptyFilename
      ∨ ∃ character,
          character ∈ withExtension ((newState sampleThree).res 0).Filename "B".toList ∧
          FORBIDDEN_FILENAME_CHARS.contains character = true ∧
          filenameProblem (GetAllBookPaths (newState sampleThree).res)
            ((newState sampleThree).res 0).GetRelativePath
            (withExtension ((newState sampleThree).res 0).Filename "B".toList)
              = some (Dialog.forbiddenCharacter character))
    ∧ ∃ st1 answer, RenameResourceList (sampleContext 3) (newState sampleThree) [0] ["B".toList]
          = some (st1, answer)
        ∧ st1.res = (newState sampleThree).res ∧ st1.fsCalls = (newState sampleThree).fsCalls
        ∧ (startsWith ((newState sampleThree).res 0).GetRelativePath "META-INF/".toList = false →
            ((newState sampleThree).res 0).Filename
              ≠ withExtension ((newState sampleThree).res 0).Filename "B".toList →
            answer = false) :=
  ⟨by decide, C1_rename_onto_owned_path (sampleContext 3) (newState sampleThree) 0 1 "B".toList
    (by decide)⟩

/-- C1, counterexample to the claim as stated.  `META-INF/a.xml` and `META-INF/b.xml` are
distinct members of one folder, and renaming the first to `b.xml` gives the path of the
second, yet `RenameResourceList` answers true.  So it does for `Text/a.html` renamed to its
own name `a.html` while `Text/A.html` exists. -/
theorem C1_counterexample :
    ((0 : Fin 2) ≠ 1
      ∧ startingDir (sampleMetaInf 0).GetRelativePath
        = startingDir (sampleMetaInf 1).GetRelativePath
      ∧ caseFolded (proposedBookPath (sampleMetaInf 0).GetRelativePath
          (withExtension (sampleMetaInf 0).Filename "b.xml".toList))
        = caseFolded (sampleMetaInf 1).GetRelativePath
      ∧ (RenameResourceList (sampleContext 2) (newState sampleMetaInf) [0]
          ["b.xml".toList]).map Prod.snd = some true)
    ∧ ((0 : Fin 2) ≠ 1
      ∧ startingDir (sampleCaseTwins 0).GetRelativePath
        = startingDir (sampleCaseTwins 1).GetRelativePath
      ∧ caseFolded (proposedBookPath (sampleCaseTwins 0).GetRelativePath
          (withExtension (sampleCaseTwins 0).Filename "a.html".toList))
        = caseFolded (sampleCaseTwins 1).GetRelativePath
      ∧ (RenameResourceList (sampleContext 2) (newState sampleCaseTwins) [0]
          ["a.html".toList]).map Prod.snd = some true) := by
  decide

/-! ## Lemmas on the loop of a batch -/

/-- A batch over pairs: the bodies applied from left to right. -/
theorem batchLoop_eq_foldl {n : Nat} (body : Batch n → Fin n → QString → Batch n)
    (second : List QString) (resources : List (Fin n)) (i : Nat) (b : Batch n)
    (h : i + resources.length ≤ second.length) :
    batchLoop body second resources i b
      = some ((resources.zip (second.drop i)).foldl (fun acc p => body acc p.1 p.2) b) := by
  induction resources generalizing i b with
  | nil => simp [batchLoop]
  | cons resource rest ih =>
    have hi : i < second.length := by
      simp only [List.length_cons] at h
      omega
    have hdrop : second.drop i = second.get ⟨i, hi⟩ :: second.drop (i + 1) := by
      simp
    have hget : second.get? i = some (second.get ⟨i, hi⟩) := List.get?_eq_get hi
    rw [batchLoop, hget]
    simp only []
    rw [ih (i + 1) _ (by simp only [List.length_cons] at h; omega), hdrop]
    rfl

/-- The loop stops with an error when the second list runs out. -/
theorem batchLoop_eq_none {n : Nat} (body : Batch n → Fin n → QString → Batch n)
    (second : List QString) (resources : List (Fin n)) (i : Nat) (b : Batch n)
    (hi : i ≤ second.length) (h : second.length < i + resources.length) :
    batchLoop body second resources i b = none := by
  induction resources generalizing i b with
  | nil => simp only [List.length_nil] at h; omega
  | cons resource rest ih =>
    rw [batchLoop]
    cases hget : second.get? i with
    | none => rfl
    | some entry =>
      simp only []
      have hlt : i < second.length := by
        by_contra hcon
        rw [List.get?_eq_none.mpr (by omega)] at hget
        cases hget
      exact ih (i + 1) _ hlt (by simp only [List.length_cons] at h; omega)

theorem zip_map_fst_map_snd {α β : Type} (pairs : List (α × β)) :
    (pairs.map Prod.fst).zip (pairs.map Prod.snd) = pairs := by
  induction pairs with
  | nil => rfl
  | cons p rest ih => simp [ih]

/-- The batch functions on a list of pairs. -/
theorem RenameResourceList_pairs {n : Nat} (cx : Context n) (st : State n)
    (pairs : List (Fin n × QString)) :
    RenameResourceList cx st (pairs.map Prod.fst) (pairs.map Prod.snd)
      = some (finishBatch cx (runPairs (renamePair cx) (startBatch st) pairs)) := by
  unfold RenameResourceList
  rw [batchLoop_eq_foldl _ _ _ _ _ (by simp)]
  simp [zip_map_fst_map_snd, runPairs]

theorem MoveResourceList_pairs {n : Nat} (cx : Context n) (st : State n)
    (pairs : List (Fin n × QString)) :
    MoveResourceList cx st (pairs.map Prod.fst) (pairs.map Prod.snd)
      = some (finishBatch cx (runPairs (movePair cx) (startBatch st) pairs)) := by
  unfold MoveResourceList
  rw [batchLoop_eq_foldl _ _ _ _ _ (by simp)]
  simp [zip_map_fst_map_snd, runPairs]

/-! ## The body of the rename loop, outcome by outcome -/

theorem RenameTo_eq {n : Nat} (cx : Context n) (st : State n) (resource : Fin n)
    (new_filename : QString) :
    RenameTo cx st resource new_filename
      = if cx.fs st.fsCalls.length (renameCall (st.res resource) new_filename) = true then
          ({ st with
              fsCalls := st.fsCalls ++ [renameCall (st.res resource) new_filename],
              res := Function.update st.res resource
                { st.res resource with
                  m_FullFilePath :=
                    absolutePath (st.res resource).m_FullFilePath ++ '/' :: new_filename,
                  m_ShortName := new_filename },
              signals := st.signals
                ++ [Signal.Renamed resource (st.res resource).m_FullFilePath] }, true)
        else
          ({ st with fsCalls := st.fsCalls ++ [renameCall (st.res resource) new_filename] },
            false) := rfl

theorem renamePair_skipped {n : Nat} (cx : Context n) (b : Batch n) (resource : Fin n)
    (new_filename : QString) (h : renameOutcome cx b resource new_filename = Outcome.skipped) :
    renamePair cx b resource new_filename = b := by
  unfold renameOutcome at h
  by_cases hmeta : startsWith (b.st.res resource).GetRelativePath "META-INF/".toList = true
  · exact renamePair_protected cx b resource new_filename hmeta
  · by_cases hname : (b.st.res resource).Filename
        = withExtension (b.st.res resource).Filename new_filename
    · exact renamePair_same_name cx b resource new_filename hname
    · simp only [hmeta, hname, if_false] at h
      cases hp : filenameProblem (GetAllBookPaths b.st.res) (b.st.res resource).GetRelativePath
          (withExtension (b.st.res resource).Filename new_filename) with
      | some d => simp only [hp, Option.isSome_some, if_true] at h; cases h
      | none =>
        simp only [hp, Option.isSome_none, Bool.false_eq_true, if_false] at h
        by_cases hfs : cx.fs b.st.fsCalls.length (renameCall (b.st.res resource)
            (withExtension (b.st.res resource).Filename new_filename)) = true
        · simp only [hfs, if_true] at h; cases h
        · simp only [hfs, if_false, Bool.false_eq_true] at h; cases h

theorem renamePair_rejected_outcome {n : Nat} (cx : Context n) (b : Batch n) (resource : Fin n)
    (new_filename : QString) (h : renameOutcome cx b resource new_filename = Outcome.rejected) :
    ∃ d, filenameProblem (GetAllBookPaths b.st.res) (b.st.res resource).GetRelativePath
          (withExtension (b.st.res resource).Filename new_filename) = some d
      ∧ renamePair cx b resource new_filename
        = { b with st := { b.st with dialogs := b.st.dialogs ++ [d] },
                   not_processed := b.not_processed
                     ++ [displayName cx (b.st.res resource)] } := by
  unfold renameOutcome at h
  by_cases hmeta : startsWith (b.st.res resource).GetRelativePath "META-INF/".toList = true
  · simp only [hmeta, if_true] at h; cases h
  · by_cases hname : (b.st.res resource).Filename
        = withExtension (b.st.res resource).Filename new_filename
    · simp only [hmeta, ← hname, if_true, if_false] at h; cases h
    · simp only [hmeta, hname, if_false] at h
      cases hp : filenameProblem (GetAllBookPaths b.st.res) (b.st.res resource).GetRelativePath
          (withExtension (b.st.res resource).Filename new_filename) with
      | none =>
        simp only [hp, Option.isSome_none, Bool.false_eq_true, if_false] at h
        split at h <;> cases h
      | some d =>
        exact ⟨d, rfl, renamePair_rejected cx b resource new_filename d
          (Bool.eq_false_iff.mpr hmeta) hname hp⟩

theorem renamePair_failed {n : Nat} (cx : Context n) (b : Batch n) (resource : Fin n)
    (new_filename : QString) (h : renameOutcome cx b resource new_filename = Outcome.failed) :
    renamePair cx b resource new_filename
      = { b with
          st := { b.st with
            fsCalls := b.st.fsCalls ++ [renameCall (b.st.res resource)
              (withExtension (b.st.res resource).Filename new_filename)] },
          not_processed := b.not_processed ++ [displayName cx (b.st.res resource)] } := by
  unfold renameOutcome at h
  by_cases hmeta : startsWith (b.st.res resource).GetRelativePath "META-INF/".toList = true
  · simp only [hmeta, if_true] at h; cases h
  · by_cases hname : (b.st.res resource).Filename
        = withExtension (b.st.res resource).Filename new_filename
    · simp only [hmeta, ← hname, if_true, if_false] at h; cases h
    · simp only [hmeta, hname, if_false] at h
      cases hp : filenameProblem (GetAllBookPaths b.st.res) (b.st.res resource).GetRelativePath
          (withExtension (b.st.res resource).Filename new_filename) with
      | some d => simp only [hp, Option.isSome_some, if_true] at h; cases h
      | none =>
        simp only [hp, Option.isSome_none, Bool.false_eq_true, if_false] at h
        by_cases hfs : cx.fs b.st.fsCalls.length (renameCall (b.st.res resource)
            (withExtension (b.st.res resource).Filename new_filename)) = true
        · simp only [hfs, if_true] at h; cases h
        · rw [renamePair_accepted cx b resource new_filename (Bool.eq_false_iff.mpr hmeta)
            hname hp, RenameTo_eq]
          simp only [hfs, if_false, if_true, Bool.false_eq_true]

theorem renamePair_applied {n : Nat} (cx : Context n) (b : Batch n) (resource : Fin n)
    (new_filename : QString) (h : renameOutcome cx b resource new_filename = Outcome.applied) :
    renamePair cx b resource new_filename
      = { b with
          st := { b.st with
            fsCalls := b.st.fsCalls ++ [renameCall (b.st.res resource)
              (withExtension (b.st.res resource).Filename new_filename)],
            res := Function.update b.st.res resource
              { b.st.res resource with
                m_FullFilePath := absolutePath (b.st.res resource).m_FullFilePath
                  ++ '/' :: withExtension (b.st.res resource).Filename new_filename,
                m_ShortName := withExtension (b.st.res resource).Filename new_filename },
            signals := b.st.signals
              ++ [Signal.Renamed resource (b.st.res resource).m_FullFilePath] },
          update := hashInsert (b.st.res resource).GetRelativePath
            ({ b.st.res resource with
                m_FullFilePath := absolutePath (b.st.res resource).m_FullFilePath
                  ++ '/' :: withExtension (b.st.res resource).Filename new_filename,
                m_ShortName := withExtension (b.st.res resource).Filename new_filename
              } : Resource).GetRelativePath b.update } := by
  unfold renameOutcome at h
  by_cases hmeta : startsWith (b.st.res resource).GetRelativePath "META-INF/".toList = true
  · simp only [hmeta, if_true] at h; cases h
  · by_cases hname : (b.st.res resource).Filename
        = withExtension (b.st.res resource).Filename new_filename
    · simp only [hmeta, ← hname, if_true, if_false] at h; cases h
    · simp only [hmeta, hname, if_false] at h
      cases hp : filenameProblem (GetAllBookPaths b.st.res) (b.st.res resource).GetRelativePath
          (withExtension (b.st.res resource).Filename new_filename) with
      | some d => simp only [hp, Option.isSome_some, if_true] at h; cases h
      | none =>
        simp only [hp, Option.isSome_none, Bool.false_eq_true, if_false] at h
        by_cases hfs : cx.fs b.st.fsCalls.length (renameCall (b.st.res resource)
            (withExtension (b.st.res resource).Filename new_filename)) = true
        · rw [renamePair_accepted cx b resource new_filename (Bool.eq_false_iff.mpr hmeta)
            hname hp, RenameTo_eq]
          simp only [hfs, if_false, if_true, Bool.true_eq_false, Function.update_same]
        · simp only [hfs, if_false, Bool.false_eq_true] at h; cases h

/-! ## The body of the move loop, outcome by outcome -/

theorem MoveTo_eq {n : Nat} (cx : Context n) (st : State n) (resource : Fin n)
    (new_bookpath : QString) :
    MoveTo cx st resource new_bookpath
      = if cx.fs st.fsCalls.length (moveCall (st.res resource) new_bookpath) = true then
          ({ st with
              fsCalls := st.fsCalls ++ [moveCall (st.res resource) new_bookpath],
              res := Function.update st.res resource
                { st.res resource with
                  m_FullFilePath := (st.res resource).m_MainFolder ++ '/' :: new_bookpath },
              signals := st.signals
                ++ [Signal.Moved resource (st.res resource).m_FullFilePath] }, true)
        else
          ({ st with fsCalls := st.fsCalls ++ [moveCall (st.res resource) new_bookpath] },
            false) := rfl

theorem movePair_protected {n : Nat} (cx : Context n) (b : Batch n) (resource : Fin n)
    (newbookpath : QString)
    (h : startsWith (b.st.res resource).GetRelativePath "META-INF/".toList = true) :
    movePair cx b resource newbookpath = b := by
  simp only [movePair, h, if_true]

theorem movePair_rejected {n : Nat} (cx : Context n) (b : Batch n) (resource : Fin n)
    (newbookpath : QString) (d : Dialog)
    (hmeta : startsWith (b.st.res resource).GetRelativePath "META-INF/".toList = false)
    (hd : bookPathProblem (GetAllBookPaths b.st.res) newbookpath = some d) :
    movePair cx b resource newbookpath
      = { b with st := { b.st with dialogs := b.st.dialogs ++ [d] },
                 not_processed := b.not_processed
                   ++ [(b.st.res resource).GetRelativePath] } := by
  simp only [movePair, hmeta, BookPathIsValid, hd, if_true, if_false, Bool.false_eq_true]

theorem movePair_accepted {n : Nat} (cx : Context n) (b : Batch n) (resource : Fin n)
    (newbookpath : QString)
    (hmeta : startsWith (b.st.res resource).GetRelativePath "META-INF/".toList = false)
    (hd : bookPathProblem (GetAllBookPaths b.st.res) newbookpath = none) :
    movePair cx b resource newbookpath
      = if (MoveTo cx b.st resource newbookpath).2 = false then
          { b with
            st := (MoveTo cx b.st resource newbookpath).1,
            not_processed := b.not_processed ++ [(b.st.res resource).GetRelativePath] }
        else
          { b with
            st := { (MoveTo cx b.st resource newbookpath).1 with
              res := Function.update (MoveTo cx b.st resource newbookpath).1.res resource
                (((MoveTo cx b.st resource newbookpath).1.res resource).SetCurrentBookRelPath
                  (b.st.res resource).GetRelativePath) },
            update := hashInsert (b.st.res resource).GetRelativePath
              ((Function.update (MoveTo cx b.st resource newbookpath).1.res resource
                (((MoveTo cx b.st resource newbookpath).1.res resource).SetCurrentBookRelPath
                  (b.st.res resource).GetRelativePath)) resource).GetRelativePath b.update } := by
  simp only [movePair, hmeta, BookPathIsValid, hd, DescriptorMoveTo, if_true,
    if_false, Bool.false_eq_true, ite_self, Bool.true_eq_false]

theorem movePair_skipped {n : Nat} (cx : Context n) (b : Batch n) (resource : Fin n)
    (newbookpath : QString) (h : moveOutcome cx b resource newbookpath = Outcome.skipped) :
    movePair cx b resource newbookpath = b := by
  unfold moveOutcome at h
  by_cases hmeta : startsWith (b.st.res resource).GetRelativePath "META-INF/".toList = true
  · exact movePair_protected cx b resource newbookpath hmeta
  · simp only [hmeta, if_false] at h
    cases hp : bookPathProblem (GetAllBookPaths b.st.res) newbookpath with
    | some d => simp only [hp, Option.isSome_some, if_true] at h; cases h
    | none =>
      simp only [hp, Option.isSome_none, Bool.false_eq_true, if_false] at h
      by_cases hfs : cx.fs b.st.fsCalls.length (moveCall (b.st.res resource) newbookpath) = true
      · simp only [hfs, if_true] at h; cases h
      · simp only [hfs, if_false, Bool.false_eq_true] at h; cases h

theorem movePair_rejected_outcome {n : Nat} (cx : Context n) (b : Batch n) (resource : Fin n)
    (newbookpath : QString) (h : moveOutcome cx b resource newbookpath = Outcome.rejected) :
    ∃ d, bookPathProblem (GetAllBookPaths b.st.res) newbookpath = some d
      ∧ movePair cx b resource newbookpath
        = { b with st := { b.st with dialogs := b.st.dialogs ++ [d] },
                   not_processed := b.not_processed
                     ++ [(b.st.res resource).GetRelativePath] } := by
  unfold moveOutcome at h
  by_cases hmeta : startsWith (b.st.res resource).GetRelativePath "META-INF/".toList = true
  · simp only [hmeta, if_true] at h; cases h
  · simp only [hmeta, if_false] at h
    cases hp : bookPathProblem (GetAllBookPaths b.st.res) newbookpath with
    | none =>
      simp only [hp, Option.isSome_none, Bool.false_eq_true, if_false] at h
      split at h <;> cases h
    | some d =>
      exact ⟨d, rfl, movePair_rejected cx b resource newbookpath d
        (Bool.eq_false_iff.mpr hmeta) hp⟩

theorem movePair_failed {n : Nat} (cx : Context n) (b : Batch n) (resource : Fin n)
    (newbookpath : QString) (h : moveOutcome cx b resource newbookpath = Outcome.failed) :
    movePair cx b resource newbookpath
      = { b with
          st := { b.st with
            fsCalls := b.st.fsCalls ++ [moveCall (b.st.res resource) newbookpath] },
          not_processed := b.not_processed ++ [(b.st.res resource).GetRelativePath] } := by
  unfold moveOutcome at h
  by_cases hmeta : startsWith (b.st.res resource).GetRelativePath "META-INF/".toList = true
  · simp only [hmeta, if_true] at h; cases h
  · simp only [hmeta, if_false] at h
    cases hp : bookPathProblem (GetAllBookPaths b.st.res) newbookpath with
    | some d => simp only [hp, Option.isSome_some, if_true] at h; cases h
    | none =>
      simp only [hp, Option.isSome_none, Bool.false_eq_true, if_false] at h
      by_cases hfs : cx.fs b.st.fsCalls.length (moveCall (b.st.res resource) newbookpath) = true
      · simp only [hfs, if_true] at h; cases h
      · rw [movePair_accepted cx b resource newbookpath (Bool.eq_false_iff.mpr hmeta) hp,
          MoveTo_eq]
        simp only [hfs, if_false, if_true, Bool.false_eq_true]

theorem movePair_applied {n : Nat} (cx : Context n) (b : Batch n) (resource : Fin n)
    (newbookpath : QString) (h : moveOutcome cx b resource newbookpath = Outcome.applied) :
    movePair cx b resource newbookpath
      = { b with
          st := { b.st with
            fsCalls := b.st.fsCalls ++ [moveCall (b.st.res resource) newbookpath],
            res := Function.update b.st.res resource
              { b.st.res resource with
                m_FullFilePath := (b.st.res resource).m_MainFolder ++ '/' :: newbookpath,
                m_CurrentBookRelPath := (b.st.res resource).GetRelativePath },
            signals := b.st.signals
              ++ [Signal.Moved resource (b.st.res resource).m_FullFilePath] },
          update := hashInsert (b.st.res resource).GetRelativePath
            ({ b.st.res resource with
                m_FullFilePath := (b.st.res resource).m_MainFolder ++ '/' :: newbookpath
              } : Resource).GetRelativePath b.update } := by
  unfold moveOutcome at h
  by_cases hmeta : startsWith (b.st.res resource).GetRelativePath "META-INF/".toList = true
  · simp only [hmeta, if_true] at h; cases h
  · simp only [hmeta, if_false] at h
    cases hp : bookPathProblem (GetAllBookPaths b.st.res) newbookpath with
    | some d => simp only [hp, Option.isSome_some, if_true] at h; cases h
    | none =>
      simp only [hp, Option.isSome_none, Bool.false_eq_true, if_false] at h
      by_cases hfs : cx.fs b.st.fsCalls.length (moveCall (b.st.res resource) newbookpath) = true
      · rw [movePair_accepted cx b resource newbookpath (Bool.eq_false_iff.mpr hmeta) hp,
          MoveTo_eq]
        simp only [hfs, if_false, if_true, Bool.true_eq_false, Function.update_same,
          Function.update_idem, Resource.SetCurrentBookRelPath, Resource.GetRelativePath]
      · simp only [hfs, if_false, Bool.false_eq_true] at h; cases h

/-! ## What a pair changes -/

theorem Outcome_cases (o : Outcome) :
    o = Outcome.skipped ∨ o = Outcome.rejected ∨ o = Outcome.failed ∨ o = Outcome.applied := by
  cases o <;> simp

/-- The list of members not renamed grows by the member exactly when the pair is rejected or
fails. -/
theorem renamePair_not_processed {n : Nat} (cx : Context n) (b : Batch n) (resource : Fin n)
    (new_filename : QString) :
    (renamePair cx b resource new_filename).not_processed
      = if renameOutcome cx b resource new_filename = Outcome.rejected
          ∨ renameOutcome cx b resource new_filename = Outcome.failed
        then b.not_processed ++ [displayName cx (b.st.res resource)] else b.not_processed := by
  rcases Outcome_cases (renameOutcome cx b resource new_filename) with h | h | h | h
  · rw [renamePair_skipped cx b resource new_filename h, h]; simp
  · obtain ⟨d, _, hd⟩ := renamePair_rejected_outcome cx b resource new_filename h
    rw [hd, h]; simp
  · rw [renamePair_failed cx b resource new_filename h, h]; simp
  · rw [renamePair_applied cx b resource new_filename h, h]; simp

/-- The registry changes exactly when the pair is applied, and then in the renamed member
only. -/
theorem renamePair_res {n : Nat} (cx : Context n) (b : Batch n) (resource : Fin n)
    (new_filename : QString) :
    (renamePair cx b resource new_filename).st.res
      = if renameOutcome cx b resource new_filename = Outcome.applied then
          Function.update b.st.res resource
            { b.st.res resource with
              m_FullFilePath := absolutePath (b.st.res resource).m_FullFilePath
                ++ '/' :: withExtension (b.st.res resource).Filename new_filename,
              m_ShortName := withExtension (b.st.res resource).Filename new_filename }
        else b.st.res := by
  rcases Outcome_cases (renameOutcome cx b resource new_filename) with h | h | h | h
  · rw [renamePair_skipped cx b resource new_filename h, h]; simp
  · obtain ⟨d, _, hd⟩ := renamePair_rejected_outcome cx b resource new_filename h
    rw [hd, h]; simp
  · rw [renamePair_failed cx b resource new_filename h, h]; simp
  · rw [renamePair_applied cx b resource new_filename h, h]; simp

/-- The file system is called exactly when the pair passes validation. -/
theorem renamePair_fsCalls {n : Nat} (cx : Context n) (b : Batch n) (resource : Fin n)
    (new_filename : QString) :
    (renamePair cx b resource new_filename).st.fsCalls
      = if renameOutcome cx b resource new_filename = Outcome.failed
          ∨ renameOutcome cx b resource new_filename = Outcome.applied
        then b.st.fsCalls ++ [renameCall (b.st.res resource)
          (withExtension (b.st.res resource).Filename new_filename)]
        else b.st.fsCalls := by
  rcases Outcome_cases (renameOutcome cx b resource new_filename) with h | h | h | h
  · rw [renamePair_skipped cx b resource new_filename h, h]; simp
  · obtain ⟨d, _, hd⟩ := renamePair_rejected_outcome cx b resource new_filename h
    rw [hd, h]; simp
  · rw [renamePair_failed cx b resource new_filename h, h]; simp
  · rw [renamePair_applied cx b resource new_filename h, h]; simp

/-- The hash gets an entry exactly when the pair is applied. -/
theorem renamePair_update {n : Nat} (cx : Context n) (b : Batch n) (resource : Fin n)
    (new_filename : QString) :
    (renamePair cx b resource new_filename).update
      = if renameOutcome cx b resource new_filename = Outcome.applied then
          hashInsert (b.st.res resource).GetRelativePath
            ((renamePair cx b resource new_filename).st.res resource).GetRelativePath b.update
        else b.update := by
  rcases Outcome_cases (renameOutcome cx b resource new_filename) with h | h | h | h
  · rw [renamePair_skipped cx b resource new_filename h, h]; simp
  · obtain ⟨d, _, hd⟩ := renamePair_rejected_outcome cx b resource new_filename h
    rw [hd, h]; simp
  · rw [renamePair_failed cx b resource new_filename h, h]; simp
  · rw [renamePair_applied cx b resource new_filename h, h]; simp

theorem movePair_not_processed {n : Nat} (cx : Context n) (b : Batch n) (resource : Fin n)
    (newbookpath : QString) :
    (movePair cx b resource newbookpath).not_processed
      = if moveOutcome cx b resource newbookpath = Outcome.rejected
          ∨ moveOutcome cx b resource newbookpath = Outcome.failed
        then b.not_processed ++ [(b.st.res resource).GetRelativePath] else b.not_processed := by
  rcases Outcome_cases (moveOutcome cx b resource newbookpath) with h | h | h | h
  · rw [movePair_skipped cx b resource newbookpath h, h]; simp
  · obtain ⟨d, _, hd⟩ := movePair_rejected_outcome cx b resource newbookpath h
    rw [hd, h]; simp
  · rw [movePair_failed cx b resource newbookpath h, h]; simp
  · rw [movePair_applied cx b resource newbookpath h, h]; simp

theorem movePair_res {n : Nat} (cx : Context n) (b : Batch n) (resource : Fin n)
    (newbookpath : QString) :
    (movePair cx b resource newbookpath).st.res
      = if moveOutcome cx b resource newbookpath = Outcome.applied then
          Function.update b.st.res resource
            { b.st.res resource with
              m_FullFilePath := (b.st.res resource).m_MainFolder ++ '/' :: newbookpath,
              m_CurrentBookRelPath := (b.st.res resource).GetRelativePath }
        else b.st.res := by
  rcases Outcome_cases (moveOutcome cx b resource newbookpath) with h | h | h | h
  · rw [movePair_skipped cx b resource newbookpath h, h]; simp
  · obtain ⟨d, _, hd⟩ := movePair_rejected_outcome cx b resource newbookpath h
    rw [hd, h]; simp
  · rw [movePair_failed cx b resource newbookpath h, h]; simp
  · rw [movePair_applied cx b resource newbookpath h, h]; simp

theorem movePair_fsCalls {n : Nat} (cx : Context n) (b : Batch n) (resource : Fin n)
    (newbookpath : QString) :
    (movePair cx b resource newbookpath).st.fsCalls
      = if moveOutcome cx b resource newbookpath = Outcome.failed
          ∨ moveOutcome cx b resource newbookpath = Outcome.applied
        then b.st.fsCalls ++ [moveCall (b.st.res resource) newbookpath]
        else b.st.fsCalls := by
  rcases Outcome_cases (moveOutcome cx b resource newbookpath) with h | h | h | h
  · rw [movePair_skipped cx b resource newbookpath h, h]; simp
  · obtain ⟨d, _, hd⟩ := movePair_rejected_outcome cx b resource newbookpath h
    rw [hd, h]; simp
  · rw [movePair_failed cx b resource newbookpath h, h]; simp
  · rw [movePair_applied cx b resource newbookpath h, h]; simp

theorem movePair_update {n : Nat} (cx : Context n) (b : Batch n) (resource : Fin n)
    (newbookpath : QString) :
    (movePair cx b resource newbookpath).update
      = if moveOutcome cx b resource newbookpath = Outcome.applied then
          hashInsert (b.st.res resource).GetRelativePath
            ((movePair cx b resource newbookpath).st.res resource).GetRelativePath b.update
        else b.update := by
  rcases Outcome_cases (moveOutcome cx b resource newbookpath) with h | h | h | h
  · rw [movePair_skipped cx b resource newbookpath h, h]; simp
  · obtain ⟨d, _, hd⟩ := movePair_rejected_outcome cx b resource newbookpath h
    rw [hd, h]; simp
  · rw [movePair_failed cx b resource newbookpath h, h]; simp
  · rw [movePair_applied cx b resource newbookpath h, h]
    simp [Resource.GetRelativePath]

/-! ## A whole batch -/

theorem runPairs_nil {n : Nat} (body : Batch n → Fin n → QString → Batch n) (b : Batch n) :
    runPairs body b [] = b := rfl

theorem runPairs_cons {n : Nat} (body : Batch n → Fin n → QString → Batch n) (b : Batch n)
    (p : Fin n × QString) (rest : List (Fin n × QString)) :
    runPairs body b (p :: rest) = runPairs body (body b p.1 p.2) rest := rfl

theorem runPairs_append {n : Nat} (body : Batch n → Fin n → QString → Batch n) (b : Batch n)
    (l₁ l₂ : List (Fin n × QString)) :
    runPairs body b (l₁ ++ l₂) = runPairs body (runPairs body b l₁) l₂ := by
  simp [runPairs, List.foldl_append]

/-- The list of members not processed is empty at the end exactly when it was empty at the
start and no pair was rejected or failed at its turn. -/
theorem runPairs_not_processed_nil {n : Nat} (body : Batch n → Fin n → QString → Batch n)
    (outcome : Batch n → Fin n → QString → Outcome) (name : Batch n → Fin n → QString)
    (hstep : ∀ b resource entry, (body b resource entry).not_processed
      = if outcome b resource entry = Outcome.rejected ∨ outcome b resource entry = Outcome.failed
        then b.not_processed ++ [name b resource] else b.not_processed)
    (b : Batch n) (pairs : List (Fin n × QString)) :
    (runPairs body b pairs).not_processed = []
      ↔ b.not_processed = []
        ∧ ∀ o ∈ outcomes body outcome b pairs, o = Outcome.skipped ∨ o = Outcome.applied := by
  induction pairs generalizing b with
  | nil => simp [runPairs, outcomes]
  | cons p rest ih =>
    rw [runPairs_cons, ih, hstep]
    simp only [outcomes, List.mem_cons, forall_eq_or_imp]
    rcases Outcome_cases (outcome b p.1 p.2) with h | h | h | h <;> simp [h]

/-! ## Forbidden characters -/

theorem filenameProblem_forbidden (character : Char) (new_filename : QString)
    (hc : character ∈ new_filename) (hf : character ∈ FORBIDDEN_FILENAME_CHARS) :
    ∃ found, found ∈ FORBIDDEN_FILENAME_CHARS ∧ ∀ existing old_bookpath,
      filenameProblem existing old_bookpath new_filename
        = some (Dialog.forbiddenCharacter found) := by
  cases hfind : new_filename.find?
      (fun character => FORBIDDEN_FILENAME_CHARS.contains character) with
  | none =>
    have := List.find?_eq_none.mp hfind character hc
    simp [hf] at this
  | some found =>
    refine ⟨found, by simpa using List.find?_some hfind, fun existing old_bookpath => ?_⟩
    unfold filenameProblem
    rw [hfind]

theorem mem_withExtension (character : Char) (old_filename new_filename : QString)
    (hc : character ∈ new_filename) : character ∈ withExtension old_filename new_filename := by
  unfold withExtension
  split
  · exact hc
  · exact List.mem_append_left _ hc

/-- C2 (as amended).  For a proposed name that contains one of `< > : " / \ | ? *`:
`FilenameIsValid` rejects it whatever the state and the old path; the turn of a pair with
that name in `RenameResourceList` leaves the registry as it was and calls the file system
not at all; and when the member is outside `META-INF/` and the completed name is not its
current file name, the member is appended to the list of members not renamed, so that a
batch containing the pair answers false. -/
theorem C2_forbidden_character_rejected {n : Nat} (cx : Context n) (character : Char)
    (new_filename : QString) (hc : character ∈ new_filename)
    (hf : character ∈ FORBIDDEN_FILENAME_CHARS) :
    (∀ (st : State n) (old_bookpath : QString),
        (FilenameIsValid st old_bookpath new_filename).2 = false)
    ∧ (∀ (b : Batch n) (resource : Fin n),
        (renamePair cx b resource new_filename).st.res = b.st.res
        ∧ (renamePair cx b resource new_filename).st.fsCalls = b.st.fsCalls
        ∧ (startsWith (b.st.res resource).GetRelativePath "META-INF/".toList = false →
            (b.st.res resource).Filename
              ≠ withExtension (b.st.res resource).Filename new_filename →
            (renamePair cx b resource new_filename).not_processed
              = b.not_processed ++ [displayName cx (b.st.res resource)]))
    ∧ (∀ (st : State n) (pre post : List (Fin n × QString)) (resource : Fin n),
        startsWith ((runPairs (renamePair cx) (startBatch st) pre).st.res
            resource).GetRelativePath "META-INF/".toList = false →
        ((runPairs (renamePair cx) (startBatch st) pre).st.res resource).Filename
          ≠ withExtension ((runPairs (renamePair cx) (startBatch st) pre).st.res
              resource).Filename new_filename →
        (RenameResourceList cx st ((pre ++ (resource, new_filename) :: post).map Prod.fst)
          ((pre ++ (resource, new_filename) :: post).map Prod.snd)).map Prod.snd
            = some false) := by
  have key : ∀ (b : Batch n) (resource : Fin n),
      (startsWith (b.st.res resource).GetRelativePath "META-INF/".toList = false →
        (b.st.res resource).Filename
          ≠ withExtension (b.st.res resource).Filename new_filename →
        renameOutcome cx b resource new_filename = Outcome.rejected)
      ∧ (renameOutcome cx b resource new_filename = Outcome.skipped
        ∨ renameOutcome cx b resource new_filename = Outcome.rejected) := by
    intro b resource
    obtain ⟨found, _, hfound⟩ := filenameProblem_forbidden character
      (withExtension (b.st.res resource).Filename new_filename)
      (mem_withExtension character _ _ hc) hf
    have hp := hfound (GetAllBookPaths b.st.res) (b.st.res resource).GetRelativePath
    constructor
    · intro hmeta hname
      simp only [renameOutcome, hmeta, hname, hp, Option.isSome_some, if_true, if_false,
        Bool.false_eq_true]
    · unfold renameOutcome
      simp only [hp, Option.isSome_some, if_true]
      split
      · left; rfl
      · split
        · left; rfl
        · right; rfl
  refine ⟨?_, ?_, ?_⟩
  · intro st old_bookpath
    obtain ⟨found, _, hfound⟩ := filenameProblem_forbidden character new_filename hc hf
    simp only [FilenameIsValid, hfound]
  · intro b resource
    obtain ⟨hrej, hcases⟩ := key b resource
    refine ⟨?_, ?_, ?_⟩
    · rw [renamePair_res]
      rcases hcases with h | h <;> simp [h]
    · rw [renamePair_fsCalls]
      rcases hcases with h | h <;> simp [h]
    · intro hmeta hname
      rw [renamePair_not_processed, hrej hmeta hname]
      simp
  · intro st pre post resource hmeta hname
    rw [RenameResourceList_pairs, Option.map_some', finishBatch_answer]
    have hne : (runPairs (renamePair cx) (startBatch st)
        (pre ++ (resource, new_filename) :: post)).not_processed ≠ [] := by
      intro hnil
      rw [runPairs_append, runPairs_cons] at hnil
      have h1 := ((runPairs_not_processed_nil (renamePair cx) (renameOutcome cx)
        (fun b resource => displayName cx (b.st.res resource))
        (renamePair_not_processed cx) _ post).mp hnil).1
      rw [renamePair_not_processed, (key _ resource).1 hmeta hname] at h1
      simp at h1
    cases hl : (runPairs (renamePair cx) (startBatch st)
        (pre ++ (resource, new_filename) :: post)).not_processed with
    | nil => exact absurd hl hne
    | cons x xs => rfl

/-- C2, witness: the name `b:c.html` contains the forbidden character `:`. -/
theorem C2_forbidden_character_rejected_witness :
    ':' ∈ "b:c.html".toList ∧ ':' ∈ FORBIDDEN_FILENAME_CHARS
    ∧ (∀ (st : State 3) (old_bookpath : QString),
        (FilenameIsValid st old_bookpath "b:c.html".toList).2 = false)
    ∧ (∀ (b : Batch 3) (resource : Fin 3),
        (renamePair (sampleContext 3) b resource "b:c.html".toList).st.res = b.st.res
        ∧ (renamePair (sampleContext 3) b resource "b:c.html".toList).st.fsCalls = b.st.fsCalls
        ∧ (startsWith (b.st.res resource).GetRelativePath "META-INF/".toList = false →
            (b.st.res resource).Filename
              ≠ withExtension (b.st.res resource).Filename "b:c.html".toList →
            (renamePair (sampleContext 3) b resource "b:c.html".toList).not_processed
              = b.not_processed ++ [displayName (sampleContext 3) (b.st.res resource)]))
    ∧ (∀ (st : State 3) (pre post : List (Fin 3 × QString)) (resource : Fin 3),
        startsWith ((runPairs (renamePair (sampleContext 3)) (startBatch st) pre).st.res
            resource).GetRelativePath "META-INF/".toList = false →
        ((runPairs (renamePair (sampleContext 3)) (startBatch st) pre).st.res resource).Filename
          ≠ withExtension ((runPairs (renamePair (sampleContext 3)) (startBatch st) pre).st.res
              resource).Filename "b:c.html".toList →
        (RenameResourceList (sampleContext 3) st
          ((pre ++ (resource, "b:c.html".toList) :: post).map Prod.fst)
          ((pre ++ (resource, "b:c.html".toList) :: post).map Prod.snd)).map Prod.snd
            = some false) :=
  ⟨by decide, by decide,
    C2_forbidden_character_rejected (sampleContext 3) ':' "b:c.html".toList (by decide)
      (by decide)⟩

/-- C2, counterexample to the claim as stated: the member `META-INF/a.xml` is offered the name
`b:c.xml`, which contains `:`; the pair is skipped, the list of members not renamed stays
empty and `RenameResourceList` answers true. -/
theorem C2_counterexample :
    ':' ∈ "b:c.xml".toList ∧ ':' ∈ FORBIDDEN_FILENAME_CHARS
    ∧ (renamePair (sampleContext 2) (startBatch (newState sampleMetaInf)) 0
        "b:c.xml".toList).not_processed = []
    ∧ (RenameResourceList (sampleContext 2) (newState sampleMetaInf) [0]
        ["b:c.xml".toList]).map Prod.snd = some true := by
  decide

/-! ## Partial batches -/

theorem renameOutcome_applied_iff {n : Nat} (cx : Context n) (b : Batch n) (resource : Fin n)
    (new_filename : QString) :
    renameOutcome cx b resource new_filename = Outcome.applied
      ↔ startsWith (b.st.res resource).GetRelativePath "META-INF/".toList = false
        ∧ (b.st.res resource).Filename
          ≠ withExtension (b.st.res resource).Filename new_filename
        ∧ (FilenameIsValid b.st (b.st.res resource).GetRelativePath
            (withExtension (b.st.res resource).Filename new_filename)).2 = true
        ∧ cx.fs b.st.fsCalls.length (renameCall (b.st.res resource)
            (withExtension (b.st.res resource).Filename new_filename)) = true := by
  unfold renameOutcome FilenameIsValid
  by_cases hmeta : startsWith (b.st.res resource).GetRelativePath "META-INF/".toList = true
  · simp only [hmeta, if_true]
    constructor
    · intro h; cases h
    · rintro ⟨h, _⟩; cases h
  · by_cases hname : (b.st.res resource).Filename
        = withExtension (b.st.res resource).Filename new_filename
    · simp only [hmeta, ← hname, if_true, if_false]
      constructor
      · intro h; cases h
      · rintro ⟨_, h, _⟩; exact absurd rfl h
    · simp only [hmeta, hname, if_false]
      cases hp : filenameProblem (GetAllBookPaths b.st.res) (b.st.res resource).GetRelativePath
          (withExtension (b.st.res resource).Filename new_filename) with
      | some d =>
        simp only [Option.isSome_some, if_true]
        constructor
        · intro h; cases h
        · rintro ⟨_, _, h, _⟩; cases h
      | none =>
        simp only [Option.isSome_none, Bool.false_eq_true, if_false]
        by_cases hfs : cx.fs b.st.fsCalls.length (renameCall (b.st.res resource)
            (withExtension (b.st.res resource).Filename new_filename)) = true
        · simp only [hfs, if_true]
          simp
          exact hname
        · simp only [hfs, if_false]
          constructor
          · intro h; cases h
          · rintro ⟨_, _, _, h⟩; exact absurd h (by simp)

theorem renameOutcome_not_applied {n : Nat} (cx : Context n) (b : Batch n) (resource : Fin n)
    (new_filename : QString)
    (h : (FilenameIsValid b.st (b.st.res resource).GetRelativePath
          (withExtension (b.st.res resource).Filename new_filename)).2 = false
      ∨ cx.fs b.st.fsCalls.length (renameCall (b.st.res resource)
          (withExtension (b.st.res resource).Filename new_filename)) = false) :
    renameOutcome cx b resource new_filename ≠ Outcome.applied := by
  intro happ
  obtain ⟨_, _, hv, hfs⟩ := (renameOutcome_applied_iff cx b resource new_filename).mp happ
  rcases h with h | h
  · rw [hv] at h; cases h
  · rw [hfs] at h; cases h

/-- A member that no pair of the batch names is left as it was. -/
theorem runPairs_rename_res_of_not_mem {n : Nat} (cx : Context n) (b : Batch n)
    (pairs : List (Fin n × QString)) (resource : Fin n)
    (h : resource ∉ pairs.map Prod.fst) :
    (runPairs (renamePair cx) b pairs).st.res resource = b.st.res resource := by
  induction pairs generalizing b with
  | nil => rfl
  | cons p rest ih =>
    simp only [List.map_cons, List.mem_cons, not_or] at h
    rw [runPairs_cons, ih _ h.2, renamePair_res]
    split
    · exact Function.update_noteq h.1 _ _
    · rfl

/-- C3.  `RenameResourceList` on a batch of pairs always returns, having taken the pairs from
left to right.  For every pair of the batch, with `pre` the pairs before it and `post` those
after it: when, in the state reached after `pre`, the member is outside `META-INF/`, the
completed name differs from its file name, `FilenameIsValid` accepts the name and the file
system performs the rename, the member has its new full path and no other member changes;
when `FilenameIsValid` rejects the name or the file system fails, the registry is left as
it was; what the pair leaves for the member is what the call returns when no later pair
names it.  The answer is true exactly when no pair was rejected or failed at its turn.
On `sampleBatch`, whose second pair only is a duplicate, the first and third members are
renamed, the second keeps its path and the answer is false. -/
theorem C3_partial_batch {n : Nat} (cx : Context n) (st : State n)
    (pre post : List (Fin n × QString)) (resource : Fin n) (new_filename : QString) :
    ∃ st1 answer,
      RenameResourceList cx st ((pre ++ (resource, new_filename) :: post).map Prod.fst)
          ((pre ++ (resource, new_filename) :: post).map Prod.snd) = some (st1, answer)
      ∧ st1.res = (runPairs (renamePair cx) (renamePair cx
          (runPairs (renamePair cx) (startBatch st) pre) resource new_filename) post).st.res
      ∧ (startsWith ((runPairs (renamePair cx) (startBatch st) pre).st.res
              resource).GetRelativePath "META-INF/".toList = false →
          ((runPairs (renamePair cx) (startBatch st) pre).st.res resource).Filename
            ≠ withExtension ((runPairs (renamePair cx) (startBatch st) pre).st.res
                resource).Filename new_filename →
          (FilenameIsValid (runPairs (renamePair cx) (startBatch st) pre).st
            ((runPairs (renamePair cx) (startBatch st) pre).st.res resource).GetRelativePath
            (withExtension ((runPairs (renamePair cx) (startBatch st) pre).st.res
                resource).Filename new_filename)).2 = true →
          cx.fs (runPairs (renamePair cx) (startBatch st) pre).st.fsCalls.length
            (renameCall ((runPairs (renamePair cx) (startBatch st) pre).st.res resource)
              (withExtension ((runPairs (renamePair cx) (startBatch st) pre).st.res
                resource).Filename new_filename)) = true →
          ((renamePair cx (runPairs (renamePair cx) (startBatch st) pre) resource
              new_filename).st.res resource).m_FullFilePath
            = absolutePath ((runPairs (renamePair cx) (startBatch st) pre).st.res
                resource).m_FullFilePath
              ++ '/' :: withExtension ((runPairs (renamePair cx) (startBatch st) pre).st.res
                resource).Filename new_filename
          ∧ ∀ other, other ≠ resource →
              (renamePair cx (runPairs (renamePair cx) (startBatch st) pre) resource
                new_filename).st.res other
              = (runPairs (renamePair cx) (startBatch st) pre).st.res other)
      ∧ ((FilenameIsValid (runPairs (renamePair cx) (startBatch st) pre).st
            ((runPairs (renamePair cx) (startBatch st) pre).st.res resource).GetRelativePath
            (withExtension ((runPairs (renamePair cx) (startBatch st) pre).st.res
                resource).Filename new_filename)).2 = false
          ∨ cx.fs (runPairs (renamePair cx) (startBatch st) pre).st.fsCalls.length
            (renameCall ((runPairs (renamePair cx) (startBatch st) pre).st.res resource)
              (withExtension ((runPairs (renamePair cx) (startBatch st) pre).st.res
                resource).Filename new_filename)) = false →
          (renamePair cx (runPairs (renamePair cx) (startBatch st) pre) resource
              new_filename).st.res
            = (runPairs (renamePair cx) (startBatch st) pre).st.res)
      ∧ (resource ∉ post.map Prod.fst →
          st1.res resource
            = (renamePair cx (runPairs (renamePair cx) (startBatch st) pre) resource
                new_filename).st.res resource)
      ∧ (answer = true ↔
          ∀ o ∈ outcomes (renamePair cx) (renameOutcome cx) (startBatch st)
            (pre ++ (resource, new_filename) :: post),
            o = Outcome.skipped ∨ o = Outcome.applied)
      ∧ ((RenameResourceList (sampleContext 3) (newState sampleThree)
            (sampleBatch.map Prod.fst) (sampleBatch.map Prod.snd)).map
          (fun result => (result.2, (List.finRange 3).map
            fun i => (result.1.res i).GetRelativePath))
        = some (false, ["Text/x.html".toList, "Text/b.html".toList, "Text/z.html".toList])) := by
  refine ⟨(finishBatch cx (runPairs (renamePair cx) (startBatch st)
      (pre ++ (resource, new_filename) :: post))).1,
    (finishBatch cx (runPairs (renamePair cx) (startBatch st)
      (pre ++ (resource, new_filename) :: post))).2,
    RenameResourceList_pairs cx st _, ?_, ?_, ?_, ?_, ?_, ?_⟩
  · rw [finishBatch_res, runPairs_append, runPairs_cons]
  · intro hmeta hname hvalid hfs
    have happ := (renameOutcome_applied_iff cx _ resource new_filename).mpr
      ⟨hmeta, hname, hvalid, hfs⟩
    rw [renamePair_res, if_pos happ]
    refine ⟨by rw [Function.update_same], fun other hne => Function.update_noteq hne _ _⟩
  · intro h
    rw [renamePair_res, if_neg (renameOutcome_not_applied cx _ resource new_filename h)]
  · intro hnot
    rw [finishBatch_res, runPairs_append, runPairs_cons]
    exact runPairs_rename_res_of_not_mem cx _ post resource hnot
  · rw [finishBatch_answer, List.isEmpty_iff,
      runPairs_not_processed_nil (renamePair cx) (renameOutcome cx)
        (fun b resource => displayName cx (b.st.res resource)) (renamePair_not_processed cx)]
    simp [startBatch]
  · decide

/-! ## Pairing of the two lists of a batch -/

theorem batchLoop_drop {n : Nat} (body : Batch n → Fin n → QString → Batch n)
    (second : List QString) (resources : List (Fin n)) (i : Nat) (b : Batch n) :
    batchLoop body second resources i b = batchLoop body (second.drop i) resources 0 b := by
  induction resources generalizing second i b with
  | nil => rfl
  | cons resource rest ih =>
    rw [batchLoop, batchLoop]
    have hget : (second.drop i).get? 0 = second.get? i := by
      simp
    rw [hget]
    cases second.get? i with
    | none => rfl
    | some entry =>
      simp only []
      rw [ih second (i + 1), ih (second.drop i) (0 + 1), List.drop_drop]

theorem batchLoop_cons_cons {n : Nat} (body : Batch n → Fin n → QString → Batch n)
    (entry : QString) (second : List QString) (resource : Fin n) (resources : List (Fin n))
    (b : Batch n) :
    batchLoop body (entry :: second) (resource :: resources) 0 b
      = batchLoop body second resources 0 (body b resource entry) := by
  rw [batchLoop]
  simp only [List.get?_cons_zero]
  rw [batchLoop_drop]
  rfl

/-- Members and entries are paired by position: after as many members as entries, the loop
goes on from the fold over the pairs. -/
theorem batchLoop_append {n : Nat} (body : Batch n → Fin n → QString → Batch n)
    (first : List (Fin n)) (entries : List QString) (resources : List (Fin n))
    (second : List QString) (b : Batch n) (h : first.length = entries.length) :
    batchLoop body (entries ++ second) (first ++ resources) 0 b
      = batchLoop body second resources 0 (runPairs body b (first.zip entries)) := by
  induction first generalizing entries b with
  | nil =>
    cases entries with
    | nil => rfl
    | cons e es => cases h
  | cons r rs ih =>
    cases entries with
    | nil => cases h
    | cons e es =>
      simp only [List.cons_append, List.zip_cons_cons]
      rw [batchLoop_cons_cons, ih es _ (by simpa using h), runPairs_cons]

/-! ## Members under META-INF -/

theorem renameOutcome_protected {n : Nat} (cx : Context n) (b : Batch n) (resource : Fin n)
    (entry : QString)
    (h : startsWith (b.st.res resource).GetRelativePath "META-INF/".toList = true) :
    renameOutcome cx b resource entry = Outcome.skipped := by
  simp only [renameOutcome, h, if_true]

theorem moveOutcome_protected {n : Nat} (cx : Context n) (b : Batch n) (resource : Fin n)
    (entry : QString)
    (h : startsWith (b.st.res resource).GetRelativePath "META-INF/".toList = true) :
    moveOutcome cx b resource entry = Outcome.skipped := by
  simp only [moveOutcome, h, if_true]

/-- A member under `META-INF/` is the same after any pairs of a rename batch. -/
theorem runPairs_rename_protected {n : Nat} (cx : Context n) (b : Batch n) (resource : Fin n)
    (pairs : List (Fin n × QString))
    (h : startsWith (b.st.res resource).GetRelativePath "META-INF/".toList = true) :
    (runPairs (renamePair cx) b pairs).st.res resource = b.st.res resource := by
  induction pairs generalizing b with
  | nil => rfl
  | cons p rest ih =>
    have hstep : (renamePair cx b p.1 p.2).st.res resource = b.st.res resource := by
      rw [renamePair_res]
      split
      · rename_i happ
        by_cases hp : p.1 = resource
        · rw [hp, renameOutcome_protected cx b resource p.2 h] at happ
          cases happ
        · exact Function.update_noteq (Ne.symm hp) _ _
      · rfl
    rw [runPairs_cons, ih _ (by rw [hstep]; exact h), hstep]

/-- A member under `META-INF/` is the same after any pairs of a move batch. -/
theorem runPairs_move_protected {n : Nat} (cx : Context n) (b : Batch n) (resource : Fin n)
    (pairs : List (Fin n × QString))
    (h : startsWith (b.st.res resource).GetRelativePath "META-INF/".toList = true) :
    (runPairs (movePair cx) b pairs).st.res resource = b.st.res resource := by
  induction pairs generalizing b with
  | nil => rfl
  | cons p rest ih =>
    have hstep : (movePair cx b p.1 p.2).st.res resource = b.st.res resource := by
      rw [movePair_res]
      split
      · rename_i happ
        by_cases hp : p.1 = resource
        · rw [hp, moveOutcome_protected cx b resource p.2 h] at happ
          cases happ
        · exact Function.update_noteq (Ne.symm hp) _ _
      · rfl
    rw [runPairs_cons, ih _ (by rw [hstep]; exact h), hstep]

/-- C4.  Let the book path of a member start with `META-INF/` when a batch rename or a batch
move is called.  Whatever pairs were processed before, the member is as it was, and the
body of the loop for a pair of the member leaves everything as it is: registry,
file-system calls, dialogs, signals, the list of members not processed and the hash.  The
batch gives the same result as the batch without the member and without its entry, so the
members after it are processed with the entries they had and the answer is not affected. -/
theorem C4_protected_member_skipped {n : Nat} (cx : Context n) (st : State n)
    (resource : Fin n) (entry : QString)
    (h : startsWith (st.res resource).GetRelativePath "META-INF/".toList = true) :
    (∀ pre : List (Fin n × QString),
        (runPairs (renamePair cx) (startBatch st) pre).st.res resource = st.res resource
        ∧ renamePair cx (runPairs (renamePair cx) (startBatch st) pre) resource entry
          = runPairs (renamePair cx) (startBatch st) pre)
    ∧ (∀ pre : List (Fin n × QString),
        (runPairs (movePair cx) (startBatch st) pre).st.res resource = st.res resource
        ∧ movePair cx (runPairs (movePair cx) (startBatch st) pre) resource entry
          = runPairs (movePair cx) (startBatch st) pre)
    ∧ (∀ (first rest : List (Fin n)) (entries others : List QString),
        first.length = entries.length →
        RenameResourceList cx st (first ++ resource :: rest) (entries ++ entry :: others)
          = RenameResourceList cx st (first ++ rest) (entries ++ others))
    ∧ (∀ (first rest : List (Fin n)) (entries others : List QString),
        first.length = entries.length →
        MoveResourceList cx st (first ++ resource :: rest) (entries ++ entry :: others)
          = MoveResourceList cx st (first ++ rest) (entries ++ others)) := by
  have hr : ∀ pre : List (Fin n × QString),
      (runPairs (renamePair cx) (startBatch st) pre).st.res resource = st.res resource :=
    fun pre => runPairs_rename_protected cx (startBatch st) resource pre h
  have hm : ∀ pre : List (Fin n × QString),
      (runPairs (movePair cx) (startBatch st) pre).st.res resource = st.res resource :=
    fun pre => runPairs_move_protected cx (startBatch st) resource pre h
  have hrs : ∀ pre : List (Fin n × QString),
      renamePair cx (runPairs (renamePair cx) (startBatch st) pre) resource entry
        = runPairs (renamePair cx) (startBatch st) pre :=
    fun pre => renamePair_protected cx _ resource entry (by rw [hr pre]; exact h)
  have hms : ∀ pre : List (Fin n × QString),
      movePair cx (runPairs (movePair cx) (startBatch st) pre) resource entry
        = runPairs (movePair cx) (startBatch st) pre :=
    fun pre => movePair_protected cx _ resource entry (by rw [hm pre]; exact h)
  refine ⟨fun pre => ⟨hr pre, hrs pre⟩, fun pre => ⟨hm pre, hms pre⟩, ?_, ?_⟩
  · intro first rest entries others hlen
    unfold RenameResourceList
    rw [batchLoop_append _ _ _ _ _ _ hlen, batchLoop_append _ _ _ _ _ _ hlen,
      batchLoop_cons_cons, hrs]
  · intro first rest entries others hlen
    unfold MoveResourceList
    rw [batchLoop_append _ _ _ _ _ _ hlen, batchLoop_append _ _ _ _ _ _ hlen,
      batchLoop_cons_cons, hms]

/-- C4, witness: `META-INF/a.xml` in a book just opened. -/
theorem C4_protected_member_skipped_witness :
    startsWith ((newState sampleMetaInf).res 0).GetRelativePath "META-INF/".toList = true
    ∧ (∀ pre : List (Fin 2 × QString),
        (runPairs (renamePair (sampleContext 2)) (startBatch (newState sampleMetaInf))
            pre).st.res 0 = (newState sampleMetaInf).res 0
        ∧ renamePair (sampleContext 2)
            (runPairs (renamePair (sampleContext 2)) (startBatch (newState sampleMetaInf)) pre)
            0 "c.xml".toList
          = runPairs (renamePair (sampleContext 2)) (startBatch (newState sampleMetaInf)) pre)
    ∧ (∀ pre : List (Fin 2 × QString),
        (runPairs (movePair (sampleContext 2)) (startBatch (newState sampleMetaInf))
            pre).st.res 0 = (newState sampleMetaInf).res 0
        ∧ movePair (sampleContext 2)
            (runPairs (movePair (sampleContext 2)) (startBatch (newState sampleMetaInf)) pre)
            0 "c.xml".toList
          = runPairs (movePair (sampleContext 2)) (startBatch (newState sampleMetaInf)) pre)
    ∧ (∀ (first rest : List (Fin 2)) (entries others : List QString),
        first.length = entries.length →
        RenameResourceList (sampleContext 2) (newState sampleMetaInf) (first ++ 0 :: rest)
            (entries ++ "c.xml".toList :: others)
          = RenameResourceList (sampleContext 2) (newState sampleMetaInf) (first ++ rest)
            (entries ++ others))
    ∧ (∀ (first rest : List (Fin 2)) (entries others : List QString),
        first.length = entries.length →
        MoveResourceList (sampleContext 2) (newState sampleMetaInf) (first ++ 0 :: rest)
            (entries ++ "c.xml".toList :: others)
          = MoveResourceList (sampleContext 2) (newState sampleMetaInf) (first ++ rest)
            (entries ++ others)) :=
  ⟨by decide, C4_protected_member_skipped (sampleContext 2) (newState sampleMetaInf)
    0 "c.xml".toList (by decide)⟩

/-! ## The hash of a batch -/

theorem mem_hashInsert (key value : QString) (hash : List (QString × QString))
    (entry : QString × QString) :
    entry ∈ hashInsert key value hash ↔ entry = (key, value) ∨ (entry ∈ hash ∧ entry.1 ≠ key) := by
  simp [hashInsert]

theorem hashInsert_keys_nodup (key value : QString) (hash : List (QString × QString))
    (h : (hash.map Prod.fst).Nodup) : ((hashInsert key value hash).map Prod.fst).Nodup := by
  unfold hashInsert
  rw [List.map_cons, List.nodup_cons]
  constructor
  · intro hmem
    obtain ⟨entry, hentry, hkey⟩ := List.mem_map.mp hmem
    have := (List.mem_filter.mp hentry).2
    simp only [decide_eq_true_eq] at this
    exact this hkey
  · exact (List.filter_sublist hash |>.map Prod.fst).nodup h

/-- The hash built from changes with pairwise distinct old paths holds these changes and
nothing else. -/
theorem mem_foldl_hashInsert (events : List (QString × QString))
    (h : (events.map Prod.fst).Nodup) (entry : QString × QString) :
    entry ∈ events.foldl (fun hash e => hashInsert e.1 e.2 hash) [] ↔ entry ∈ events := by
  induction events using List.reverseRecOn with
  | nil => simp
  | append_singleton es e ih =>
    rw [List.foldl_append, List.foldl_cons, List.foldl_nil, mem_hashInsert, List.mem_append,
      List.mem_singleton]
    rw [List.map_append, List.nodup_append] at h
    rw [ih h.1]
    constructor
    · rintro (h1 | ⟨h1, _⟩)
      · right; exact h1
      · left; exact h1
    · rintro (h1 | h1)
      · right
        refine ⟨h1, fun hkey => ?_⟩
        exact h.2.2 (List.mem_map.mpr ⟨entry, h1, rfl⟩) (by simp [hkey])
      · left; exact h1

theorem foldl_hashInsert_keys_nodup (events : List (QString × QString))
    (hash : List (QString × QString)) (h : (hash.map Prod.fst).Nodup) :
    ((events.foldl (fun hash e => hashInsert e.1 e.2 hash) hash).map Prod.fst).Nodup := by
  induction events generalizing hash with
  | nil => exact h
  | cons e es ih => exact ih _ (hashInsert_keys_nodup e.1 e.2 hash h)

theorem foldl_hashInsert_eq_nil (events : List (QString × QString))
    (hash : List (QString × QString)) :
    events.foldl (fun hash e => hashInsert e.1 e.2 hash) hash = [] ↔ events = [] ∧ hash = [] := by
  induction events generalizing hash with
  | nil => simp
  | cons e es ih =>
    rw [List.foldl_cons, ih]
    simp [hashInsert]

/-- The hash at the end of a batch is built from the changes of the batch, in order. -/
theorem runPairs_update {n : Nat} (body : Batch n → Fin n → QString → Batch n)
    (outcome : Batch n → Fin n → QString → Outcome)
    (hstep : ∀ b resource entry, (body b resource entry).update
      = if outcome b resource entry = Outcome.applied then
          hashInsert (b.st.res resource).GetRelativePath
            ((body b resource entry).st.res resource).GetRelativePath b.update
        else b.update)
    (b : Batch n) (pairs : List (Fin n × QString)) :
    (runPairs body b pairs).update
      = (changes body outcome b pairs).foldl (fun hash e => hashInsert e.1 e.2 hash)
          b.update := by
  induction pairs generalizing b with
  | nil => rfl
  | cons p rest ih =>
    rw [runPairs_cons, ih, hstep, changes]
    split <;> rfl

/-! ## Calls and signals of a batch -/

theorem renamePair_calls {n : Nat} (cx : Context n) (b : Batch n) (resource : Fin n)
    (new_filename : QString) : (renamePair cx b resource new_filename).st.calls = b.st.calls := by
  rcases Outcome_cases (renameOutcome cx b resource new_filename) with h | h | h | h
  · rw [renamePair_skipped cx b resource new_filename h]
  · obtain ⟨d, _, hd⟩ := renamePair_rejected_outcome cx b resource new_filename h
    rw [hd]
  · rw [renamePair_failed cx b resource new_filename h]
  · rw [renamePair_applied cx b resource new_filename h]

theorem renamePair_modified {n : Nat} (cx : Context n) (b : Batch n) (resource : Fin n)
    (new_filename : QString) :
    (renamePair cx b resource new_filename).st.signals.count Signal.BookContentModified
      = b.st.signals.count Signal.BookContentModified := by
  rcases Outcome_cases (renameOutcome cx b resource new_filename) with h | h | h | h
  · rw [renamePair_skipped cx b resource new_filename h]
  · obtain ⟨d, _, hd⟩ := renamePair_rejected_outcome cx b resource new_filename h
    rw [hd]
  · rw [renamePair_failed cx b resource new_filename h]
  · rw [renamePair_applied cx b resource new_filename h]
    simp

theorem movePair_calls {n : Nat} (cx : Context n) (b : Batch n) (resource : Fin n)
    (newbookpath : QString) : (movePair cx b resource newbookpath).st.calls = b.st.calls := by
  rcases Outcome_cases (moveOutcome cx b resource newbookpath) with h | h | h | h
  · rw [movePair_skipped cx b resource newbookpath h]
  · obtain ⟨d, _, hd⟩ := movePair_rejected_outcome cx b resource newbookpath h
    rw [hd]
  · rw [movePair_failed cx b resource newbookpath h]
  · rw [movePair_applied cx b resource newbookpath h]

theorem movePair_modified {n : Nat} (cx : Context n) (b : Batch n) (resource : Fin n)
    (newbookpath : QString) :
    (movePair cx b resource newbookpath).st.signals.count Signal.BookContentModified
      = b.st.signals.count Signal.BookContentModified := by
  rcases Outcome_cases (moveOutcome cx b resource newbookpath) with h | h | h | h
  · rw [movePair_skipped cx b resource newbookpath h]
  · obtain ⟨d, _, hd⟩ := movePair_rejected_outcome cx b resource newbookpath h
    rw [hd]
  · rw [movePair_failed cx b resource newbookpath h]
  · rw [movePair_applied cx b resource newbookpath h]
    simp

theorem runPairs_calls {n : Nat} (body : Batch n → Fin n → QString → Batch n)
    (hstep : ∀ b resource entry, (body b resource entry).st.calls = b.st.calls)
    (b : Batch n) (pairs : List (Fin n × QString)) :
    (runPairs body b pairs).st.calls = b.st.calls := by
  induction pairs generalizing b with
  | nil => rfl
  | cons p rest ih => rw [runPairs_cons, ih, hstep]

theorem runPairs_modified {n : Nat} (body : Batch n → Fin n → QString → Batch n)
    (hstep : ∀ b resource entry,
      (body b resource entry).st.signals.count Signal.BookContentModified
        = b.st.signals.count Signal.BookContentModified)
    (b : Batch n) (pairs : List (Fin n × QString)) :
    (runPairs body b pairs).st.signals.count Signal.BookContentModified
      = b.st.signals.count Signal.BookContentModified := by
  induction pairs generalizing b with
  | nil => rfl
  | cons p rest ih => rw [runPairs_cons, ih, hstep]

/-- What the end of a batch adds to the calls and signals, from the changes of the batch. -/
theorem finishBatch_rewriting {n : Nat} (cx : Context n)
    (body : Batch n → Fin n → QString → Batch n)
    (outcome : Batch n → Fin n → QString → Outcome)
    (hupdate : ∀ b resource entry, (body b resource entry).update
      = if outcome b resource entry = Outcome.applied then
          hashInsert (b.st.res resource).GetRelativePath
            ((body b resource entry).st.res resource).GetRelativePath b.update
        else b.update)
    (hcalls : ∀ b resource entry, (body b resource entry).st.calls = b.st.calls)
    (hmod : ∀ b resource entry,
      (body b resource entry).st.signals.count Signal.BookContentModified
        = b.st.signals.count Signal.BookContentModified)
    (st : State n) (pairs : List (Fin n × QString)) :
    (changes body outcome (startBatch st) pairs ≠ [] →
        (finishBatch cx (runPairs body (startBatch st) pairs)).1.calls
          = st.calls ++ [Call.PerformUniversalUpdates (GetResourceList n)
              (runPairs body (startBatch st) pairs).update]
        ∧ (finishBatch cx (runPairs body (startBatch st) pairs)).1.signals.count
            Signal.BookContentModified = st.signals.count Signal.BookContentModified + 1)
    ∧ (changes body outcome (startBatch st) pairs = [] →
        (finishBatch cx (runPairs body (startBatch st) pairs)).1.calls = st.calls
        ∧ (finishBatch cx (runPairs body (startBatch st) pairs)).1.signals.count
            Signal.BookContentModified = st.signals.count Signal.BookContentModified) := by
  have hu := runPairs_update body outcome hupdate (startBatch st) pairs
  have hc := runPairs_calls body hcalls (startBatch st) pairs
  have hm := runPairs_modified body hmod (startBatch st) pairs
  have hnil : (runPairs body (startBatch st) pairs).update = []
      ↔ changes body outcome (startBatch st) pairs = [] := by
    rw [hu, foldl_hashInsert_eq_nil]
    simp [startBatch]
  constructor
  · intro hne
    have hpos : (runPairs body (startBatch st) pairs).update.length > 0 :=
      List.length_pos.mpr (fun h => hne (hnil.mp h))
    unfold finishBatch
    simp only [hpos, if_true]
    rw [hc]
    refine ⟨rfl, ?_⟩
    rw [List.count_append, hm]
    rfl
  · intro heq
    have hzero : ¬ (runPairs body (startBatch st) pairs).update.length > 0 := by
      rw [hnil.mpr heq]
      simp
    unfold finishBatch
    simp only [hzero, if_false]
    exact ⟨hc, hm⟩

theorem changes_eq_nil {n : Nat} (body : Batch n → Fin n → QString → Batch n)
    (outcome : Batch n → Fin n → QString → Outcome) (b : Batch n)
    (pairs : List (Fin n × QString)) :
    changes body outcome b pairs = [] ↔ Outcome.applied ∉ outcomes body outcome b pairs := by
  induction pairs generalizing b with
  | nil => simp [changes, outcomes]
  | cons p rest ih =>
    rw [changes, outcomes, List.mem_cons, not_or]
    by_cases h : outcome b p.1 p.2 = Outcome.applied
    · simp [h]
    · rw [if_neg h, ih]
      exact ⟨fun h1 => ⟨fun h2 => h h2.symm, h1⟩, fun h1 => h1.2⟩

theorem renamePair_res_other {n : Nat} (cx : Context n) (b : Batch n) (resource : Fin n)
    (new_filename : QString) (other : Fin n) (h : other ≠ resource) :
    (renamePair cx b resource new_filename).st.res other = b.st.res other := by
  rw [renamePair_res]
  split
  · exact Function.update_noteq h _ _
  · rfl

theorem movePair_res_other {n : Nat} (cx : Context n) (b : Batch n) (resource : Fin n)
    (newbookpath : QString) (other : Fin n) (h : other ≠ resource) :
    (movePair cx b resource newbookpath).st.res other = b.st.res other := by
  rw [movePair_res]
  split
  · exact Function.update_noteq h _ _
  · rfl

/-- In a batch that names no member twice, the old paths of the changes are book paths the
members had at the start, in the order of the batch. -/
theorem changes_keys_sublist {n : Nat} (body : Batch n → Fin n → QString → Batch n)
    (outcome : Batch n → Fin n → QString → Outcome)
    (hother : ∀ b resource entry other, other ≠ resource →
      (body b resource entry).st.res other = b.st.res other)
    (b : Batch n) (pairs : List (Fin n × QString)) (hnodup : (pairs.map Prod.fst).Nodup) :
    ((changes body outcome b pairs).map Prod.fst).Sublist
      (pairs.map fun p => (b.st.res p.1).GetRelativePath) := by
  induction pairs generalizing b with
  | nil => exact List.Sublist.refl _
  | cons p rest ih =>
    rw [List.map_cons, List.nodup_cons] at hnodup
    have hrest : (rest.map fun q => ((body b p.1 p.2).st.res q.1).GetRelativePath)
        = rest.map fun q => (b.st.res q.1).GetRelativePath := by
      apply List.map_congr_left
      intro q hq
      have hne : q.1 ≠ p.1 := fun heq =>
        hnodup.1 (heq ▸ List.mem_map.mpr ⟨q, hq, rfl⟩)
      rw [hother b p.1 p.2 q.1 hne]
    have hih := ih (body b p.1 p.2) hnodup.2
    rw [hrest] at hih
    rw [changes, List.map_cons]
    split
    · exact hih.cons₂ _
    · exact hih.cons _

/-- In a batch that names no member twice, over a registry whose book paths are pairwise
distinct, no two changes start from the same book path. -/
theorem changes_keys_nodup {n : Nat} (body : Batch n → Fin n → QString → Batch n)
    (outcome : Batch n → Fin n → QString → Outcome)
    (hother : ∀ b resource entry other, other ≠ resource →
      (body b resource entry).st.res other = b.st.res other)
    (b : Batch n) (pairs : List (Fin n × QString)) (hnodup : (pairs.map Prod.fst).Nodup)
    (hpaths : Function.Injective fun i => (b.st.res i).GetRelativePath) :
    ((changes body outcome b pairs).map Prod.fst).Nodup := by
  refine (changes_keys_sublist body outcome hother b pairs hnodup).nodup ?_
  have hmap : (pairs.map fun p => (b.st.res p.1).GetRelativePath)
      = (pairs.map Prod.fst).map fun i => (b.st.res i).GetRelativePath := by
    rw [List.map_map]
    rfl
  rw [hmap]
  exact hnodup.map hpaths

theorem rename_changes_keys_nodup {n : Nat} (cx : Context n) (st : State n)
    (pairs : List (Fin n × QString)) (hnodup : (pairs.map Prod.fst).Nodup)
    (hpaths : Function.Injective fun i => (st.res i).GetRelativePath) :
    ((changes (renamePair cx) (renameOutcome cx) (startBatch st) pairs).map Prod.fst).Nodup :=
  changes_keys_nodup _ _ (renamePair_res_other cx) (startBatch st) pairs hnodup hpaths

theorem move_changes_keys_nodup {n : Nat} (cx : Context n) (st : State n)
    (pairs : List (Fin n × QString)) (hnodup : (pairs.map Prod.fst).Nodup)
    (hpaths : Function.Injective fun i => (st.res i).GetRelativePath) :
    ((changes (movePair cx) (moveOutcome cx) (startBatch st) pairs).map Prod.fst).Nodup :=
  changes_keys_nodup _ _ (movePair_res_other cx) (startBatch st) pairs hnodup hpaths

/-! ## Reference rewriting -/

/-- C5 (as amended).  For a batch rename and for a batch move in which no two changes start
from the same book path: the hash handed to `PerformUniversalUpdates` has one entry per key
and its entries are exactly the changes of the batch, each the old book path of an applied
pair with the new one.  When some pair was applied, the call is made once, on the list of
all members, and `BookContentModified` is emitted once; when none was, neither happens. -/
theorem C5_reference_rewriting_once {n : Nat} (cx : Context n) (st : State n)
    (renames moves : List (Fin n × QString))
    (hr : ((changes (renamePair cx) (renameOutcome cx) (startBatch st) renames).map
      Prod.fst).Nodup)
    (hm : ((changes (movePair cx) (moveOutcome cx) (startBatch st) moves).map
      Prod.fst).Nodup) :
    (∃ st1 answer mapping,
        RenameResourceList cx st (renames.map Prod.fst) (renames.map Prod.snd)
          = some (st1, answer)
        ∧ (mapping.map Prod.fst).Nodup
        ∧ (∀ entry, entry ∈ mapping
            ↔ entry ∈ changes (renamePair cx) (renameOutcome cx) (startBatch st) renames)
        ∧ (Outcome.applied ∈ outcomes (renamePair cx) (renameOutcome cx) (startBatch st) renames →
            st1.calls = st.calls ++ [Call.PerformUniversalUpdates (GetResourceList n) mapping]
            ∧ st1.signals.count Signal.BookContentModified
              = st.signals.count Signal.BookContentModified + 1)
        ∧ (Outcome.applied ∉ outcomes (renamePair cx) (renameOutcome cx) (startBatch st) renames →
            st1.calls = st.calls
            ∧ st1.signals.count Signal.BookContentModified
              = st.signals.count Signal.BookContentModified))
    ∧ (∃ st1 answer mapping,
        MoveResourceList cx st (moves.map Prod.fst) (moves.map Prod.snd) = some (st1, answer)
        ∧ (mapping.map Prod.fst).Nodup
        ∧ (∀ entry, entry ∈ mapping
            ↔ entry ∈ changes (movePair cx) (moveOutcome cx) (startBatch st) moves)
        ∧ (Outcome.applied ∈ outcomes (movePair cx) (moveOutcome cx) (startBatch st) moves →
            st1.calls = st.calls ++ [Call.PerformUniversalUpdates (GetResourceList n) mapping]
            ∧ st1.signals.count Signal.BookContentModified
              = st.signals.count Signal.BookContentModified + 1)
        ∧ (Outcome.applied ∉ outcomes (movePair cx) (moveOutcome cx) (startBatch st) moves →
            st1.calls = st.calls
            ∧ st1.signals.count Signal.BookContentModified
              = st.signals.count Signal.BookContentModified)) := by
  constructor
  · have hfin := finishBatch_rewriting cx (renamePair cx) (renameOutcome cx)
      (renamePair_update cx) (renamePair_calls cx) (renamePair_modified cx) st renames
    have hu := runPairs_update (renamePair cx) (renameOutcome cx) (renamePair_update cx)
      (startBatch st) renames
    refine ⟨(finishBatch cx (runPairs (renamePair cx) (startBatch st) renames)).1,
      (finishBatch cx (runPairs (renamePair cx) (startBatch st) renames)).2,
      (runPairs (renamePair cx) (startBatch st) renames).update,
      RenameResourceList_pairs cx st renames, ?_, ?_, ?_, ?_⟩
    · rw [hu]
      exact foldl_hashInsert_keys_nodup _ _ (by simp [startBatch])
    · intro entry
      rw [hu]
      exact mem_foldl_hashInsert _ hr entry
    · intro happ
      exact hfin.1 (fun h => (changes_eq_nil _ _ _ _).mp h happ)
    · intro happ
      exact hfin.2 ((changes_eq_nil _ _ _ _).mpr happ)
  · have hfin := finishBatch_rewriting cx (movePair cx) (moveOutcome cx)
      (movePair_update cx) (movePair_calls cx) (movePair_modified cx) st moves
    have hu := runPairs_update (movePair cx) (moveOutcome cx) (movePair_update cx)
      (startBatch st) moves
    refine ⟨(finishBatch cx (runPairs (movePair cx) (startBatch st) moves)).1,
      (finishBatch cx (runPairs (movePair cx) (startBatch st) moves)).2,
      (runPairs (movePair cx) (startBatch st) moves).update,
      MoveResourceList_pairs cx st moves, ?_, ?_, ?_, ?_⟩
    · rw [hu]
      exact foldl_hashInsert_keys_nodup _ _ (by simp [startBatch])
    · intro entry
      rw [hu]
      exact mem_foldl_hashInsert _ hm entry
    · intro happ
      exact hfin.1 (fun h => (changes_eq_nil _ _ _ _).mp h happ)
    · intro happ
      exact hfin.2 ((changes_eq_nil _ _ _ _).mpr happ)

/-- C5, counterexample to the claim as stated: the batch `sampleThrice` renames `Text/a.html`
to `x.html`, back to `a.html` and then to `y.html`, all three with success.  The first
change, from `Text/a.html` to `Text/x.html`, is not in the hash handed to
`PerformUniversalUpdates`, which sends `Text/a.html` to `Text/y.html`. -/
theorem C5_counterexample :
    changes (renamePair (sampleContext 3)) (renameOutcome (sampleContext 3))
        (startBatch (newState sampleThree)) sampleThrice
      = [("Text/a.html".toList, "Text/x.html".toList),
         ("Text/x.html".toList, "Text/a.html".toList),
         ("Text/a.html".toList, "Text/y.html".toList)]
    ∧ (RenameResourceList (sampleContext 3) (newState sampleThree)
        (sampleThrice.map Prod.fst) (sampleThrice.map Prod.snd)).map (fun result => result.1.calls)
      = some [Call.PerformUniversalUpdates (GetResourceList 3)
          [("Text/a.html".toList, "Text/y.html".toList),
           ("Text/x.html".toList, "Text/a.html".toList)]]
    ∧ ("Text/a.html".toList, "Text/x.html".toList)
        ∉ [("Text/a.html".toList, "Text/y.html".toList),
           ("Text/x.html".toList, "Text/a.html".toList)] := by
  decide

/-- C5, witness: the batch `sampleBatch` of renames and the batch `sampleMoves` of moves on
the book `sampleThree`. -/
theorem C5_reference_rewriting_once_witness :
    ((changes (renamePair (sampleContext 3)) (renameOutcome (sampleContext 3))
        (startBatch (newState sampleThree)) sampleBatch).map Prod.fst).Nodup
    ∧ ((changes (movePair (sampleContext 3)) (moveOutcome (sampleContext 3))
        (startBatch (newState sampleThree)) sampleMoves).map Prod.fst).Nodup
    ∧ (∃ st1 answer mapping,
        RenameResourceList (sampleContext 3) (newState sampleThree)
            (sampleBatch.map Prod.fst) (sampleBatch.map Prod.snd) = some (st1, answer)
        ∧ (mapping.map Prod.fst).Nodup
        ∧ (∀ entry, entry ∈ mapping
            ↔ entry ∈ changes (renamePair (sampleContext 3)) (renameOutcome (sampleContext 3))
                (startBatch (newState sampleThree)) sampleBatch)
        ∧ (Outcome.applied ∈ outcomes (renamePair (sampleContext 3))
              (renameOutcome (sampleContext 3)) (startBatch (newState sampleThree)) sampleBatch →
            st1.calls = (newState sampleThree).calls
              ++ [Call.PerformUniversalUpdates (GetResourceList 3) mapping]
            ∧ st1.signals.count Signal.BookContentModified
              = (newState sampleThree).signals.count Signal.BookContentModified + 1)
        ∧ (Outcome.applied ∉ outcomes (renamePair (sampleContext 3))
              (renameOutcome (sampleContext 3)) (startBatch (newState sampleThree)) sampleBatch →
            st1.calls = (newState sampleThree).calls
            ∧ st1.signals.count Signal.BookContentModified
              = (newState sampleThree).signals.count Signal.BookContentModified))
    ∧ (∃ st1 answer mapping,
        MoveResourceList (sampleContext 3) (newState sampleThree)
            (sampleMoves.map Prod.fst) (sampleMoves.map Prod.snd) = some (st1, answer)
        ∧ (mapping.map Prod.fst).Nodup
        ∧ (∀ entry, entry ∈ mapping
            ↔ entry ∈ changes (movePair (sampleContext 3)) (moveOutcome (sampleContext 3))
                (startBatch (newState sampleThree)) sampleMoves)
        ∧ (Outcome.applied ∈ outcomes (movePair (sampleContext 3))
              (moveOutcome (sampleContext 3)) (startBatch (newState sampleThree)) sampleMoves →
            st1.calls = (newState sampleThree).calls
              ++ [Call.PerformUniversalUpdates (GetResourceList 3) mapping]
            ∧ st1.signals.count Signal.BookContentModified
              = (newState sampleThree).signals.count Signal.BookContentModified + 1)
        ∧ (Outcome.applied ∉ outcomes (movePair (sampleContext 3))
              (moveOutcome (sampleContext 3)) (startBatch (newState sampleThree)) sampleMoves →
            st1.calls = (newState sampleThree).calls
            ∧ st1.signals.count Signal.BookContentModified
              = (newState sampleThree).signals.count Signal.BookContentModified)) :=
  ⟨by decide, by decide,
    C5_reference_rewriting_once (sampleContext 3) (newState sampleThree) sampleBatch sampleMoves
      (by decide) (by decide)⟩

/-! ## The tree after a refresh -/

namespace OPFModel

@[simp] theorem setRows_root (m : OPFModel) (f : Folder) (l : List Item) :
    (m.setRows f l).root = m.root := by
  cases f <;> rfl

@[simp] theorem setRows_sortRole (m : OPFModel) (f : Folder) (l : List Item) :
    (m.setRows f l).sortRole = m.sortRole := by
  cases f <;> rfl

@[simp] theorem setRows_refreshInProgress (m : OPFModel) (f : Folder) (l : List Item) :
    (m.setRows f l).m_RefreshInProgress = m.m_RefreshInProgress := by
  cases f <;> rfl

@[simp] theorem rows_setRows_same (m : OPFModel) (f : Folder) (l : List Item) :
    (m.setRows f l).rows f = l := by
  cases f <;> rfl

theorem rows_setRows_other (m : OPFModel) (f g : Folder) (l : List Item) (h : g ≠ f) :
    (m.setRows f l).rows g = m.rows g := by
  cases f <;> cases g <;> first | rfl | exact absurd rfl h

theorem rows_setRows (m : OPFModel) (f g : Folder) (l : List Item) :
    (m.setRows f l).rows g = if g = f then l else m.rows g := by
  by_cases h : g = f
  · rw [if_pos h, h, rows_setRows_same]
  · rw [if_neg h, rows_setRows_other m f g l h]

/-- Two trees are equal when their fields are, the rows of the folders taken one folder at
a time. -/
theorem ext_rows (m₁ m₂ : OPFModel) (hroot : m₁.root = m₂.root)
    (hrows : ∀ f, m₁.rows f = m₂.rows f) (hrole : m₁.sortRole = m₂.sortRole)
    (hflag : m₁.m_RefreshInProgress = m₂.m_RefreshInProgress) : m₁ = m₂ := by
  cases m₁
  cases m₂
  have h1 := hrows Folder.Text
  have h2 := hrows Folder.Styles
  have h3 := hrows Folder.Images
  have h4 := hrows Folder.Fonts
  have h5 := hrows Folder.Misc
  have h6 := hrows Folder.Audio
  have h7 := hrows Folder.Video
  simp only [rows] at h1 h2 h3 h4 h5 h6 h7
  simp only at hroot hrole hflag
  subst hroot hrole hflag h1 h2 h3 h4 h5 h6 h7
  rfl

end OPFModel

/-- The members whose item `InitializeModel` appends to the given parent. -/
theorem appendResource_rows {n : Nat} (cx : Context n) (res : Fin n → Resource) (m : OPFModel)
    (i : Fin n) (f : Folder) :
    (appendResource cx res m i).rows f
      = m.rows f ++ if folderOfType (res i).type = some f then [itemFor cx res i] else [] := by
  unfold appendResource
  cases h : folderOfType (res i).type with
  | none => simp [OPFModel.rows]
  | some g =>
    simp only [OPFModel.rows_setRows, Option.some.injEq]
    by_cases hfg : f = g
    · subst hfg; simp
    · rw [if_neg hfg, if_neg (fun h => hfg h.symm)]; simp

theorem appendResource_root {n : Nat} (cx : Context n) (res : Fin n → Resource) (m : OPFModel)
    (i : Fin n) :
    (appendResource cx res m i).root
      = m.root ++ if folderOfType (res i).type = none then [TopRow.file (itemFor cx res i)]
          else [] := by
  unfold appendResource
  cases h : folderOfType (res i).type with
  | none => simp
  | some g => simp

theorem appendResource_sortRole {n : Nat} (cx : Context n) (res : Fin n → Resource)
    (m : OPFModel) (i : Fin n) : (appendResource cx res m i).sortRole = m.sortRole := by
  unfold appendResource
  cases folderOfType (res i).type <;> simp

theorem appendResource_refreshInProgress {n : Nat} (cx : Context n) (res : Fin n → Resource)
    (m : OPFModel) (i : Fin n) :
    (appendResource cx res m i).m_RefreshInProgress = m.m_RefreshInProgress := by
  unfold appendResource
  cases folderOfType (res i).type <;> simp

/-- The items appended to folder `f` for the members of a list, in the order of the list. -/
theorem foldl_appendResource_rows {n : Nat} (cx : Context n) (res : Fin n → Resource)
    (m : OPFModel) (l : List (Fin n)) (f : Folder) :
    (l.foldl (appendResource cx res) m).rows f
      = m.rows f ++ (l.filter fun i => decide (folderOfType (res i).type = some f)).map
          (itemFor cx res) := by
  induction l generalizing m with
  | nil => simp
  | cons i rest ih =>
    rw [List.foldl_cons, ih, appendResource_rows, List.filter_cons]
    by_cases h : folderOfType (res i).type = some f
    · simp [h]
    · simp [h]

theorem foldl_appendResource_root {n : Nat} (cx : Context n) (res : Fin n → Resource)
    (m : OPFModel) (l : List (Fin n)) :
    (l.foldl (appendResource cx res) m).root
      = m.root ++ (l.filter fun i => decide (folderOfType (res i).type = none)).map
          fun i => TopRow.file (itemFor cx res i) := by
  induction l generalizing m with
  | nil => simp
  | cons i rest ih =>
    rw [List.foldl_cons, ih, appendResource_root, List.filter_cons]
    by_cases h : folderOfType (res i).type = none
    · simp [h]
    · simp [h]

theorem foldl_appendResource_sortRole {n : Nat} (cx : Context n) (res : Fin n → Resource)
    (m : OPFModel) (l : List (Fin n)) :
    (l.foldl (appendResource cx res) m).sortRole = m.sortRole := by
  induction l generalizing m with
  | nil => rfl
  | cons i rest ih => rw [List.foldl_cons, ih, appendResource_sortRole]

theorem foldl_appendResource_refreshInProgress {n : Nat} (cx : Context n)
    (res : Fin n → Resource) (m : OPFModel) (l : List (Fin n)) :
    (l.foldl (appendResource cx res) m).m_RefreshInProgress = m.m_RefreshInProgress := by
  induction l generalizing m with
  | nil => rfl
  | cons i rest ih => rw [List.foldl_cons, ih, appendResource_refreshInProgress]

theorem ClearModel_rows (m : OPFModel) (f : Folder) : (ClearModel m).rows f = [] := by
  cases f <;> rfl

/-- The rows of a folder after `InitializeModel`: the items of the members that belong to
it, in the order of the registry. -/
theorem InitializeModel_rows {n : Nat} (cx : Context n) (res : Fin n → Resource) (m : OPFModel)
    (f : Folder) :
    (InitializeModel cx res m).rows f
      = ((List.finRange n).filter fun i => decide (folderOfType (res i).type = some f)).map
          (itemFor cx res) := by
  unfold InitializeModel
  rw [foldl_appendResource_rows, ClearModel_rows, List.nil_append]

/-- The rows of the root after `InitializeModel`: the folder items that were there, then the
items of the two descriptors. -/
theorem InitializeModel_root {n : Nat} (cx : Context n) (res : Fin n → Resource)
    (m : OPFModel) :
    (InitializeModel cx res m).root
      = removeTopFiles m.root
        ++ ((List.finRange n).filter fun i => decide (folderOfType (res i).type = none)).map
          fun i => TopRow.file (itemFor cx res i) := by
  unfold InitializeModel
  rw [foldl_appendResource_root]
  rfl

theorem sortChildren_perm {n : Nat} (cx : Context n) (role : SortRole) (l : List Item) :
    (sortChildren cx role l).Perm l :=
  List.perm_insertionSort _ l

theorem sortRow_root {n : Nat} (cx : Context n) (m : OPFModel) (row : TopRow) :
    (sortRow cx m row).root = m.root := by
  cases row <;> simp [sortRow]

theorem sortRow_sortRole {n : Nat} (cx : Context n) (m : OPFModel) (row : TopRow) :
    (sortRow cx m row).sortRole = m.sortRole := by
  cases row <;> simp [sortRow]

theorem sortRow_refreshInProgress {n : Nat} (cx : Context n) (m : OPFModel) (row : TopRow) :
    (sortRow cx m row).m_RefreshInProgress = m.m_RefreshInProgress := by
  cases row <;> simp [sortRow]

theorem sortRow_rows_perm {n : Nat} (cx : Context n) (m : OPFModel) (row : TopRow)
    (f : Folder) : ((sortRow cx m row).rows f).Perm (m.rows f) := by
  cases row with
  | file item => exact List.Perm.refl _
  | folder g =>
    simp only [sortRow, OPFModel.rows_setRows]
    split
    · rename_i h
      rw [h]
      exact sortChildren_perm cx _ _
    · exact List.Perm.refl _

theorem foldl_sortRow_root {n : Nat} (cx : Context n) (m : OPFModel) (l : List TopRow) :
    (l.foldl (sortRow cx) m).root = m.root := by
  induction l generalizing m with
  | nil => rfl
  | cons row rest ih => rw [List.foldl_cons, ih, sortRow_root]

theorem foldl_sortRow_sortRole {n : Nat} (cx : Context n) (m : OPFModel) (l : List TopRow) :
    (l.foldl (sortRow cx) m).sortRole = m.sortRole := by
  induction l generalizing m with
  | nil => rfl
  | cons row rest ih => rw [List.foldl_cons, ih, sortRow_sortRole]

theorem foldl_sortRow_refreshInProgress {n : Nat} (cx : Context n) (m : OPFModel)
    (l : List TopRow) :
    (l.foldl (sortRow cx) m).m_RefreshInProgress = m.m_RefreshInProgress := by
  induction l generalizing m with
  | nil => rfl
  | cons row rest ih => rw [List.foldl_cons, ih, sortRow_refreshInProgress]

theorem foldl_sortRow_rows_perm {n : Nat} (cx : Context n) (m : OPFModel) (l : List TopRow)
    (f : Folder) : ((l.foldl (sortRow cx) m).rows f).Perm (m.rows f) := by
  induction l generalizing m with
  | nil => exact List.Perm.refl _
  | cons row rest ih =>
    rw [List.foldl_cons]
    exact (ih _).trans (sortRow_rows_perm cx m row f)

theorem SortHTMLFilesByReadingOrder_root {n : Nat} (cx : Context n) (m : OPFModel) :
    (SortHTMLFilesByReadingOrder cx m).root = m.root := rfl

theorem SortHTMLFilesByReadingOrder_sortRole {n : Nat} (cx : Context n) (m : OPFModel) :
    (SortHTMLFilesByReadingOrder cx m).sortRole = m.sortRole := rfl

theorem SortHTMLFilesByReadingOrder_rows_perm {n : Nat} (cx : Context n) (m : OPFModel)
    (f : Folder) : ((SortHTMLFilesByReadingOrder cx m).rows f).Perm (m.rows f) := by
  cases f
  case Text => exact sortChildren_perm cx _ _
  all_goals exact List.Perm.refl _

/-- The rows of the root after `Refresh`. -/
theorem Refresh_root {n : Nat} (cx : Context n) (res : Fin n → Resource) (m : OPFModel) :
    (Refresh cx res m).root
      = removeTopFiles m.root
        ++ ((List.finRange n).filter fun i => decide (folderOfType (res i).type = none)).map
          fun i => TopRow.file (itemFor cx res i) := by
  unfold Refresh
  simp only [SortHTMLFilesByReadingOrder_root, SortFilesByFilenames, foldl_sortRow_root,
    InitializeModel_root]

theorem Refresh_sortRole {n : Nat} (cx : Context n) (res : Fin n → Resource) (m : OPFModel) :
    (Refresh cx res m).sortRole = m.sortRole := by
  unfold Refresh
  simp only [SortHTMLFilesByReadingOrder_sortRole, SortFilesByFilenames,
    foldl_sortRow_sortRole, InitializeModel, foldl_appendResource_sortRole, ClearModel]

/-- The rows of a folder after `Refresh`: the items of the members that belong to it, in
some order. -/
theorem Refresh_rows_perm {n : Nat} (cx : Context n) (res : Fin n → Resource) (m : OPFModel)
    (f : Folder) :
    ((Refresh cx res m).rows f).Perm
      (((List.finRange n).filter fun i => decide (folderOfType (res i).type = some f)).map
        (itemFor cx res)) := by
  have h1 : (Refresh cx res m).rows f
      = (SortHTMLFilesByReadingOrder cx (SortFilesByFilenames cx
          (InitializeModel cx res { m with m_RefreshInProgress := true }))).rows f := by
    cases f <;> rfl
  rw [h1]
  refine (SortHTMLFilesByReadingOrder_rows_perm cx _ f).trans ?_
  unfold SortFilesByFilenames
  refine (foldl_sortRow_rows_perm cx _ _ f).trans ?_
  rw [InitializeModel_rows]

/-! ## Refreshing twice -/

theorem removeTopFiles_append (l₁ l₂ : List TopRow) :
    removeTopFiles (l₁ ++ l₂) = removeTopFiles l₁ ++ removeTopFiles l₂ := by
  induction l₁ with
  | nil => rfl
  | cons row rest ih => cases row <;> simp [removeTopFiles, ih]

theorem removeTopFiles_idem (l : List TopRow) :
    removeTopFiles (removeTopFiles l) = removeTopFiles l := by
  induction l with
  | nil => rfl
  | cons row rest ih => cases row <;> simp [removeTopFiles, ih]

theorem removeTopFiles_files {α : Type} (l : List α) (f : α → Item) :
    removeTopFiles (l.map fun a => TopRow.file (f a)) = [] := by
  induction l with
  | nil => rfl
  | cons a rest ih => simp [removeTopFiles, ih]

theorem ClearModel_congr (m₁ m₂ : OPFModel)
    (hroot : removeTopFiles m₁.root = removeTopFiles m₂.root)
    (hrole : m₁.sortRole = m₂.sortRole)
    (hflag : m₁.m_RefreshInProgress = m₂.m_RefreshInProgress) :
    ClearModel m₁ = ClearModel m₂ := by
  simp only [ClearModel, hroot, hrole, hflag]

/-- C9.  `Refresh` is idempotent: whatever the tree held before, refreshing the refreshed
tree against the same registry and the same answers of the collaborators gives the same
tree again, with the same rows in the root, the same rows in the same order in each
folder, every item with the same text, tooltip and sort keys. -/
theorem C9_refresh_idempotent {n : Nat} (cx : Context n) (res : Fin n → Resource)
    (m : OPFModel) : Refresh cx res (Refresh cx res m) = Refresh cx res m := by
  have hclear : ClearModel { Refresh cx res m with m_RefreshInProgress := true }
      = ClearModel { m with m_RefreshInProgress := true } := by
    apply ClearModel_congr
    · show removeTopFiles (Refresh cx res m).root = removeTopFiles m.root
      rw [Refresh_root, removeTopFiles_append, removeTopFiles_idem, removeTopFiles_files,
        List.append_nil]
    · exact Refresh_sortRole cx res m
    · rfl
  have hinit : InitializeModel cx res { Refresh cx res m with m_RefreshInProgress := true }
      = InitializeModel cx res { m with m_RefreshInProgress := true } := by
    unfold InitializeModel
    rw [hclear]
  show ({ SortHTMLFilesByReadingOrder cx (SortFilesByFilenames cx
      (InitializeModel cx res { Refresh cx res m with m_RefreshInProgress := true })) with
      m_RefreshInProgress := false } : OPFModel) = Refresh cx res m
  rw [hinit]
  rfl

/-! ## Reading-order keys after a batch -/

theorem folderOfType_eq_Text (t : ResourceType) :
    folderOfType t = some Folder.Text ↔ t = ResourceType.HTMLResourceType := by
  cases t <;> simp [folderOfType]

theorem itemFor_readingOrder {n : Nat} (cx : Context n) (res : Fin n → Resource) (i : Fin n)
    (h : (res i).type = ResourceType.HTMLResourceType) :
    (itemFor cx res i).readingOrder = some (manifestOrderKey cx i) := by
  unfold itemFor manifestOrderKey
  rw [h]

/-- The keys of the Text folder after `Refresh` are those of the manifest. -/
theorem Refresh_orderKeys_perm {n : Nat} (cx : Context n) (res : Fin n → Resource)
    (m : OPFModel) :
    (orderKeys (Refresh cx res m)).Perm
      ((htmlMembers res).map fun i => some (manifestOrderKey cx i)) := by
  have hfilter : ((List.finRange n).filter fun i =>
      decide (folderOfType (res i).type = some Folder.Text)) = htmlMembers res := by
    unfold htmlMembers
    congr 1
    funext i
    simp only [folderOfType_eq_Text]
  have hperm := (Refresh_rows_perm cx res m Folder.Text).map fun item => item.readingOrder
  rw [hfilter, List.map_map] at hperm
  refine hperm.trans (List.Perm.of_eq ?_)
  apply List.map_congr_left
  intro i hi
  have htype : (res i).type = ResourceType.HTMLResourceType := by
    simpa [htmlMembers] using (List.mem_filter.mp hi).2
  exact itemFor_readingOrder cx res i htype

/-- A list without repeats of `N` keys below `N` holds the keys `0, ..., N-1`. -/
theorem perm_firstKeys (l : List (Option Int)) (hnodup : l.Nodup)
    (hbound : ∀ x ∈ l, ∃ k : Nat, k < l.length ∧ x = some (k : Int)) :
    l.Perm (firstKeys l.length) := by
  have hsub : l ⊆ firstKeys l.length := by
    intro x hx
    obtain ⟨k, hk, rfl⟩ := hbound x hx
    exact List.mem_map.mpr ⟨k, List.mem_range.mpr hk, rfl⟩
  exact (List.subperm_of_subset hnodup hsub).perm_of_length_le (by simp [firstKeys])

theorem Refresh_orderKeys {n : Nat} (cx : Context n) (st : State n) :
    OrderKeysFromManifest cx { st with model := Refresh cx st.res st.model } := by
  have hperm := Refresh_orderKeys_perm cx st.res st.model
  refine ⟨hperm, fun hbound hnodup => ?_⟩
  have hkeys : ((htmlMembers st.res).map fun i => some (manifestOrderKey cx i))
      = (htmlMembers st.res).map cx.GetReadingOrderAll := by
    apply List.map_congr_left
    intro i hi
    obtain ⟨k, _, hk⟩ := hbound i hi
    simp [manifestOrderKey, hk]
  have hlen : ((htmlMembers st.res).map cx.GetReadingOrderAll).length
      = (htmlMembers st.res).length := List.length_map _ _
  have h2 := perm_firstKeys ((htmlMembers st.res).map cx.GetReadingOrderAll) hnodup (by
    intro x hx
    obtain ⟨i, hi, rfl⟩ := List.mem_map.mp hx
    obtain ⟨k, hk, hko⟩ := hbound i hi
    exact ⟨k, by rw [hlen]; exact hk, hko⟩)
  rw [hlen] at h2
  exact (hperm.trans (List.Perm.of_eq hkeys)).trans h2

theorem finishBatch_orderKeys {n : Nat} (cx : Context n) (b : Batch n) :
    OrderKeysFromManifest cx (finishBatch cx b).1 := by
  unfold finishBatch
  split
  · exact Refresh_orderKeys cx _
  · exact Refresh_orderKeys cx _

theorem itemFor_identifier {n : Nat} (cx : Context n) (res : Fin n → Resource) (i : Fin n) :
    (itemFor cx res i).identifier = (res i).GetIdentifier := by
  unfold itemFor
  cases (res i).type <;> rfl

/-- The rows of the Text folder after `Refresh`, member by member. -/
theorem Refresh_keyedRows {n : Nat} (cx : Context n) (st : State n) :
    NodesKeyedByManifest cx { st with model := Refresh cx st.res st.model } := by
  have hfilter : ((List.finRange n).filter fun i =>
      decide (folderOfType (st.res i).type = some Folder.Text)) = htmlMembers st.res := by
    unfold htmlMembers
    congr 1
    funext i
    simp only [folderOfType_eq_Text]
  have hrows := Refresh_rows_perm cx st.res st.model Folder.Text
  rw [hfilter] at hrows
  have htype : ∀ i ∈ htmlMembers st.res, (st.res i).type = ResourceType.HTMLResourceType := by
    intro i hi
    simpa [htmlMembers] using (List.mem_filter.mp hi).2
  refine ⟨?_, ?_, ?_⟩
  · have hperm := hrows.map fun item => (item.identifier, item.readingOrder)
    rw [List.map_map] at hperm
    refine hperm.trans (List.Perm.of_eq ?_)
    apply List.map_congr_left
    intro i hi
    show ((itemFor cx st.res i).identifier, (itemFor cx st.res i).readingOrder) = _
    rw [itemFor_identifier, itemFor_readingOrder cx st.res i (htype i hi)]
  · intro item hitem
    obtain ⟨i, hi, hmade⟩ := List.mem_map.mp (hrows.mem_iff.mp hitem)
    exact ⟨i, hi, by rw [← hmade, itemFor_identifier],
      by rw [← hmade, itemFor_readingOrder cx st.res i (htype i hi)]⟩
  · intro i hi
    exact ⟨itemFor cx st.res i, hrows.mem_iff.mpr (List.mem_map.mpr ⟨i, hi, rfl⟩),
      itemFor_identifier cx st.res i, itemFor_readingOrder cx st.res i (htype i hi)⟩

theorem finishBatch_keyedRows {n : Nat} (cx : Context n) (b : Batch n) :
    NodesKeyedByManifest cx (finishBatch cx b).1 := by
  unfold finishBatch
  split
  · exact Refresh_keyedRows cx _
  · exact Refresh_keyedRows cx _

/-- C6 (as amended).  After every batch rename and every batch move, the rows of the Text
folder are, in some order, one row for each HTML member, carrying the identifier of the
member and as reading-order key the position the manifest reports for that member,
`NO_READING_ORDER` for a member it does not report: every row is the row of an HTML member
and has that member's key, and every HTML member has such a row.  The keys are
`0, ..., N-1`, each once, when the manifest reports for each of the `N` HTML members a
position below `N` and no position twice. -/
theorem C6_order_keys_after_batch {n : Nat} (cx : Context n) (st : State n)
    (renames moves : List (Fin n × QString)) :
    (∃ st1 answer,
        RenameResourceList cx st (renames.map Prod.fst) (renames.map Prod.snd)
          = some (st1, answer)
        ∧ OrderKeysFromManifest cx st1 ∧ NodesKeyedByManifest cx st1)
    ∧ (∃ st1 answer,
        MoveResourceList cx st (moves.map Prod.fst) (moves.map Prod.snd) = some (st1, answer)
        ∧ OrderKeysFromManifest cx st1 ∧ NodesKeyedByManifest cx st1) :=
  ⟨⟨(finishBatch cx (runPairs (renamePair cx) (startBatch st) renames)).1,
      (finishBatch cx (runPairs (renamePair cx) (startBatch st) renames)).2,
      RenameResourceList_pairs cx st renames, finishBatch_orderKeys cx _,
      finishBatch_keyedRows cx _⟩,
    ⟨(finishBatch cx (runPairs (movePair cx) (startBatch st) moves)).1,
      (finishBatch cx (runPairs (movePair cx) (startBatch st) moves)).2,
      MoveResourceList_pairs cx st moves, finishBatch_orderKeys cx _,
      finishBatch_keyedRows cx _⟩⟩

/-- C6, counterexample to the claim as stated: the manifest reports a reading order for the
first of three HTML files only.  After the batch `sampleBatch` the keys of the three rows
are `0` and twice `NO_READING_ORDER`: a repeat, and neither `1` nor `2`. -/
theorem C6_counterexample :
    (RenameResourceList sampleFirstOnly (newState sampleThree)
        (sampleBatch.map Prod.fst) (sampleBatch.map Prod.snd)).map
      (fun result => orderKeys result.1.model)
      = some [some 0, some 2147483647, some 2147483647]
    ∧ ¬ [some (0 : Int), some 2147483647, some 2147483647].Nodup
    ∧ some (1 : Int) ∉ [some (0 : Int), some 2147483647, some 2147483647] := by
  decide

/-- With a manifest that reports the three HTML files of `sampleThree` at the positions 0, 1
and 2, the keys after the batch `sampleBatch` are `0, 1, 2` from the top. -/
theorem orderKeys_sampleInOrder :
    (RenameResourceList sampleInOrder (newState sampleThree)
        (sampleBatch.map Prod.fst) (sampleBatch.map Prod.snd)).map
      (fun result => orderKeys result.1.model) = some (firstKeys 3) := by
  decide

/-! ## One node for each member -/

/-- Among the items made for the members that pass a test, the number of those carrying the
identifier of member `i`: one when `i` passes the test, none otherwise. -/
theorem countP_identifier {n : Nat} (cx : Context n) (res : Fin n → Resource)
    (hid : Function.Injective fun i => (res i).GetIdentifier) (q : Fin n → Bool) (i : Fin n) :
    List.countP (fun item => decide (item.identifier = (res i).GetIdentifier))
        (((List.finRange n).filter q).map (itemFor cx res))
      = if q i = true then 1 else 0 := by
  rw [List.countP_map, List.countP_filter]
  have hfun : (fun j => ((fun item : Item => decide (item.identifier = (res i).GetIdentifier))
        ∘ itemFor cx res) j && q j)
      = fun j => decide (j = i) && q i := by
    funext j
    simp only [Function.comp_apply, itemFor_identifier]
    by_cases hji : j = i
    · subst hji; simp
    · have : (res j).GetIdentifier ≠ (res i).GetIdentifier := fun h => hji (hid h)
      simp [hji, this]
  rw [hfun]
  by_cases hq : q i = true
  · simp only [hq, Bool.and_true, if_true]
    have hcount : List.countP (fun j => decide (j = i)) (List.finRange n)
        = List.count i (List.finRange n) := by
      unfold List.count
      congr 1
    rw [hcount]
    exact List.count_eq_one_of_mem (List.nodup_finRange n) (List.mem_finRange i)
  · simp [hq]

theorem countP_perm_rows {n : Nat} (cx : Context n) (res : Fin n → Resource) (m : OPFModel)
    (hid : Function.Injective fun i => (res i).GetIdentifier) (f : Folder) (i : Fin n) :
    List.countP (fun item => decide (item.identifier = (res i).GetIdentifier))
        ((Refresh cx res m).rows f)
      = if folderOfType (res i).type = some f then 1 else 0 := by
  rw [(Refresh_rows_perm cx res m f).countP_eq, countP_identifier cx res hid]
  simp

theorem topFiles_removeTopFiles (l : List TopRow) :
    (removeTopFiles l).filterMap (fun row =>
      match row with
      | TopRow.folder _ => none
      | TopRow.file item => some item) = [] := by
  induction l with
  | nil => rfl
  | cons row rest ih => cases row <;> simp [removeTopFiles, ih]

/-- The files at top level after `Refresh`: the items of the two descriptors. -/
theorem Refresh_topFiles {n : Nat} (cx : Context n) (res : Fin n → Resource) (m : OPFModel) :
    (Refresh cx res m).topFiles
      = ((List.finRange n).filter fun i => decide (folderOfType (res i).type = none)).map
          (itemFor cx res) := by
  unfold OPFModel.topFiles
  rw [Refresh_root, List.filterMap_append, topFiles_removeTopFiles, List.nil_append,
    List.filterMap_map]
  exact congrFun (List.filterMap_eq_map (itemFor cx res)) _

theorem countP_topFiles {n : Nat} (cx : Context n) (res : Fin n → Resource) (m : OPFModel)
    (hid : Function.Injective fun i => (res i).GetIdentifier) (i : Fin n) :
    List.countP (fun item => decide (item.identifier = (res i).GetIdentifier))
        (Refresh cx res m).topFiles
      = if folderOfType (res i).type = none then 1 else 0 := by
  rw [Refresh_topFiles, countP_identifier cx res hid]
  simp

theorem count_folder_removeTopFiles (l : List TopRow) (f : Folder) :
    (removeTopFiles l).count (TopRow.folder f) = l.count (TopRow.folder f) := by
  induction l with
  | nil => rfl
  | cons row rest ih =>
    cases row with
    | folder g => simp [removeTopFiles, List.count_cons, ih]
    | file item => simp [removeTopFiles, List.count_cons, ih]

theorem count_folder_files {α : Type} (l : List α) (g : α → Item) (f : Folder) :
    (l.map fun a => TopRow.file (g a)).count (TopRow.folder f) = 0 := by
  induction l with
  | nil => rfl
  | cons a rest ih => simp [List.count_cons, ih]

/-- C10.  For a registry whose members carry pairwise distinct identifiers, after `Refresh`:
the root holds each of the seven folder items as often as before, which is once for the
tree of the constructor, whether or not the folder has rows; every member has exactly
one item carrying its identifier in the whole tree, and that item is among the rows of
the folder of its type (HTML in Text, CSS in Styles, image and SVG in Images, font in
Fonts, audio in Audio, video in Video, any other type but the two descriptors in Misc),
or at top level for the manifest and the navigation descriptor; and every item of the
tree carries the identifier of a member. -/
theorem C10_one_node_per_member {n : Nat} (cx : Context n) (res : Fin n → Resource)
    (m : OPFModel) (hid : Function.Injective fun i => (res i).GetIdentifier) :
    (∀ f, (Refresh cx res m).root.count (TopRow.folder f) = m.root.count (TopRow.folder f))
    ∧ (∀ f, newOPFModel.root.count (TopRow.folder f) = 1)
    ∧ (∀ i, nodesOf (Refresh cx res m) (res i).GetIdentifier = 1)
    ∧ (∀ i f, folderOfType (res i).type = some f →
        ∃ item ∈ (Refresh cx res m).rows f, item.identifier = (res i).GetIdentifier)
    ∧ (∀ i, folderOfType (res i).type = none →
        ∃ item ∈ (Refresh cx res m).topFiles, item.identifier = (res i).GetIdentifier)
    ∧ (∀ item ∈ (Refresh cx res m).allItems, ∃ i, item.identifier = (res i).GetIdentifier)
    ∧ (∀ t : ResourceType,
        folderOfType t =
          if t = ResourceType.HTMLResourceType then some Folder.Text
          else if t = ResourceType.CSSResourceType then some Folder.Styles
          else if t = ResourceType.ImageResourceType ∨ t = ResourceType.SVGResourceType then
            some Folder.Images
          else if t = ResourceType.FontResourceType then some Folder.Fonts
          else if t = ResourceType.AudioResourceType then some Folder.Audio
          else if t = ResourceType.VideoResourceType then some Folder.Video
          else if t = ResourceType.OPFResourceType ∨ t = ResourceType.NCXResourceType then none
          else some Folder.Misc) := by
  have hrows : ∀ i f, List.countP (fun item => decide (item.identifier = (res i).GetIdentifier))
      ((Refresh cx res m).rows f) = if folderOfType (res i).type = some f then 1 else 0 :=
    fun i f => countP_perm_rows cx res m hid f i
  have htop := countP_topFiles cx res m hid
  refine ⟨?_, ?_, ?_, ?_, ?_, ?_, ?_⟩
  · intro f
    rw [Refresh_root, List.count_append, count_folder_removeTopFiles, count_folder_files]
    rfl
  · intro f
    cases f <;> decide
  · intro i
    have h1 := hrows i Folder.Text
    have h2 := hrows i Folder.Styles
    have h3 := hrows i Folder.Images
    have h4 := hrows i Folder.Fonts
    have h5 := hrows i Folder.Misc
    have h6 := hrows i Folder.Audio
    have h7 := hrows i Folder.Video
    have h8 := htop i
    simp only [OPFModel.rows] at h1 h2 h3 h4 h5 h6 h7
    unfold nodesOf OPFModel.allItems
    simp only [List.countP_append, h1, h2, h3, h4, h5, h6, h7, h8]
    cases hf : folderOfType (res i).type with
    | none => simp
    | some f => cases f <;> simp
  · intro i f hf
    have hpos : 0 < List.countP (fun item => decide (item.identifier = (res i).GetIdentifier))
        ((Refresh cx res m).rows f) := by
      rw [hrows i f, if_pos hf]
      exact Nat.one_pos
    obtain ⟨item, hmem, hitem⟩ := List.countP_pos_iff.mp hpos
    exact ⟨item, hmem, by simpa using hitem⟩
  · intro i hf
    have hpos : 0 < List.countP (fun item => decide (item.identifier = (res i).GetIdentifier))
        (Refresh cx res m).topFiles := by
      rw [htop i, if_pos hf]
      exact Nat.one_pos
    obtain ⟨item, hmem, hitem⟩ := List.countP_pos_iff.mp hpos
    exact ⟨item, hmem, by simpa using hitem⟩
  · intro item hmem
    have hfrom : ∀ f, item ∈ (Refresh cx res m).rows f →
        ∃ i, item.identifier = (res i).GetIdentifier := by
      intro f hin
      obtain ⟨i, _, hi⟩ := List.mem_map.mp ((Refresh_rows_perm cx res m f).mem_iff.mp hin)
      exact ⟨i, by rw [← hi, itemFor_identifier]⟩
    unfold OPFModel.allItems at hmem
    simp only [List.mem_append] at hmem
    rcases hmem with ((((((h | h) | h) | h) | h) | h) | h) | h
    · exact hfrom Folder.Text h
    · exact hfrom Folder.Styles h
    · exact hfrom Folder.Images h
    · exact hfrom Folder.Fonts h
    · exact hfrom Folder.Misc h
    · exact hfrom Folder.Audio h
    · exact hfrom Folder.Video h
    · rw [Refresh_topFiles] at h
      obtain ⟨i, _, hi⟩ := List.mem_map.mp h
      exact ⟨i, by rw [← hi, itemFor_identifier]⟩
  · intro t
    cases t <;> rfl

/-- C10, witness: the book `sampleKinds`, refreshed from the tree of the constructor. -/
theorem C10_one_node_per_member_witness :
    (Function.Injective fun i => (sampleKinds i).GetIdentifier)
    ∧ (∀ f, (Refresh (sampleContext 6) sampleKinds newOPFModel).root.count (TopRow.folder f)
        = newOPFModel.root.count (TopRow.folder f))
    ∧ (∀ f, newOPFModel.root.count (TopRow.folder f) = 1)
    ∧ (∀ i, nodesOf (Refresh (sampleContext 6) sampleKinds newOPFModel)
        (sampleKinds i).GetIdentifier = 1)
    ∧ (∀ i f, folderOfType (sampleKinds i).type = some f →
        ∃ item ∈ (Refresh (sampleContext 6) sampleKinds newOPFModel).rows f,
          item.identifier = (sampleKinds i).GetIdentifier)
    ∧ (∀ i, folderOfType (sampleKinds i).type = none →
        ∃ item ∈ (Refresh (sampleContext 6) sampleKinds newOPFModel).topFiles,
          item.identifier = (sampleKinds i).GetIdentifier)
    ∧ (∀ item ∈ (Refresh (sampleContext 6) sampleKinds newOPFModel).allItems,
        ∃ i, item.identifier = (sampleKinds i).GetIdentifier)
    ∧ (∀ t : ResourceType,
        folderOfType t =
          if t = ResourceType.HTMLResourceType then some Folder.Text
          else if t = ResourceType.CSSResourceType then some Folder.Styles
          else if t = ResourceType.ImageResourceType ∨ t = ResourceType.SVGResourceType then
            some Folder.Images
          else if t = ResourceType.FontResourceType then some Folder.Fonts
          else if t = ResourceType.AudioResourceType then some Folder.Audio
          else if t = ResourceType.VideoResourceType then some Folder.Video
          else if t = ResourceType.OPFResourceType ∨ t = ResourceType.NCXResourceType then none
          else some Folder.Misc) :=
  ⟨by decide, C10_one_node_per_member (sampleContext 6) sampleKinds newOPFModel (by decide)⟩

/-! ## Renumbering the reading order -/

/-- The loop of `UpdateHTMLReadingOrders` leaves as many rows, carrying the same
identifiers in the same order. -/
theorem updateReadingOrders_identifiers {n : Nat} (res : Fin n → Resource) (i : Nat)
    (rows : List Item) :
    (updateReadingOrders res i rows).1.map (fun item => item.identifier)
      = rows.map fun item => item.identifier := by
  induction rows generalizing i with
  | nil => rfl
  | cons item rest ih =>
    unfold updateReadingOrders
    cases htmlResourceOf res item.identifier <;> simp [ih]

/-- The loop of `UpdateHTMLReadingOrders` changes nothing in a row but the reading order
and the icon. -/
theorem updateReadingOrders_rows {n : Nat} (res : Fin n → Resource) (i : Nat)
    (rows : List Item) :
    (updateReadingOrders res i rows).1.map Item.withoutOrder
      = rows.map Item.withoutOrder := by
  induction rows generalizing i with
  | nil => rfl
  | cons item rest ih =>
    unfold updateReadingOrders
    cases htmlResourceOf res item.identifier <;> simp [ih, Item.withoutOrder]

/-- The loop of `UpdateHTMLReadingOrders` started at row `i` numbers the rows `i`, `i+1`,
and so on, from the top. -/
theorem updateReadingOrders_keys {n : Nat} (res : Fin n → Resource) (i : Nat)
    (rows : List Item) :
    (updateReadingOrders res i rows).1.map (fun item => item.readingOrder)
      = List.map (fun k : Nat => some (Int.ofNat k)) (List.range' i rows.length) := by
  induction rows generalizing i with
  | nil => rfl
  | cons item rest ih =>
    unfold updateReadingOrders
    cases htmlResourceOf res item.identifier <;> simp [ih, List.range'_succ]

/-- The loop of `UpdateHTMLReadingOrders` collects the HTML members of the rows, from the
top. -/
theorem updateReadingOrders_htmls {n : Nat} (res : Fin n → Resource) (i : Nat)
    (rows : List Item) :
    (updateReadingOrders res i rows).2
      = rows.filterMap fun item => htmlResourceOf res item.identifier := by
  induction rows generalizing i with
  | nil => rfl
  | cons item rest ih =>
    unfold updateReadingOrders
    cases h : htmlResourceOf res item.identifier <;> simp [ih, h]

theorem htmlResourceOf_identifier {n : Nat} (res : Fin n → Resource) (identifier : QString)
    (r : Fin n) (h : htmlResourceOf res identifier = some r) :
    (res r).GetIdentifier = identifier ∧ (res r).type = ResourceType.HTMLResourceType := by
  unfold htmlResourceOf at h
  cases hfind : GetResourceByIdentifier res identifier with
  | none => rw [hfind] at h; cases h
  | some found =>
    rw [hfind] at h
    simp only at h
    split at h
    · rename_i htype
      cases h
      have := List.find?_some hfind
      exact ⟨by simpa using this, htype⟩
    · cases h

/-- What `UpdateHTMLReadingOrders` leaves: the keys `0, ..., N-1` from the top, rows that
differ from the former ones in reading order and icon only, and one call of
`UpdateSpineOrder` with the HTML members of the rows, from the top, then `SetModified`. -/
theorem UpdateHTMLReadingOrders_spec {n : Nat} (st : State n) :
    orderKeys (UpdateHTMLReadingOrders st).model
        = firstKeys (UpdateHTMLReadingOrders st).model.m_TextFolderItem.length
    ∧ (UpdateHTMLReadingOrders st).model.m_TextFolderItem.map Item.withoutOrder
        = st.model.m_TextFolderItem.map Item.withoutOrder
    ∧ (UpdateHTMLReadingOrders st).calls
        = st.calls ++ [Call.UpdateSpineOrder
            ((UpdateHTMLReadingOrders st).model.m_TextFolderItem.filterMap
              fun item => htmlResourceOf st.res item.identifier),
          Call.SetModified] := by
  have hids := updateReadingOrders_identifiers st.res 0 st.model.m_TextFolderItem
  have hlen : (updateReadingOrders st.res 0 st.model.m_TextFolderItem).1.length
      = st.model.m_TextFolderItem.length := by
    have := congrArg List.length hids
    simpa using this
  refine ⟨?_, updateReadingOrders_rows st.res 0 _, ?_⟩
  · show (updateReadingOrders st.res 0 st.model.m_TextFolderItem).1.map
        (fun item => item.readingOrder)
      = firstKeys (updateReadingOrders st.res 0 st.model.m_TextFolderItem).1.length
    rw [updateReadingOrders_keys, hlen, firstKeys, List.range_eq_range']
  · show st.calls ++ [Call.UpdateSpineOrder
          (updateReadingOrders st.res 0 st.model.m_TextFolderItem).2, Call.SetModified]
      = st.calls ++ [Call.UpdateSpineOrder
          ((updateReadingOrders st.res 0 st.model.m_TextFolderItem).1.filterMap
            fun item => htmlResourceOf st.res item.identifier), Call.SetModified]
    have hmap : (updateReadingOrders st.res 0 st.model.m_TextFolderItem).1.filterMap
          (fun item => htmlResourceOf st.res item.identifier)
        = st.model.m_TextFolderItem.filterMap
          fun item => htmlResourceOf st.res item.identifier := by
      have h1 : ∀ l : List Item, l.filterMap (fun item => htmlResourceOf st.res item.identifier)
          = (l.map fun item => item.identifier).filterMap (htmlResourceOf st.res) := by
        intro l
        rw [List.filterMap_map]
        rfl
      rw [h1, h1, hids]
    rw [hmap, updateReadingOrders_htmls]

theorem filterMap_html_identifiers {n : Nat} (res : Fin n → Resource) (rows : List Item)
    (h : ∀ item ∈ rows, (htmlResourceOf res item.identifier).isSome = true) :
    (rows.filterMap fun item => htmlResourceOf res item.identifier).map
        (fun r => (res r).GetIdentifier)
      = rows.map fun item => item.identifier := by
  induction rows with
  | nil => rfl
  | cons item rest ih =>
    have hrest := ih fun x hx => h x (List.mem_cons_of_mem _ hx)
    have hitem := h item (List.mem_cons_self _ _)
    cases hr : htmlResourceOf res item.identifier with
    | none => rw [hr] at hitem; cases hitem
    | some r =>
      simp only [List.filterMap_cons, hr, List.map_cons, hrest,
        (htmlResourceOf_identifier res _ r hr).1]

theorem UpdateHTMLReadingOrders_renumbered {n : Nat} (st : State n) :
    Renumbered st (UpdateHTMLReadingOrders st) := by
  obtain ⟨h1, h2, h3⟩ := UpdateHTMLReadingOrders_spec st
  exact ⟨h1, h2, _, h3, rfl, filterMap_html_identifiers st.res _⟩

/-- C7.  `SortHTML` leaves the rows that `SortHTMLFilesByAlphanumeric` has arranged and
`RowsRemovedHandler`, called for the Text folder outside a refresh, the rows it finds, in
both cases renumbered by `UpdateHTMLReadingOrders`: the row at position `i` carries the
key `i`, nothing else but the icon changes in a row, and the list handed to
`UpdateSpineOrder` holds the HTML members of the rows from the top. -/
theorem C7_reading_orders_follow_rows {n : Nat} (cx : Context n) (st : State n)
    (index_list : List Nat) (first last : Int) :
    Renumbered
        { st with model := sortedModel cx st.model index_list } (SortHTML cx st index_list)
    ∧ (st.model.m_RefreshInProgress = false →
        Renumbered st (RowsRemovedHandler st (some Folder.Text) first last)) := by
  constructor
  · exact UpdateHTMLReadingOrders_renumbered
      { st with model := sortedModel cx st.model index_list }
  · intro hflag
    unfold RowsRemovedHandler
    rw [if_neg (by simp [hflag])]
    exact UpdateHTMLReadingOrders_renumbered st

/-! ## Sorting a selection given out of order -/

/-- C8, the code at the failing inputs.  The Text folder holds the rows `a` to `e`.  With the
selection given as rows 3 and 1, the block `b, d` is inserted at position 3 of the three
rows left, below `e`, which stood below both selected rows.  With the selection given as
rows 4 and 0, position 4 is beyond the three rows left, `insertRow` inserts nothing, and
the rows `a` and `e` are gone. -/
theorem C8_selection_out_of_order :
    textRows (Refresh (sampleContext 5) sampleFive newOPFModel)
      = ["Text/a.html".toList, "Text/b.html".toList, "Text/c.html".toList,
         "Text/d.html".toList, "Text/e.html".toList]
    ∧ textRows (SortHTMLFilesByAlphanumeric (sampleContext 5)
          (Refresh (sampleContext 5) sampleFive newOPFModel) [3, 1])
      = ["Text/a.html".toList, "Text/c.html".toList, "Text/e.html".toList,
         "Text/b.html".toList, "Text/d.html".toList]
    ∧ textRows (SortHTMLFilesByAlphanumeric (sampleContext 5)
          (Refresh (sampleContext 5) sampleFive newOPFModel) [4, 0])
      = ["Text/b.html".toList, "Text/c.html".toList, "Text/d.html".toList]
    ∧ textRows (SortHTMLFilesByAlphanumeric (sampleContext 5)
          (Refresh (sampleContext 5) sampleFive newOPFModel) [1, 3])
      = ["Text/a.html".toList, "Text/b.html".toList, "Text/d.html".toList,
         "Text/c.html".toList, "Text/e.html".toList] := by
  decide

/-! ## Sorting a selection whose first row is the topmost -/

theorem findRow_shift (item : Nat) (T : List (Nat × Item)) (i : Nat) :
    findRow item T i = (findRow item T 0).map (· + i) := by
  induction T generalizing i with
  | nil => rfl
  | cons row rest ih =>
    unfold findRow
    by_cases h : row.1 = item
    · simp [h]
    · simp only [h, if_false]
      rw [ih (i + 1), ih (0 + 1), Option.map_map]
      congr 1
      funext j
      simp only [Function.comp_apply]
      omega

/-- The search finds an item that is among the rows at the first position of its tag. -/
theorem findRow_eq_indexOf (item : Nat) (T : List (Nat × Item))
    (h : item ∈ T.map Prod.fst) :
    findRow item T 0 = some ((T.map Prod.fst).indexOf item) := by
  induction T with
  | nil => simp at h
  | cons row rest ih =>
    unfold findRow
    by_cases hrow : row.1 = item
    · simp [hrow]
    · have hrest : item ∈ rest.map Prod.fst := by
        rcases List.mem_cons.mp h with h1 | h1
        · exact absurd h1.symm hrow
        · exact h1
      simp only [hrow, if_false]
      rw [findRow_shift, ih hrest, List.map_cons, List.indexOf_cons_ne _ hrow]
      rfl

/-- The search finds nothing for an item that is not among the rows. -/
theorem findRow_eq_none (item : Nat) (T : List (Nat × Item))
    (h : item ∉ T.map Prod.fst) : findRow item T 0 = none := by
  induction T with
  | nil => rfl
  | cons row rest ih =>
    simp only [List.map_cons, List.mem_cons, not_or] at h
    unfold findRow
    rw [if_neg (fun heq => h.1 heq.symm), findRow_shift, ih h.2]
    rfl

theorem eraseIdx_indexOf (item : Nat) (T : List (Nat × Item))
    (hnodup : (T.map Prod.fst).Nodup) (h : item ∈ T.map Prod.fst) :
    T.eraseIdx ((T.map Prod.fst).indexOf item) = T.filter fun row => decide (row.1 ≠ item) := by
  induction T with
  | nil => simp at h
  | cons row rest ih =>
    rw [List.map_cons, List.nodup_cons] at hnodup
    by_cases hrow : row.1 = item
    · have hnot : ∀ r ∈ rest, r.1 ≠ item := by
        intro r hr heq
        exact hnodup.1 (hrow ▸ heq ▸ List.mem_map.mpr ⟨r, hr, rfl⟩)
      rw [List.map_cons, hrow, List.indexOf_cons_self, List.eraseIdx_cons_zero,
        List.filter_cons_of_neg (by simp [hrow])]
      exact (List.filter_eq_self.mpr (by simpa using hnot)).symm
    · have hrest : item ∈ rest.map Prod.fst := by
        rcases List.mem_cons.mp h with h1 | h1
        · exact absurd h1.symm hrow
        · exact h1
      rw [List.map_cons, List.indexOf_cons_ne _ hrow, List.eraseIdx_cons_succ,
        ih hnodup.2 hrest, List.filter_cons_of_pos (by simp [hrow])]

theorem get?_indexOf (item : Nat) (T : List (Nat × Item)) (h : item ∈ T.map Prod.fst) :
    T.get? ((T.map Prod.fst).indexOf item) = T.find? fun row => decide (row.1 = item) := by
  induction T with
  | nil => simp at h
  | cons row rest ih =>
    by_cases hrow : row.1 = item
    · rw [List.map_cons, hrow, List.indexOf_cons_self, List.find?_cons_of_pos _ (by simp [hrow])]
      rfl
    · have hrest : item ∈ rest.map Prod.fst := by
        rcases List.mem_cons.mp h with h1 | h1
        · exact absurd h1.symm hrow
        · exact h1
      rw [List.map_cons, List.indexOf_cons_ne _ hrow, List.find?_cons_of_neg _ (by simp [hrow]),
        List.get?_cons_succ, ih hrest]

/-- The body of the first loop for an item that is among the rows, whose tags are pairwise
distinct: the row of the item leaves the rows and joins the rows taken. -/
theorem takeItem_of_mem (t : Taken) (item : Nat) (hnodup : (t.text.map Prod.fst).Nodup)
    (h : item ∈ t.text.map Prod.fst) :
    takeItem t item
      = { text := t.text.filter fun row => decide (row.1 ≠ item),
          first_item_position :=
            if t.first_item_position < 0 then ((t.text.map Prod.fst).indexOf item : Int)
            else t.first_item_position,
          items := t.items ++ (t.text.find? fun row => decide (row.1 = item)).toList } := by
  unfold takeItem
  rw [findRow_eq_indexOf item t.text h]
  simp only [eraseIdx_indexOf item t.text hnodup h, get?_indexOf item t.text h]

theorem find?_filter_ne (T : List (Nat × Item)) (item other : Nat) (h : other ≠ item) :
    (T.filter fun row => decide (row.1 ≠ item)).find? (fun row => decide (row.1 = other))
      = T.find? fun row => decide (row.1 = other) := by
  induction T with
  | nil => rfl
  | cons row rest ih =>
    by_cases hrow : row.1 = item
    · have hne : row.1 ≠ other := fun heq => h (heq ▸ hrow)
      rw [List.filter_cons_of_neg (by simp [hrow]), ih,
        List.find?_cons_of_neg _ (by simp [hne])]
    · rw [List.filter_cons_of_pos (by simp [hrow])]
      by_cases hother : row.1 = other
      · rw [List.find?_cons_of_pos _ (by simp [hother]),
          List.find?_cons_of_pos _ (by simp [hother])]
      · rw [List.find?_cons_of_neg _ (by simp [hother]),
          List.find?_cons_of_neg _ (by simp [hother]), ih]

theorem mem_tags_filter_ne (T : List (Nat × Item)) (item other : Nat) (h : other ≠ item)
    (hmem : other ∈ T.map Prod.fst) :
    other ∈ (T.filter fun row => decide (row.1 ≠ item)).map Prod.fst := by
  obtain ⟨row, hrow, rfl⟩ := List.mem_map.mp hmem
  exact List.mem_map.mpr ⟨row, List.mem_filter.mpr ⟨hrow, by simpa using h⟩, rfl⟩

theorem filter_filter_selection (T : List (Nat × Item)) (item : Nat) (others : List Nat) :
    (T.filter fun row => decide (row.1 ≠ item)).filter (fun row => decide (row.1 ∉ others))
      = T.filter fun row => decide (row.1 ∉ item :: others) := by
  rw [List.filter_filter]
  apply List.filter_congr
  intro row _
  by_cases h1 : row.1 = item <;> by_cases h2 : row.1 ∈ others <;> simp [h1, h2]

theorem filterMap_find?_selection (T : List (Nat × Item)) (item : Nat) (others : List Nat)
    (hitem : item ∈ T.map Prod.fst) (hnot : item ∉ others) :
    (T.find? fun row => decide (row.1 = item)).toList
        ++ others.filterMap (fun k =>
          (T.filter fun row => decide (row.1 ≠ item)).find? fun row => decide (row.1 = k))
      = (item :: others).filterMap fun k => T.find? fun row => decide (row.1 = k) := by
  obtain ⟨row, hrow, hrowk⟩ := List.mem_map.mp hitem
  have hothers : others.filterMap (fun k =>
        (T.filter fun row => decide (row.1 ≠ item)).find? fun row => decide (row.1 = k))
      = others.filterMap fun k => T.find? fun row => decide (row.1 = k) := by
    apply List.filterMap_congr
    intro k hk
    exact find?_filter_ne T item k (fun heq => hnot (heq ▸ hk))
  rw [hothers]
  cases hfind : T.find? (fun row => decide (row.1 = item)) with
  | none =>
    have := List.find?_eq_none.mp hfind row hrow
    simp [hrowk] at this
  | some found =>
    simp only [List.filterMap_cons, hfind]
    rfl

/-- The first loop from a state in which a position is already recorded. -/
theorem foldl_takeItem_recorded (sel : List Nat) (t : Taken)
    (hnodup : (t.text.map Prod.fst).Nodup) (hsel : sel.Nodup)
    (hmem : ∀ k ∈ sel, k ∈ t.text.map Prod.fst) (hpos : 0 ≤ t.first_item_position) :
    sel.foldl takeItem t
      = { text := t.text.filter fun row => decide (row.1 ∉ sel),
          first_item_position := t.first_item_position,
          items := t.items ++ sel.filterMap
            fun k => t.text.find? fun row => decide (row.1 = k) } := by
  induction sel generalizing t with
  | nil => simp
  | cons k ks ih =>
    rw [List.nodup_cons] at hsel
    have hk := hmem k (List.mem_cons_self _ _)
    rw [List.foldl_cons, takeItem_of_mem t k hnodup hk,
      ih _ ((List.filter_sublist t.text |>.map Prod.fst).nodup hnodup) hsel.2
        (fun k' hk' => mem_tags_filter_ne t.text k k' (fun heq => hsel.1 (heq ▸ hk'))
          (hmem k' (List.mem_cons_of_mem _ hk')))
        (by simp only [not_lt.mpr hpos, if_false]; exact hpos)]
    simp only [not_lt.mpr hpos, if_false, filter_filter_selection, List.append_assoc,
      filterMap_find?_selection t.text k ks hk hsel.1]

/-- The first loop over a selection without repeats, every item of which is among the rows:
the rows of the selection leave the Text folder, in the order of the selection, and the
position recorded is the one of the first item. -/
theorem foldl_takeItem (item : Nat) (others : List Nat) (t : Taken)
    (hnodup : (t.text.map Prod.fst).Nodup) (hsel : (item :: others).Nodup)
    (hmem : ∀ k ∈ item :: others, k ∈ t.text.map Prod.fst)
    (hfirst : t.first_item_position < 0) :
    (item :: others).foldl takeItem t
      = { text := t.text.filter fun row => decide (row.1 ∉ item :: others),
          first_item_position := ((t.text.map Prod.fst).indexOf item : Int),
          items := t.items ++ (item :: others).filterMap
            fun k => t.text.find? fun row => decide (row.1 = k) } := by
  rw [List.nodup_cons] at hsel
  have hitem := hmem item (List.mem_cons_self _ _)
  rw [List.foldl_cons, takeItem_of_mem t item hnodup hitem,
    foldl_takeItem_recorded others _
      ((List.filter_sublist t.text |>.map Prod.fst).nodup hnodup) hsel.2
      (fun k' hk' => mem_tags_filter_ne t.text item k' (fun heq => hsel.1 (heq ▸ hk'))
        (hmem k' (List.mem_cons_of_mem _ hk')))
      (by simp only [hfirst, if_true]; exact Int.natCast_nonneg _)]
  simp only [hfirst, if_true, filter_filter_selection, List.append_assoc,
    filterMap_find?_selection t.text item others hitem hsel.1]

/-- The second loop inserts the rows as one block at a position that is not beyond the last
row. -/
theorem reinsert_eq {α : Type} (items : List α) (p : Nat) (text : List α)
    (hp : p ≤ text.length) :
    reinsert items (p : Int) text = text.take p ++ items ++ text.drop p := by
  induction items generalizing p text with
  | nil => simp [reinsert]
  | cons one_item rest ih =>
    have hins : insertRow text (p : Int) one_item = text.take p ++ one_item :: text.drop p := by
      unfold insertRow
      rw [if_neg (by omega)]
      simp
    have hlen : (text.take p).length = p := List.length_take_of_le hp
    rw [reinsert, hins]
    have hcast : ((p : Int) + 1) = ((p + 1 : Nat) : Int) := by push_cast; rfl
    have hle : p + 1 ≤ (text.take p ++ one_item :: text.drop p).length := by
      rw [List.length_append, hlen, List.length_cons]
      omega
    rw [hcast, ih (p + 1) _ hle]
    have htake : (text.take p ++ one_item :: text.drop p).take (p + 1)
        = text.take p ++ [one_item] := by
      rw [List.take_append_eq_append_take, hlen, List.take_of_length_le (by omega)]
      simp
    have hdrop : (text.take p ++ one_item :: text.drop p).drop (p + 1) = text.drop p := by
      rw [List.drop_append_eq_append_drop, hlen, List.drop_of_length_le (by omega)]
      simp
    rw [htake, hdrop]
    simp

theorem withPositions_tags {α : Type} (l : List α) :
    (withPositions l).map Prod.fst = List.range l.length := by
  unfold withPositions
  exact List.map_fst_zip _ _ (by simp)

theorem indexOf_range (N k : Nat) (h : k < N) : (List.range N).indexOf k = k := by
  have hk : k < (List.range N).length := by simpa using h
  have := List.indexOf_getElem (List.nodup_range N) k hk
  simpa using this

/-- When the item listed first is the topmost of a selection without repeats of rows of the
Text folder, `SortHTMLFilesByAlphanumeric` leaves the rows above it where they are, puts
the selected rows below them as one block sorted on the alphanumeric key, and lets the
other rows follow in the order they had. -/
theorem sortSelected_first_topmost {n : Nat} (cx : Context n) (text : List Item) (item : Nat)
    (others : List Nat) (hsel : (item :: others).Nodup)
    (hvalid : ∀ k ∈ item :: others, k < text.length) (htop : ∀ k ∈ others, item < k) :
    sortSelected cx text (item :: others)
      = (withPositions text).take item
        ++ ((item :: others).filterMap fun k =>
              (withPositions text).find? fun row => decide (row.1 = k)).insertionSort
            (fun a b => cx.itemLess SortRole.ALPHANUMERIC_ORDER_ROLE b.2 a.2 = false)
        ++ ((withPositions text).drop item).filter
            fun row => decide (row.1 ∉ item :: others) := by
  have htags := withPositions_tags text
  have hitem : item < text.length := hvalid item (List.mem_cons_self _ _)
  have hlenrows : (withPositions text).length = text.length := by
    have := congrArg List.length htags
    simpa using this
  have hfold := foldl_takeItem item others
    { text := withPositions text, first_item_position := -1, items := [] }
    (by rw [htags]; exact List.nodup_range _) hsel
    (by intro k hk; rw [htags]; exact List.mem_range.mpr (hvalid k hk))
    (by show (-1 : Int) < 0; decide)
  have htake : ∀ row ∈ (withPositions text).take item, row.1 ∉ item :: others := by
    intro row hrow hmem
    have hlt : row.1 < item := by
      have h1 : row.1 ∈ ((withPositions text).take item).map Prod.fst :=
        List.mem_map.mpr ⟨row, hrow, rfl⟩
      rw [List.map_take, htags, List.take_range] at h1
      exact lt_of_lt_of_le (List.mem_range.mp h1) (min_le_left _ _)
    rcases List.mem_cons.mp hmem with h1 | h1
    · omega
    · have := htop _ h1
      omega
  have hfilter : (withPositions text).filter (fun row => decide (row.1 ∉ item :: others))
      = (withPositions text).take item
        ++ ((withPositions text).drop item).filter
            fun row => decide (row.1 ∉ item :: others) := by
    conv_lhs => rw [← List.take_append_drop item (withPositions text)]
    rw [List.filter_append, List.filter_eq_self.mpr (by simpa using htake)]
  have hlen : ((withPositions text).take item).length = item :=
    List.length_take_of_le (by omega)
  unfold sortSelected
  simp only [hfold, htags, indexOf_range _ _ hitem, List.nil_append]
  rw [reinsert_eq _ item _ (by rw [hfilter, List.length_append, hlen]; omega), hfilter,
    List.take_left' hlen, List.drop_left' hlen]

/-! ## Lemmas on strings -/

theorem lastIndexOfFrom_of_not_mem (c : Char) (s : QString) (i : Nat) (acc : Int)
    (h : c ∉ s) : lastIndexOfFrom c s i acc = acc := by
  induction s generalizing i acc with
  | nil => rfl
  | cons x xs ih =>
    simp only [List.mem_cons, not_or] at h
    rw [lastIndexOfFrom, if_neg (fun heq => h.1 heq.symm), ih _ _ h.2]

theorem lastIndexOfFrom_append (c : Char) (a b : QString) (i : Nat) (acc : Int)
    (h : c ∉ b) : lastIndexOfFrom c (a ++ c :: b) i acc = ((i + a.length : Nat) : Int) := by
  induction a generalizing i acc with
  | nil =>
    rw [List.nil_append, lastIndexOfFrom, if_pos rfl, lastIndexOfFrom_of_not_mem c b _ _ h]
    rfl
  | cons x xs ih =>
    rw [List.cons_append, lastIndexOfFrom, ih]
    congr 1
    simp only [List.length_cons]
    omega

/-- The last index of a character that does not occur is `-1`. -/
theorem lastIndexOf_of_not_mem (c : Char) (s : QString) (h : c ∉ s) :
    lastIndexOf s c = -1 :=
  lastIndexOfFrom_of_not_mem c s 0 (-1) h

/-- The last index of a character is the length of what stands before its last
occurrence. -/
theorem lastIndexOf_append (c : Char) (a b : QString) (h : c ∉ b) :
    lastIndexOf (a ++ c :: b) c = (a.length : Int) := by
  unfold lastIndexOf
  rw [lastIndexOfFrom_append c a b 0 (-1) h, Nat.zero_add]

/-- A string either does not hold a character or splits at its last occurrence. -/
theorem exists_last_occurrence (c : Char) (s : QString) :
    c ∉ s ∨ ∃ a b, s = a ++ c :: b ∧ c ∉ b := by
  induction s with
  | nil => left; simp
  | cons x xs ih =>
    rcases ih with h | ⟨a, b, hs, hb⟩
    · by_cases hx : x = c
      · right
        exact ⟨[], xs, by rw [hx]; rfl, h⟩
      · left
        simp only [List.mem_cons, not_or]
        exact ⟨fun heq => hx heq.symm, h⟩
    · right
      exact ⟨x :: a, b, by rw [hs]; rfl, hb⟩

theorem split_of_not_mem (sep : Char) (s : QString) (h : sep ∉ s) : split sep s = [s] := by
  induction s with
  | nil => rfl
  | cons x xs ih =>
    simp only [List.mem_cons, not_or] at h
    rw [split, if_neg (fun heq => h.1 heq.symm), ih h.2]

theorem split_append (sep : Char) (a b : QString) (h : sep ∉ b) :
    ∃ p ps, split sep (a ++ sep :: b) = (p :: ps) ++ [b] := by
  induction a with
  | nil =>
    refine ⟨[], [], ?_⟩
    rw [List.nil_append, split, if_pos rfl, split_of_not_mem sep b h]
    rfl
  | cons x xs ih =>
    obtain ⟨p, ps, hsplit⟩ := ih
    rw [List.cons_append, split]
    by_cases hx : x = sep
    · rw [if_pos hx, hsplit]
      exact ⟨[], p :: ps, rfl⟩
    · rw [if_neg hx, hsplit]
      exact ⟨x :: p, ps, rfl⟩

/-- The last part of a string without the separator is the string. -/
theorem splitLast_of_not_mem (sep : Char) (s : QString) (h : sep ∉ s) :
    splitLast sep s = s := by
  unfold splitLast
  rw [split_of_not_mem sep s h]
  rfl

/-- The last part of a string is what follows the last separator. -/
theorem splitLast_append (sep : Char) (a b : QString) (h : sep ∉ b) :
    splitLast sep (a ++ sep :: b) = b := by
  unfold splitLast
  obtain ⟨p, ps, hsplit⟩ := split_append sep a b h
  rw [hsplit, List.getLastD_eq_getLast?, List.getLast?_append]
  rfl

/-- The last part of a string never holds the separator. -/
theorem not_mem_splitLast (sep : Char) (s : QString) : sep ∉ splitLast sep s := by
  rcases exists_last_occurrence sep s with h | ⟨a, b, hs, hb⟩
  · rw [splitLast_of_not_mem sep s h]; exact h
  · rw [hs, splitLast_append sep a b hb]; exact hb

theorem right_append (a b : QString) : right (a ++ b) (b.length : Int) = b := by
  unfold right
  by_cases h : ((b.length : Int) < 0 ∨ ((a ++ b).length : Int) ≤ (b.length : Int))
  · rw [if_pos h]
    rcases h with h | h
    · omega
    · have : a.length = 0 := by
        rw [List.length_append] at h
        push_cast at h
        omega
      rw [List.length_eq_zero.mp this, List.nil_append]
  · rw [if_neg h]
    simp

theorem left_append (a b : QString) : left (a ++ b) (a.length : Int) = a := by
  unfold left
  by_cases h : ((a.length : Int) < 0 ∨ ((a ++ b).length : Int) ≤ (a.length : Int))
  · rw [if_pos h]
    rcases h with h | h
    · omega
    · have : b.length = 0 := by
        rw [List.length_append] at h
        push_cast at h
        omega
      rw [List.length_eq_zero.mp this, List.append_nil]
  · rw [if_neg h]
    simp

/-- The book path of a member kept under its main folder. -/
theorem GetRelativePath_of_under (r : Resource) (bookpath : QString)
    (h : r.m_FullFilePath = r.m_MainFolder ++ '/' :: bookpath) :
    r.GetRelativePath = bookpath := by
  unfold Resource.GetRelativePath
  rw [h]
  have hlen : (((r.m_MainFolder ++ '/' :: bookpath).length : Int)
      - (r.m_MainFolder.length : Int) - 1) = (bookpath.length : Int) := by
    rw [List.length_append, List.length_cons]
    push_cast
    omega
  rw [hlen]
  have := right_append (r.m_MainFolder ++ ['/']) bookpath
  simpa using this

/-! ## Renaming and moving one member -/

theorem RenameTo_answer {n : Nat} (cx : Context n) (st : State n) (resource : Fin n)
    (new_filename : QString) :
    (RenameTo cx st resource new_filename).2
      = cx.fs st.fsCalls.length (renameCall (st.res resource) new_filename) := by
  rw [RenameTo_eq]
  split
  · rename_i h; rw [h]
  · rename_i h; rw [Bool.eq_false_iff.mpr h]

theorem MoveTo_answer {n : Nat} (cx : Context n) (st : State n) (resource : Fin n)
    (new_bookpath : QString) :
    (MoveTo cx st resource new_bookpath).2
      = cx.fs st.fsCalls.length (moveCall (st.res resource) new_bookpath) := by
  rw [MoveTo_eq]
  split
  · rename_i h; rw [h]
  · rename_i h; rw [Bool.eq_false_iff.mpr h]

theorem RenameTo_failed {n : Nat} (cx : Context n) (st : State n) (resource : Fin n)
    (new_filename : QString) (h : (RenameTo cx st resource new_filename).2 = false) :
    RenameTo cx st resource new_filename
      = ({ st with fsCalls := st.fsCalls ++ [renameCall (st.res resource) new_filename] },
          false) := by
  rw [RenameTo_answer] at h
  rw [RenameTo_eq, if_neg (by rw [h]; decide)]

theorem MoveTo_failed {n : Nat} (cx : Context n) (st : State n) (resource : Fin n)
    (new_bookpath : QString) (h : (MoveTo cx st resource new_bookpath).2 = false) :
    MoveTo cx st resource new_bookpath
      = ({ st with fsCalls := st.fsCalls ++ [moveCall (st.res resource) new_bookpath] },
          false) := by
  rw [MoveTo_answer] at h
  rw [MoveTo_eq, if_neg (by rw [h]; decide)]

theorem RenameTo_succeeded {n : Nat} (cx : Context n) (st : State n) (resource : Fin n)
    (new_filename : QString) (h : (RenameTo cx st resource new_filename).2 = true) :
    RenameTo cx st resource new_filename
      = ({ st with
            fsCalls := st.fsCalls ++ [renameCall (st.res resource) new_filename],
            res := Function.update st.res resource
              { st.res resource with
                m_FullFilePath :=
                  absolutePath (st.res resource).m_FullFilePath ++ '/' :: new_filename,
                m_ShortName := new_filename },
            signals := st.signals
              ++ [Signal.Renamed resource (st.res resource).m_FullFilePath] }, true) := by
  rw [RenameTo_answer] at h
  rw [RenameTo_eq, if_pos h]

theorem MoveTo_succeeded {n : Nat} (cx : Context n) (st : State n) (resource : Fin n)
    (new_bookpath : QString) (h : (MoveTo cx st resource new_bookpath).2 = true) :
    MoveTo cx st resource new_bookpath
      = ({ st with
            fsCalls := st.fsCalls ++ [moveCall (st.res resource) new_bookpath],
            res := Function.update st.res resource
              { st.res resource with
                m_FullFilePath := (st.res resource).m_MainFolder ++ '/' :: new_bookpath },
            signals := st.signals
              ++ [Signal.Moved resource (st.res resource).m_FullFilePath] }, true) := by
  rw [MoveTo_answer] at h
  rw [MoveTo_eq, if_pos h]

/-- C11.  `Resource::RenameTo` and `Resource::MoveTo` answer what the file system answered.
When the answer is false, the registry is what it was, so the full path, the book path,
the file name and the short name of the member are unchanged, and no signal is emitted;
hence the registry changes only when the file-system operation succeeded. -/
theorem C11_failed_operation_changes_nothing {n : Nat} (cx : Context n) (st : State n)
    (resource : Fin n) (entry : QString) :
    ((RenameTo cx st resource entry).2
        = cx.fs st.fsCalls.length (renameCall (st.res resource) entry)
      ∧ ((RenameTo cx st resource entry).2 = false →
          (RenameTo cx st resource entry).1.res = st.res
          ∧ ((RenameTo cx st resource entry).1.res resource).m_FullFilePath
            = (st.res resource).m_FullFilePath
          ∧ ((RenameTo cx st resource entry).1.res resource).GetRelativePath
            = (st.res resource).GetRelativePath
          ∧ ((RenameTo cx st resource entry).1.res resource).Filename
            = (st.res resource).Filename
          ∧ ((RenameTo cx st resource entry).1.res resource).ShortPathName
            = (st.res resource).ShortPathName
          ∧ (RenameTo cx st resource entry).1.signals = st.signals)
      ∧ ((RenameTo cx st resource entry).1.res ≠ st.res →
          (RenameTo cx st resource entry).2 = true))
    ∧ ((MoveTo cx st resource entry).2
        = cx.fs st.fsCalls.length (moveCall (st.res resource) entry)
      ∧ ((MoveTo cx st resource entry).2 = false →
          (MoveTo cx st resource entry).1.res = st.res
          ∧ ((MoveTo cx st resource entry).1.res resource).m_FullFilePath
            = (st.res resource).m_FullFilePath
          ∧ ((MoveTo cx st resource entry).1.res resource).GetRelativePath
            = (st.res resource).GetRelativePath
          ∧ ((MoveTo cx st resource entry).1.res resource).Filename
            = (st.res resource).Filename
          ∧ ((MoveTo cx st resource entry).1.res resource).ShortPathName
            = (st.res resource).ShortPathName
          ∧ (MoveTo cx st resource entry).1.signals = st.signals)
      ∧ ((MoveTo cx st resource entry).1.res ≠ st.res →
          (MoveTo cx st resource entry).2 = true)) := by
  have hr : (RenameTo cx st resource entry).2 = false →
      (RenameTo cx st resource entry).1.res = st.res
      ∧ (RenameTo cx st resource entry).1.signals = st.signals := by
    intro h
    rw [RenameTo_failed cx st resource entry h]
    exact ⟨rfl, rfl⟩
  have hm : (MoveTo cx st resource entry).2 = false →
      (MoveTo cx st resource entry).1.res = st.res
      ∧ (MoveTo cx st resource entry).1.signals = st.signals := by
    intro h
    rw [MoveTo_failed cx st resource entry h]
    exact ⟨rfl, rfl⟩
  refine ⟨⟨RenameTo_answer cx st resource entry, ?_, ?_⟩,
    ⟨MoveTo_answer cx st resource entry, ?_, ?_⟩⟩
  · intro h
    obtain ⟨h1, h2⟩ := hr h
    refine ⟨h1, ?_, ?_, ?_, ?_, h2⟩ <;> rw [h1]
  · intro hne
    by_contra hfalse
    exact hne (hr (Bool.eq_false_iff.mpr hfalse)).1
  · intro h
    obtain ⟨h1, h2⟩ := hm h
    refine ⟨h1, ?_, ?_, ?_, ?_, h2⟩ <;> rw [h1]
  · intro hne
    by_contra hfalse
    exact hne (hm (Bool.eq_false_iff.mpr hfalse)).1

theorem absolutePath_append (a b : QString) (h : '/' ∉ b) :
    absolutePath (a ++ '/' :: b) = if a = [] then ['/'] else a := by
  unfold absolutePath
  simp only [lastIndexOf_append '/' a b h]
  by_cases ha : a = []
  · subst ha
    simp
  · have hpos : ¬ ((a.length : Int) ≤ 0) := by
      have := List.length_pos.mpr ha
      omega
    rw [if_neg hpos, if_neg ha]
    exact left_append a ('/' :: b)

/-- The book path after a rename of a member kept under its main folder: the new name in
the folder of the old book path. -/
theorem renamed_bookpath (r : Resource) (bookpath entry : QString)
    (h : r.m_FullFilePath = r.m_MainFolder ++ '/' :: bookpath) :
    ('/' ∉ bookpath ∧ r.m_MainFolder ≠ [] ∧ absolutePath r.m_FullFilePath = r.m_MainFolder
        ∧ (r.renamed entry).GetRelativePath = entry)
    ∨ ('/' ∉ bookpath ∧ r.m_MainFolder = [] ∧ absolutePath r.m_FullFilePath = ['/']
        ∧ (r.renamed entry).GetRelativePath = '/' :: entry)
    ∨ ∃ a b, bookpath = a ++ '/' :: b ∧ '/' ∉ b
        ∧ absolutePath r.m_FullFilePath = r.m_MainFolder ++ '/' :: a
        ∧ (r.renamed entry).GetRelativePath = a ++ '/' :: entry := by
  rcases exists_last_occurrence '/' bookpath with hno | ⟨a, b, hab, hb⟩
  · have habs := absolutePath_append r.m_MainFolder bookpath hno
    rw [← h] at habs
    by_cases hmain : r.m_MainFolder = []
    · right; left
      rw [if_pos hmain] at habs
      refine ⟨hno, hmain, habs, ?_⟩
      apply GetRelativePath_of_under
      show absolutePath r.m_FullFilePath ++ '/' :: entry = r.m_MainFolder ++ '/' :: '/' :: entry
      rw [habs, hmain]
      rfl
    · left
      rw [if_neg hmain] at habs
      refine ⟨hno, hmain, habs, ?_⟩
      apply GetRelativePath_of_under
      show absolutePath r.m_FullFilePath ++ '/' :: entry = r.m_MainFolder ++ '/' :: entry
      rw [habs]
  · right; right
    have hfull : r.m_FullFilePath = (r.m_MainFolder ++ '/' :: a) ++ '/' :: b := by
      rw [h, hab]
      simp
    have habs := absolutePath_append (r.m_MainFolder ++ '/' :: a) b hb
    rw [← hfull, if_neg (by simp)] at habs
    refine ⟨a, b, hab, hb, habs, ?_⟩
    apply GetRelativePath_of_under
    show absolutePath r.m_FullFilePath ++ '/' :: entry
      = r.m_MainFolder ++ '/' :: (a ++ '/' :: entry)
    rw [habs]
    simp

theorem startingDir_of_not_mem (s : QString) (h : '/' ∉ s) : startingDir s = [] := by
  unfold startingDir
  simp only [lastIndexOf_of_not_mem '/' s h]
  rfl

theorem startingDir_append (a b : QString) (h : '/' ∉ b) :
    startingDir (a ++ '/' :: b) = a := by
  unfold startingDir
  simp only [lastIndexOf_append '/' a b h]
  rw [if_pos (by omega)]
  exact left_append a ('/' :: b)

theorem filePath_append (a b : QString) (h : '/' ∉ b) :
    filePath (a ++ '/' :: b) = if a = [] then ['/'] else a := by
  unfold filePath
  have hne : (a ++ '/' :: b).isEmpty = false := by
    cases a <;> rfl
  simp only [hne, lastIndexOf_append '/' a b h]
  by_cases ha : a = []
  · subst ha
    simp
  · have hpos : 0 < a.length := List.length_pos.mpr ha
    rw [if_neg ha]
    simp only [Bool.false_eq_true, if_false]
    rw [if_neg (by omega), if_neg (by omega)]
    exact left_append a ('/' :: b)

theorem filePath_of_not_mem (s : QString) (h : '/' ∉ s) (hne : s ≠ []) :
    filePath s = ['.'] := by
  unfold filePath
  have : s.isEmpty = false := by
    cases s with
    | nil => exact absurd rfl hne
    | cons x xs => rfl
  simp only [this, lastIndexOf_of_not_mem '/' s h]
  rfl

/-- C12.  For a member whose full path is its main folder, `'/'` and its book path: after a
successful `MoveTo(p)` the book path is `p`; after a successful `RenameTo(n)` with no
`'/'` in `n` the file name is `n` and the folder is what it was, on disk
(`GetFullFolderPath`) and within the book (`startingDir` of the book path, and
`GetFolder` when main folder, book path and name are not empty); and each emits one
signal, `Moved` or `Renamed`, carrying the member and the full path it had before. -/
theorem C12_successful_operation {n : Nat} (cx : Context n) (st : State n) (resource : Fin n)
    (bookpath entry : QString)
    (hunder : (st.res resource).m_FullFilePath
      = (st.res resource).m_MainFolder ++ '/' :: bookpath) :
    ((MoveTo cx st resource entry).2 = true →
        ((MoveTo cx st resource entry).1.res resource).GetRelativePath = entry
        ∧ (MoveTo cx st resource entry).1.signals
          = st.signals ++ [Signal.Moved resource (st.res resource).m_FullFilePath])
    ∧ ((RenameTo cx st resource entry).2 = true → '/' ∉ entry →
        ((RenameTo cx st resource entry).1.res resource).Filename = entry
        ∧ ((RenameTo cx st resource entry).1.res resource).GetFullFolderPath
          = (st.res resource).GetFullFolderPath
        ∧ startingDir ((RenameTo cx st resource entry).1.res resource).GetRelativePath
          = startingDir (st.res resource).GetRelativePath
        ∧ ((st.res resource).m_MainFolder ≠ [] → bookpath ≠ [] → entry ≠ [] →
            ((RenameTo cx st resource entry).1.res resource).GetFolder
              = (st.res resource).GetFolder)
        ∧ (RenameTo cx st resource entry).1.signals
          = st.signals ++ [Signal.Renamed resource (st.res resource).m_FullFilePath]) := by
  have hold : (st.res resource).GetRelativePath = bookpath :=
    GetRelativePath_of_under _ bookpath hunder
  constructor
  · intro hok
    rw [MoveTo_succeeded cx st resource entry hok]
    refine ⟨?_, rfl⟩
    simp only [Function.update_same]
    exact GetRelativePath_of_under _ entry rfl
  · intro hok hentry
    rw [RenameTo_succeeded cx st resource entry hok]
    simp only [Function.update_same]
    have hnew : ({ st.res resource with
        m_FullFilePath := absolutePath (st.res resource).m_FullFilePath ++ '/' :: entry,
        m_ShortName := entry } : Resource) = (st.res resource).renamed entry := rfl
    rw [hnew]
    have hfull : ((st.res resource).renamed entry).GetFullFolderPath
        = absolutePath (absolutePath (st.res resource).m_FullFilePath ++ '/' :: entry) := rfl
    rcases renamed_bookpath (st.res resource) bookpath entry hunder with
      ⟨hno, hmain, habs, hrel⟩ | ⟨hno, hmain, habs, hrel⟩ | ⟨a, b, hab, hb, habs, hrel⟩
    · refine ⟨?_, ?_, ?_, ?_, trivial⟩
      · rw [Resource.Filename, hrel, splitLast_of_not_mem '/' entry hentry]
      · rw [hfull, absolutePath_append _ entry hentry, habs, if_neg hmain]
        exact habs.symm
      · rw [hrel, hold, startingDir_of_not_mem entry hentry,
          startingDir_of_not_mem bookpath hno]
      · intro _ hbook hne
        rw [Resource.GetFolder, Resource.GetFolder, hrel, hold,
          filePath_of_not_mem entry hentry hne, filePath_of_not_mem bookpath hno hbook]
    · refine ⟨?_, ?_, ?_, ?_, trivial⟩
      · rw [Resource.Filename, hrel]
        exact splitLast_append '/' [] entry hentry
      · rw [hfull, absolutePath_append _ entry hentry, habs, if_neg (by simp)]
        exact habs.symm
      · rw [hrel, hold, startingDir_of_not_mem bookpath hno]
        exact startingDir_append [] entry hentry
      · intro hne
        exact absurd hmain hne
    · refine ⟨?_, ?_, ?_, ?_, trivial⟩
      · rw [Resource.Filename, hrel, splitLast_append '/' a entry hentry]
      · rw [hfull, absolutePath_append _ entry hentry, habs, if_neg (by simp)]
        exact habs.symm
      · rw [hrel, hold, hab, startingDir_append a entry hentry, startingDir_append a b hb]
      · intro _ _ _
        rw [Resource.GetFolder, Resource.GetFolder, hrel, hold, hab,
          filePath_append a entry hentry, filePath_append a b hb]

/-- C12, witness: `Text/a.html` of the book `sampleThree`, kept in the folder `/b`. -/
theorem C12_successful_operation_witness :
    ((newState sampleThree).res 0).m_FullFilePath
      = ((newState sampleThree).res 0).m_MainFolder ++ '/' :: "Text/a.html".toList
    ∧ ((MoveTo (sampleContext 3) (newState sampleThree) 0 "x.html".toList).2 = true →
        ((MoveTo (sampleContext 3) (newState sampleThree) 0 "x.html".toList).1.res
            0).GetRelativePath = "x.html".toList
        ∧ (MoveTo (sampleContext 3) (newState sampleThree) 0 "x.html".toList).1.signals
          = (newState sampleThree).signals
            ++ [Signal.Moved 0 ((newState sampleThree).res 0).m_FullFilePath])
    ∧ ((RenameTo (sampleContext 3) (newState sampleThree) 0 "x.html".toList).2 = true →
        '/' ∉ "x.html".toList →
        ((RenameTo (sampleContext 3) (newState sampleThree) 0 "x.html".toList).1.res
            0).Filename = "x.html".toList
        ∧ ((RenameTo (sampleContext 3) (newState sampleThree) 0 "x.html".toList).1.res
            0).GetFullFolderPath = ((newState sampleThree).res 0).GetFullFolderPath
        ∧ startingDir ((RenameTo (sampleContext 3) (newState sampleThree) 0
            "x.html".toList).1.res 0).GetRelativePath
          = startingDir ((newState sampleThree).res 0).GetRelativePath
        ∧ (((newState sampleThree).res 0).m_MainFolder ≠ [] → "Text/a.html".toList ≠ [] →
            "x.html".toList ≠ [] →
            ((RenameTo (sampleContext 3) (newState sampleThree) 0 "x.html".toList).1.res
              0).GetFolder = ((newState sampleThree).res 0).GetFolder)
        ∧ (RenameTo (sampleContext 3) (newState sampleThree) 0 "x.html".toList).1.signals
          = (newState sampleThree).signals
            ++ [Signal.Renamed 0 ((newState sampleThree).res 0).m_FullFilePath]) :=
  ⟨by decide, C12_successful_operation (sampleContext 3) (newState sampleThree) 0
    "Text/a.html".toList "x.html".toList (by decide)⟩

/-! ## Renaming a member to its own name in another case -/

/-- A name equal up to case to the file name of a book path gives, in the folder of that
path, a path equal to it up to case. -/
theorem proposedBookPath_same_case (old_bookpath new_filename : QString)
    (hroot : startsWith old_bookpath ['/'] = false)
    (hcase : caseFolded new_filename = caseFolded (splitLast '/' old_bookpath)) :
    caseFolded (proposedBookPath old_bookpath new_filename) = caseFolded old_bookpath := by
  rcases exists_last_occurrence '/' old_bookpath with hno | ⟨a, b, hab, hb⟩
  · rw [splitLast_of_not_mem '/' old_bookpath hno] at hcase
    simp only [proposedBookPath, startingDir_of_not_mem old_bookpath hno, List.isEmpty_nil,
      if_true]
    exact hcase
  · subst hab
    rw [splitLast_append '/' a b hb] at hcase
    have ha : a ≠ [] := by
      intro h
      subst h
      simp [startsWith] at hroot
    have hempty : a.isEmpty = false := by
      cases a with
      | nil => exact absurd rfl ha
      | cons x xs => rfl
    simp only [proposedBookPath, startingDir_append a b hb, hempty, Bool.false_eq_true,
      if_false]
    unfold caseFolded at hcase ⊢
    rw [List.map_append, List.map_append, List.map_cons, List.map_cons, hcase]

/-- The dialog of a name in use is shown only when some member owns the proposed path up to
case. -/
theorem filenameProblem_inUse {n : Nat} (res : Fin n → Resource)
    (old_bookpath new_filename : QString)
    (h : filenameProblem (GetAllBookPaths res) old_bookpath new_filename
      = some (Dialog.filenameInUse new_filename)) :
    ∃ owner, caseFolded (res owner).GetRelativePath
      = caseFolded (proposedBookPath old_bookpath new_filename) := by
  unfold filenameProblem at h
  cases hf : new_filename.find? (fun character => FORBIDDEN_FILENAME_CHARS.contains character) with
  | some character =>
    rw [hf] at h
    exact absurd h (by simp)
  | none =>
    rw [hf] at h
    simp only at h
    split at h
    · exact absurd h (by simp)
    · split at h
      · rename_i hc
        unfold containsCI GetAllBookPaths at hc
        obtain ⟨s, hs, hfold⟩ := List.any_eq_true.mp hc
        obtain ⟨owner, _, hown⟩ := List.mem_map.mp hs
        exact ⟨owner, by rw [hown]; exact of_decide_eq_true hfold⟩
      · exact absurd h (by simp)

/-- A single pair whose completed name has a problem: the registry and the file system are
left alone, and the answer is false unless the pair was skipped before validation. -/
theorem RenameResourceList_single_problem {n : Nat} (cx : Context n) (st : State n)
    (A : Fin n) (new_filename : QString) (d : Dialog)
    (hd : filenameProblem (GetAllBookPaths st.res) (st.res A).GetRelativePath
      (withExtension (st.res A).Filename new_filename) = some d) :
    ∃ st1 answer, RenameResourceList cx st [A] [new_filename] = some (st1, answer)
      ∧ st1.res = st.res ∧ st1.fsCalls = st.fsCalls
      ∧ (startsWith (st.res A).GetRelativePath "META-INF/".toList = false →
          (st.res A).Filename ≠ withExtension (st.res A).Filename new_filename →
          answer = false) := by
  have hst : (startBatch st).st = st := rfl
  have hnp : (startBatch st).not_processed = [] := rfl
  have hbody : (renamePair cx (startBatch st) A new_filename).st.res = st.res
      ∧ (renamePair cx (startBatch st) A new_filename).st.fsCalls = st.fsCalls := by
    by_cases hmeta : startsWith (st.res A).GetRelativePath "META-INF/".toList = true
    · rw [renamePair_protected cx (startBatch st) A new_filename (by rw [hst]; exact hmeta), hst]
      exact ⟨rfl, rfl⟩
    · by_cases hname : (st.res A).Filename = withExtension (st.res A).Filename new_filename
      · rw [renamePair_same_name cx (startBatch st) A new_filename (by rw [hst]; exact hname),
          hst]
        exact ⟨rfl, rfl⟩
      · rw [renamePair_rejected cx (startBatch st) A new_filename d
          (by rw [hst]; exact Bool.eq_false_iff.mpr hmeta) (by rw [hst]; exact hname)
          (by rw [hst]; exact hd), hst]
        exact ⟨rfl, rfl⟩
  refine ⟨(finishBatch cx (renamePair cx (startBatch st) A new_filename)).1,
    (finishBatch cx (renamePair cx (startBatch st) A new_filename)).2,
    RenameResourceList_single cx st A new_filename, ?_, ?_, ?_⟩
  · rw [finishBatch_res]
    exact hbody.1
  · rw [finishBatch_fsCalls]
    exact hbody.2
  · intro hmeta hname
    rw [finishBatch_answer, renamePair_rejected cx (startBatch st) A new_filename d
      (by rw [hst]; exact hmeta) (by rw [hst]; exact hname) (by rw [hst]; exact hd), hnp]
    rfl

/-- C13 (as amended).  `FilenameIsValid` shows the dialog of a name in use only when some
member, the renamed one included, owns the proposed path up to case.  For a member whose
book path does not begin with `'/'`, a name (its extension completed as
`RenameResourceList` does) equal up to case to the current file name is rejected, with the
dialog of a name in use unless it was rejected before for a forbidden character or as
empty; the batch of that pair leaves the registry alone, calls the file system not at all,
and answers false when the member is outside `META-INF/` and the name is not the current
one letter for letter. -/
theorem C13_same_name_in_another_case {n : Nat} (cx : Context n) (st : State n)
    (resource : Fin n) (new_filename : QString)
    (hroot : startsWith (st.res resource).GetRelativePath ['/'] = false)
    (hcase : caseFolded (withExtension (st.res resource).Filename new_filename)
      = caseFolded (st.res resource).Filename) :
    (∀ old_bookpath name, filenameProblem (GetAllBookPaths st.res) old_bookpath name
        = some (Dialog.filenameInUse name) →
      ∃ owner, caseFolded (st.res owner).GetRelativePath
        = caseFolded (proposedBookPath old_bookpath name))
    ∧ (FilenameIsValid st (st.res resource).GetRelativePath
        (withExtension (st.res resource).Filename new_filename)).2 = false
    ∧ (filenameProblem (GetAllBookPaths st.res) (st.res resource).GetRelativePath
          (withExtension (st.res resource).Filename new_filename)
        = some (Dialog.filenameInUse (withExtension (st.res resource).Filename new_filename))
      ∨ filenameProblem (GetAllBookPaths st.res) (st.res resource).GetRelativePath
          (withExtension (st.res resource).Filename new_filename) = some Dialog.emptyFilename
      ∨ ∃ character, character ∈ withExtension (st.res resource).Filename new_filename ∧
          FORBIDDEN_FILENAME_CHARS.contains character = true ∧
          filenameProblem (GetAllBookPaths st.res) (st.res resource).GetRelativePath
            (withExtension (st.res resource).Filename new_filename)
              = some (Dialog.forbiddenCharacter character))
    ∧ ∃ st1 answer, RenameResourceList cx st [resource] [new_filename] = some (st1, answer)
        ∧ st1.res = st.res ∧ st1.fsCalls = st.fsCalls
        ∧ (startsWith (st.res resource).GetRelativePath "META-INF/".toList = false →
            (st.res resource).Filename
              ≠ withExtension (st.res resource).Filename new_filename →
            answer = false) := by
  have hown : caseFolded (proposedBookPath (st.res resource).GetRelativePath
      (withExtension (st.res resource).Filename new_filename))
      = caseFolded (st.res resource).GetRelativePath :=
    proposedBookPath_same_case _ _ hroot hcase
  have hthree := filenameProblem_of_owned st.res resource _ _ hown
  have hp : ∃ d, filenameProblem (GetAllBookPaths st.res) (st.res resource).GetRelativePath
      (withExtension (st.res resource).Filename new_filename) = some d := by
    rcases hthree with h1 | h1 | ⟨c, _, _, h1⟩
    · exact ⟨_, h1⟩
    · exact ⟨_, h1⟩
    · exact ⟨_, h1⟩
  obtain ⟨d, hd⟩ := hp
  exact ⟨fun old_bookpath name h => filenameProblem_inUse st.res old_bookpath name h,
    by simp only [FilenameIsValid, hd], hthree,
    RenameResourceList_single_problem cx st resource new_filename d hd⟩

/-- C13, witness: `Text/a.html` of a book of three HTML files, offered the name `A.html`. -/
theorem C13_same_name_in_another_case_witness :
    startsWith ((newState sampleThree).res 0).GetRelativePath ['/'] = false
    ∧ caseFolded (withExtension ((newState sampleThree).res 0).Filename "A.html".toList)
      = caseFolded ((newState sampleThree).res 0).Filename
    ∧ (∀ old_bookpath name,
        filenameProblem (GetAllBookPaths (newState sampleThree).res) old_bookpath name
          = some (Dialog.filenameInUse name) →
        ∃ owner, caseFolded ((newState sampleThree).res owner).GetRelativePath
          = caseFolded (proposedBookPath old_bookpath name))
    ∧ (FilenameIsValid (newState sampleThree) ((newState sampleThree).res 0).GetRelativePath
        (withExtension ((newState sampleThree).res 0).Filename "A.html".toList)).2 = false
    ∧ (filenameProblem (GetAllBookPaths (newState sampleThree).res)
          ((newState sampleThree).res 0).GetRelativePath
          (withExtension ((newState sampleThree).res 0).Filename "A.html".toList)
        = some (Dialog.filenameInUse
            (withExtension ((newState sampleThree).res 0).Filename "A.html".toList))
      ∨ filenameProblem (GetAllBookPaths (newState sampleThree).res)
          ((newState sampleThree).res 0).GetRelativePath
          (withExtension ((newState sampleThree).res 0).Filename "A.html".toList)
            = some Dialog.emptyFilename
      ∨ ∃ character,
          character ∈ withExtension ((newState sampleThree).res 0).Filename "A.html".toList ∧
          FORBIDDEN_FILENAME_CHARS.contains character = true ∧
          filenameProblem (GetAllBookPaths (newState sampleThree).res)
            ((newState sampleThree).res 0).GetRelativePath
            (withExtension ((newState sampleThree).res 0).Filename "A.html".toList)
              = some (Dialog.forbiddenCharacter character))
    ∧ ∃ st1 answer,
        RenameResourceList (sampleContext 3) (newState sampleThree) [0] ["A.html".toList]
          = some (st1, answer)
        ∧ st1.res = (newState sampleThree).res ∧ st1.fsCalls = (newState sampleThree).fsCalls
        ∧ (startsWith ((newState sampleThree).res 0).GetRelativePath "META-INF/".toList = false →
            ((newState sampleThree).res 0).Filename
              ≠ withExtension ((newState sampleThree).res 0).Filename "A.html".toList →
            answer = false) :=
  ⟨by decide, by decide, C13_same_name_in_another_case (sampleContext 3) (newState sampleThree)
    0 "A.html".toList (by decide) (by decide)⟩

/-- C13, counterexample to the claim as stated.  In a book of three HTML files the name
`A.html` differs from the file name of `Text/a.html` in letter case only and no other
member owns `Text/A.html` up to case, yet `FilenameIsValid` rejects it as a name in use and
the batch rename of that pair answers false. -/
theorem C13_counterexample :
    "A.html".toList ≠ (sampleThree 0).Filename
    ∧ caseFolded "A.html".toList = caseFolded (sampleThree 0).Filename
    ∧ (∀ other : Fin 3, other ≠ 0 →
        caseFolded (sampleThree other).GetRelativePath
          ≠ caseFolded (proposedBookPath (sampleThree 0).GetRelativePath "A.html".toList))
    ∧ (FilenameIsValid (newState sampleThree) (sampleThree 0).GetRelativePath
        "A.html".toList).2 = false
    ∧ (FilenameIsValid (newState sampleThree) (sampleThree 0).GetRelativePath
        "A.html".toList).1.dialogs = [Dialog.filenameInUse "A.html".toList]
    ∧ (RenameResourceList (sampleContext 3) (newState sampleThree) [0]
        ["A.html".toList]).map Prod.snd = some false := by
  decide

/-! ## Names without an extension -/

/-- The function `FilenameIsValid` outside the calls that `RenameResourceList` makes.  The
name `x` has no forbidden character, is not empty, has no extension, and the path `Text/x`
matches no book path of a book of three HTML files; handed that name, `FilenameIsValid`
answers false with the dialog of an empty name, while it accepts the name `xy`: for a name
without extension, `left` is asked for one character less than the name has.
`RenameResourceList` hands it no name of one character without `'.'`
(`withExtension_shape`): offered `x` for `Text/a.html`, it validates `x.html`. -/
theorem FilenameIsValid_one_letter :
    "x".toList.find? (fun character => FORBIDDEN_FILENAME_CHARS.contains character) = none
    ∧ "x".toList ≠ []
    ∧ suffix "x".toList = []
    ∧ containsCI (GetAllBookPaths sampleThree)
        (proposedBookPath (sampleThree 0).GetRelativePath "x".toList) = false
    ∧ left "x".toList
        (("x".toList.length : Int) - ((suffix "x".toList).length : Int) - 1) = []
    ∧ (FilenameIsValid (newState sampleThree) (sampleThree 0).GetRelativePath
        "x".toList).2 = false
    ∧ (FilenameIsValid (newState sampleThree) (sampleThree 0).GetRelativePath
        "x".toList).1.dialogs = [Dialog.emptyFilename]
    ∧ (FilenameIsValid (newState sampleThree) (sampleThree 0).GetRelativePath
        "xy".toList).2 = true
    ∧ withExtension (sampleThree 0).Filename "x".toList = "x.html".toList
    ∧ (FilenameIsValid (newState sampleThree) (sampleThree 0).GetRelativePath
        (withExtension (sampleThree 0).Filename "x".toList)).2 = true := by
  decide

/-! ## Validation of a book path -/

theorem bookPathProblem_eq_none {n : Nat} (res : Fin n → Resource) (new_bookpath : QString) :
    bookPathProblem (GetAllBookPaths res) new_bookpath = none
      ↔ new_bookpath ≠ [] ∧ ∀ i, (res i).GetRelativePath ≠ new_bookpath := by
  unfold bookPathProblem
  cases new_bookpath with
  | nil => simp
  | cons c cs =>
    simp only [List.isEmpty_cons, Bool.false_eq_true, if_false, ne_eq, not_false_eq_true,
      true_and, reduceCtorEq]
    constructor
    · intro h i hi
      split at h
      · cases h
      · rename_i hc
        apply hc
        rw [List.contains_iff_exists_mem_beq]
        exact ⟨(res i).GetRelativePath, mem_GetAllBookPaths res i, by simp [hi]⟩
    · intro h
      split
      · rename_i hc
        rw [List.contains_iff_exists_mem_beq] at hc
        obtain ⟨s, hs, hbeq⟩ := hc
        unfold GetAllBookPaths at hs
        obtain ⟨i, _, hi⟩ := List.mem_map.mp hs
        exact absurd (hi.trans (beq_iff_eq.mp hbeq).symm) (h i)
      · rfl

/-- C15.  `BookPathIsValid` answers false exactly when the proposed book path is empty or
is, character for character, the book path of some member; so a path that is not empty and
differs from every book path is accepted, also when it equals one of them up to the case
of its letters, as `Text/A.html` does in a book holding `Text/a.html`. -/
theorem C15_book_path_validation {n : Nat} (st : State n) (old_bookpath new_bookpath : QString) :
    ((BookPathIsValid st old_bookpath new_bookpath).2 = false
      ↔ new_bookpath = [] ∨ ∃ i, (st.res i).GetRelativePath = new_bookpath)
    ∧ (new_bookpath ≠ [] → (∀ i, (st.res i).GetRelativePath ≠ new_bookpath) →
        (BookPathIsValid st old_bookpath new_bookpath).2 = true)
    ∧ (caseFolded "Text/A.html".toList = caseFolded (sampleThree 0).GetRelativePath
      ∧ (BookPathIsValid (newState sampleThree) (sampleThree 0).GetRelativePath
          "Text/A.html".toList).2 = true) := by
  have hnone := bookPathProblem_eq_none st.res new_bookpath
  refine ⟨?_, ?_, by decide⟩
  · unfold BookPathIsValid
    cases hp : bookPathProblem (GetAllBookPaths st.res) new_bookpath with
    | none =>
      obtain ⟨hne, hall⟩ := hnone.mp hp
      simp only [Bool.true_eq_false, false_iff, not_or, not_exists]
      exact ⟨hne, hall⟩
    | some d =>
      simp only [true_iff]
      by_contra hcon
      rw [not_or, not_exists] at hcon
      rw [hnone.mpr ⟨hcon.1, hcon.2⟩] at hp
      cases hp
  · intro hne hall
    unfold BookPathIsValid
    rw [hnone.mpr ⟨hne, hall⟩]

/-! ## Moving a member to the path it has -/

/-- C19.  In a book of three HTML files outside `META-INF/`, the batch move of
`Text/a.html` to `Text/a.html`, the path it has: the file system is not called, but
`BookPathIsValid` rejects the path as in use, the member is appended to the list of
members not moved, and `MoveResourceList` answers false.  The batch rename of the same
member to `a.html`, the name it has, is skipped and answers true. -/
theorem C19_move_to_current_path :
    startsWith (sampleThree 0).GetRelativePath "META-INF/".toList = false
    ∧ (sampleThree 0).GetRelativePath = "Text/a.html".toList
    ∧ moveOutcome (sampleContext 3) (startBatch (newState sampleThree)) 0 "Text/a.html".toList
      = Outcome.rejected
    ∧ (movePair (sampleContext 3) (startBatch (newState sampleThree)) 0
        "Text/a.html".toList).not_processed = ["Text/a.html".toList]
    ∧ (movePair (sampleContext 3) (startBatch (newState sampleThree)) 0
        "Text/a.html".toList).st.dialogs = [Dialog.bookPathInUse "Text/a.html".toList]
    ∧ (movePair (sampleContext 3) (startBatch (newState sampleThree)) 0
        "Text/a.html".toList).st.fsCalls = []
    ∧ (MoveResourceList (sampleContext 3) (newState sampleThree) [0]
        ["Text/a.html".toList]).map Prod.snd = some false
    ∧ renameOutcome (sampleContext 3) (startBatch (newState sampleThree)) 0 "a.html".toList
      = Outcome.skipped
    ∧ (RenameResourceList (sampleContext 3) (newState sampleThree) [0]
        ["a.html".toList]).map Prod.snd = some true := by
  decide

/-! ## The extension of a name without a dot -/

/-- C20.  The current file name `README` has no `'.'`, so `lastIndexOf` answers `-1` and
`right` is asked for one character more than the name has, which yields the whole name:
the extension computed is `README`, and the batch rename of `Misc/README` to `NOTES`
validates and applies `NOTESREADME`. -/
theorem C20_extension_of_dotless_name :
    '.' ∉ (sampleReadme 0).Filename
    ∧ '.' ∉ "NOTES".toList
    ∧ lastIndexOf (sampleReadme 0).Filename '.' = -1
    ∧ extensionOf (sampleReadme 0).Filename = "README".toList
    ∧ withExtension (sampleReadme 0).Filename "NOTES".toList = "NOTESREADME".toList
    ∧ renameOutcome (sampleContext 1) (startBatch (newState sampleReadme)) 0 "NOTES".toList
      = Outcome.applied
    ∧ (renamePair (sampleContext 1) (startBatch (newState sampleReadme)) 0
        "NOTES".toList).st.fsCalls
      = [FsCall.RenameFile "/b/Misc/README".toList "/b/Misc/NOTESREADME".toList]
    ∧ (RenameResourceList (sampleContext 1) (newState sampleReadme) [0]
        ["NOTES".toList]).map (fun result => (result.1.res 0).Filename)
      = some "NOTESREADME".toList := by
  decide

/-! ## Book paths stay distinct -/

theorem startsWith_slash_of_not_mem (s : QString) (h : '/' ∉ s) :
    startsWith s ['/'] = false := by
  cases s with
  | nil => rfl
  | cons c cs =>
    have hc : c ≠ '/' := fun hc => h (by simp [hc])
    simp [startsWith, List.isPrefixOf, Ne.symm hc]

theorem startsWith_slash_append (a b : QString) (ha : a ≠ [])
    (h : startsWith (a ++ b) ['/'] = false) (c : QString) :
    startsWith (a ++ c) ['/'] = false := by
  cases a with
  | nil => exact absurd rfl ha
  | cons x xs =>
    simp only [startsWith, List.cons_append, List.isPrefixOf] at h ⊢
    exact h

/-- A name accepted by `FilenameIsValid` has no `'/'`, and the path proposed for it is the
book path of no member, up to case. -/
theorem filenameProblem_eq_none {n : Nat} (res : Fin n → Resource)
    (old_bookpath new_filename : QString)
    (h : filenameProblem (GetAllBookPaths res) old_bookpath new_filename = none) :
    '/' ∉ new_filename
      ∧ ∀ j, caseFolded (proposedBookPath old_bookpath new_filename)
        ≠ caseFolded (res j).GetRelativePath := by
  constructor
  · intro hmem
    obtain ⟨found, _, hall⟩ := filenameProblem_forbidden '/' new_filename hmem (by decide)
    rw [hall] at h
    cases h
  · intro j hj
    rcases filenameProblem_of_owned res j old_bookpath new_filename hj with
      h1 | h1 | ⟨c, _, _, h1⟩ <;> rw [h1] at h <;> cases h

/-- The book path after a rename of a member kept in the folder of its book is the path
`FilenameIsValid` proposed, and the member is still kept there. -/
theorem renamed_proposed (r : Resource) (name : QString) (hw : UnderMainFolder r)
    (hslash : '/' ∉ name) :
    (r.renamed name).GetRelativePath = proposedBookPath r.GetRelativePath name
      ∧ UnderMainFolder (r.renamed name) := by
  obtain ⟨hmain, hfull, hroot⟩ := hw
  have hfull2 : (r.renamed name).m_FullFilePath
      = absolutePath r.m_FullFilePath ++ '/' :: name := rfl
  have hmain2 : (r.renamed name).m_MainFolder = r.m_MainFolder := rfl
  rcases renamed_bookpath r r.GetRelativePath name hfull with
    ⟨hno, _, habs, hrel⟩ | ⟨_, hempty, _, _⟩ | ⟨a, b, hab, hb, habs, hrel⟩
  · refine ⟨?_, ?_, ?_, ?_⟩
    · rw [hrel]
      simp only [proposedBookPath, startingDir_of_not_mem _ hno, List.isEmpty_nil, if_true]
    · rw [hmain2]; exact hmain
    · rw [hfull2, hmain2, hrel, habs]
    · rw [hrel]; exact startsWith_slash_of_not_mem name hslash
  · exact absurd hempty hmain
  · have ha : a ≠ [] := by
      intro h
      subst h
      rw [hab] at hroot
      simp [startsWith] at hroot
    have hempty : a.isEmpty = false := by
      cases a with
      | nil => exact absurd rfl ha
      | cons x xs => rfl
    refine ⟨?_, ?_, ?_, ?_⟩
    · rw [hrel, hab]
      simp only [proposedBookPath, startingDir_append a b hb, hempty, Bool.false_eq_true,
        if_false]
    · rw [hmain2]; exact hmain
    · rw [hfull2, hmain2, hrel, habs, List.append_assoc, List.cons_append]
    · rw [hrel]
      rw [hab] at hroot
      exact startsWith_slash_append a _ ha hroot _

/-- A pair of a rename batch keeps the members in the folder of the book and their book
paths distinct up to case. -/
theorem renamePair_distinct {n : Nat} (cx : Context n) (b : Batch n) (resource : Fin n)
    (new_filename : QString) (hw : ∀ i, UnderMainFolder (b.st.res i))
    (hd : DistinctUpToCase b.st.res) :
    (∀ i, UnderMainFolder ((renamePair cx b resource new_filename).st.res i))
      ∧ DistinctUpToCase (renamePair cx b resource new_filename).st.res := by
  rw [renamePair_res]
  by_cases happ : renameOutcome cx b resource new_filename = Outcome.applied
  · rw [if_pos happ]
    obtain ⟨_, _, hvalid, _⟩ := (renameOutcome_applied_iff cx b resource new_filename).mp happ
    have hnone : filenameProblem (GetAllBookPaths b.st.res)
        (b.st.res resource).GetRelativePath
        (withExtension (b.st.res resource).Filename new_filename) = none := by
      unfold FilenameIsValid at hvalid
      cases hp : filenameProblem (GetAllBookPaths b.st.res)
          (b.st.res resource).GetRelativePath
          (withExtension (b.st.res resource).Filename new_filename) with
      | none => rfl
      | some d => rw [hp] at hvalid; cases hvalid
    obtain ⟨hslash, hfree⟩ := filenameProblem_eq_none _ _ _ hnone
    obtain ⟨hrel, hunder⟩ := renamed_proposed (b.st.res resource)
      (withExtension (b.st.res resource).Filename new_filename) (hw resource) hslash
    have hnew : ({ b.st.res resource with
        m_FullFilePath := absolutePath (b.st.res resource).m_FullFilePath
          ++ '/' :: withExtension (b.st.res resource).Filename new_filename,
        m_ShortName := withExtension (b.st.res resource).Filename new_filename } : Resource)
        = (b.st.res resource).renamed
          (withExtension (b.st.res resource).Filename new_filename) := rfl
    rw [hnew]
    constructor
    · intro i
      by_cases hi : i = resource
      · subst hi
        rw [Function.update_same]
        exact hunder
      · rw [Function.update_noteq hi]
        exact hw i
    · intro i j hij
      by_cases hi : i = resource
      · subst hi
        have hj : j ≠ i := fun h => hij h.symm
        rw [Function.update_same, Function.update_noteq hj, hrel]
        exact hfree j
      · by_cases hj : j = resource
        · subst hj
          rw [Function.update_same, Function.update_noteq hi, hrel]
          exact fun h => hfree i h.symm
        · rw [Function.update_noteq hi, Function.update_noteq hj]
          exact hd i j hij
  · rw [if_neg happ]
    exact ⟨hw, hd⟩

theorem runPairs_rename_distinct {n : Nat} (cx : Context n) (b : Batch n)
    (pairs : List (Fin n × QString)) (hw : ∀ i, UnderMainFolder (b.st.res i))
    (hd : DistinctUpToCase b.st.res) :
    (∀ i, UnderMainFolder ((runPairs (renamePair cx) b pairs).st.res i))
      ∧ DistinctUpToCase (runPairs (renamePair cx) b pairs).st.res := by
  induction pairs generalizing b with
  | nil => exact ⟨hw, hd⟩
  | cons p rest ih =>
    rw [runPairs_cons]
    obtain ⟨hw1, hd1⟩ := renamePair_distinct cx b p.1 p.2 hw hd
    exact ih _ hw1 hd1

/-- A pair of a move batch keeps the book paths distinct. -/
theorem movePair_distinct {n : Nat} (cx : Context n) (b : Batch n) (resource : Fin n)
    (newbookpath : QString) (hd : DistinctPaths b.st.res) :
    DistinctPaths (movePair cx b resource newbookpath).st.res := by
  rw [movePair_res]
  by_cases happ : moveOutcome cx b resource newbookpath = Outcome.applied
  · rw [if_pos happ]
    have hnone : bookPathProblem (GetAllBookPaths b.st.res) newbookpath = none := by
      unfold moveOutcome at happ
      cases hp : bookPathProblem (GetAllBookPaths b.st.res) newbookpath with
      | none => rfl
      | some d =>
        rw [hp] at happ
        simp only [Option.isSome_some, if_true] at happ
        split at happ <;> cases happ
    obtain ⟨_, hfree⟩ := (bookPathProblem_eq_none b.st.res newbookpath).mp hnone
    have hrel : ({ b.st.res resource with
        m_FullFilePath := (b.st.res resource).m_MainFolder ++ '/' :: newbookpath,
        m_CurrentBookRelPath := (b.st.res resource).GetRelativePath }
          : Resource).GetRelativePath = newbookpath :=
      GetRelativePath_of_under _ newbookpath rfl
    intro i j hij
    by_cases hi : i = resource
    · subst hi
      have hj : j ≠ i := fun h => hij h.symm
      rw [Function.update_same, Function.update_noteq hj, hrel]
      exact fun h => hfree j h.symm
    · by_cases hj : j = resource
      · subst hj
        rw [Function.update_same, Function.update_noteq hi, hrel]
        exact hfree i
      · rw [Function.update_noteq hi, Function.update_noteq hj]
        exact hd i j hij
  · rw [if_neg happ]
    exact hd

theorem runPairs_move_distinct {n : Nat} (cx : Context n) (b : Batch n)
    (pairs : List (Fin n × QString)) (hd : DistinctPaths b.st.res) :
    DistinctPaths (runPairs (movePair cx) b pairs).st.res := by
  induction pairs generalizing b with
  | nil => exact hd
  | cons p rest ih =>
    rw [runPairs_cons]
    exact ih _ (movePair_distinct cx b p.1 p.2 hd)

theorem DistinctPaths_of_DistinctUpToCase {n : Nat} (res : Fin n → Resource)
    (h : DistinctUpToCase res) : DistinctPaths res :=
  fun i j hij heq => h i j hij (by rw [heq])

/-- C16 (as amended).  In a book whose members are kept in its folder (full path: main
folder, `'/'`, book path; the main folder named, the book path not beginning with `'/'`)
and have book paths pairwise distinct up to case: after any batch rename, whatever the
file system answers, the book paths are still pairwise distinct up to case and the members
still kept there; after any batch move the book paths are still pairwise distinct, letter
for letter. -/
theorem C16_paths_stay_distinct {n : Nat} (cx : Context n) (st : State n)
    (pairs : List (Fin n × QString)) (hw : ∀ i, UnderMainFolder (st.res i))
    (hcase : DistinctUpToCase st.res) :
    (∃ st1 answer,
      RenameResourceList cx st (pairs.map Prod.fst) (pairs.map Prod.snd) = some (st1, answer)
        ∧ DistinctUpToCase st1.res ∧ ∀ i, UnderMainFolder (st1.res i))
    ∧ (∃ st1 answer,
      MoveResourceList cx st (pairs.map Prod.fst) (pairs.map Prod.snd) = some (st1, answer)
        ∧ DistinctPaths st1.res) := by
  have hst : (startBatch st).st = st := rfl
  constructor
  · refine ⟨(finishBatch cx (runPairs (renamePair cx) (startBatch st) pairs)).1,
      (finishBatch cx (runPairs (renamePair cx) (startBatch st) pairs)).2,
      RenameResourceList_pairs cx st pairs, ?_⟩
    rw [finishBatch_res]
    obtain ⟨h1, h2⟩ := runPairs_rename_distinct cx (startBatch st) pairs
      (by rw [hst]; exact hw) (by rw [hst]; exact hcase)
    exact ⟨h2, h1⟩
  · refine ⟨(finishBatch cx (runPairs (movePair cx) (startBatch st) pairs)).1,
      (finishBatch cx (runPairs (movePair cx) (startBatch st) pairs)).2,
      MoveResourceList_pairs cx st pairs, ?_⟩
    rw [finishBatch_res]
    exact runPairs_move_distinct cx (startBatch st) pairs
      (by rw [hst]; exact DistinctPaths_of_DistinctUpToCase st.res hcase)

/-- C16, witness: the batch `sampleBatch` on a book of three HTML files. -/
theorem C16_paths_stay_distinct_witness :
    (∀ i, UnderMainFolder ((newState sampleThree).res i))
    ∧ DistinctUpToCase (newState sampleThree).res
    ∧ (∃ st1 answer,
      RenameResourceList (sampleContext 3) (newState sampleThree)
          (sampleBatch.map Prod.fst) (sampleBatch.map Prod.snd) = some (st1, answer)
        ∧ DistinctUpToCase st1.res ∧ ∀ i, UnderMainFolder (st1.res i))
    ∧ (∃ st1 answer,
      MoveResourceList (sampleContext 3) (newState sampleThree)
          (sampleBatch.map Prod.fst) (sampleBatch.map Prod.snd) = some (st1, answer)
        ∧ DistinctPaths st1.res) :=
  ⟨by decide, by decide, C16_paths_stay_distinct (sampleContext 3) (newState sampleThree)
    sampleBatch (by decide) (by decide)⟩

/-- C16, counterexample to the claim as stated.  The book paths of a book of three HTML
files are pairwise distinct up to case; the batch move of `Text/a.html` to `Text/B.html`
is accepted, and afterwards `Text/B.html` and `Text/b.html` are both book paths. -/
theorem C16_counterexample :
    DistinctUpToCase (newState sampleThree).res
    ∧ (MoveResourceList (sampleContext 3) (newState sampleThree) [0]
        ["Text/B.html".toList]).map (fun result => GetAllBookPaths result.1.res)
      = some ["Text/B.html".toList, "Text/b.html".toList, "Text/c.html".toList]
    ∧ (MoveResourceList (sampleContext 3) (newState sampleThree) [0]
        ["Text/B.html".toList]).map (fun result => decide (DistinctUpToCase result.1.res))
      = some false
    ∧ (MoveResourceList (sampleContext 3) (newState sampleThree) [0]
        ["Text/B.html".toList]).map Prod.snd = some true := by
  decide

/-! ## Debounced reload -/

theorem ResourceFileModified_echo (LoadFromDisk : Bool) (r : Resource) (info : FileInfo)
    (h : info.stamp = r.m_LastSaved) :
    ResourceFileModified LoadFromDisk r info
      = { resource := r, emitted := [], scheduled := false } := by
  simp only [ResourceFileModified, h, if_true]

theorem ResourceFileModified_changing (LoadFromDisk : Bool) (r : Resource) (info : FileInfo)
    (hsaved : info.stamp ≠ r.m_LastSaved)
    (h : info.stamp ≠ r.m_LastWrittenTo ∨ info.size ≠ r.m_LastWrittenSize) :
    ResourceFileModified LoadFromDisk r info
      = { resource := { r with m_LastWrittenTo := info.stamp,
                               m_LastWrittenSize := info.size },
          emitted := [], scheduled := true } := by
  simp only [ResourceFileModified, hsaved, h, if_true, if_false]

theorem ResourceFileModified_settled (LoadFromDisk : Bool) (r : Resource) (info : FileInfo)
    (hsaved : info.stamp ≠ r.m_LastSaved) (htime : info.stamp = r.m_LastWrittenTo)
    (hsize : info.size = r.m_LastWrittenSize) :
    ResourceFileModified LoadFromDisk r info
      = { resource := r,
          emitted := (if LoadFromDisk then [DiskSignal.ResourceUpdatedFromDisk] else [])
            ++ [DiskSignal.ResourceUpdatedOnDisk],
          scheduled := false } := by
  have h : ¬(info.stamp ≠ r.m_LastWrittenTo ∨ info.size ≠ r.m_LastWrittenSize) := by
    rw [not_or]
    exact ⟨not_not.mpr htime, not_not.mpr hsize⟩
  simp only [ResourceFileModified, hsaved, h, if_false]

/-- While each report differs from the one before it, the timer emits nothing. -/
theorem resample_changing (LoadFromDisk : Bool) (later : List FileInfo) (r : Resource)
    (previous : FileInfo) (htime : r.m_LastWrittenTo = previous.stamp)
    (hsize : r.m_LastWrittenSize = previous.size)
    (h : List.Chain (fun a b => b.differs a) previous later) :
    resample LoadFromDisk r later = [] := by
  induction later generalizing r previous with
  | nil => rfl
  | cons info rest ih =>
    obtain ⟨hfirst, hrest⟩ := List.chain_cons.mp h
    unfold resample
    by_cases hsaved : info.stamp = r.m_LastSaved
    · rw [ResourceFileModified_echo LoadFromDisk r info hsaved]
      rfl
    · rw [ResourceFileModified_changing LoadFromDisk r info hsaved
        (by rw [htime, hsize]; exact hfirst)]
      simp only [List.nil_append, if_true]
      exact ih _ info rfl rfl hrest

/-- C17 (as amended).  `FileChangedOnDisk` stores the first report of the file and sets the
timer.  A run of `ResourceFileModified` emits a signal exactly when the time and the size
reported equal the stored ones and the time differs from the stamp of the last save; it
then emits `ResourceUpdatedFromDisk` when the load succeeds and `ResourceUpdatedOnDisk`,
and sets no timer.  A report whose time equals the stamp of the last save changes nothing,
emits nothing and sets no timer.  A report whose time differs from that stamp and whose
time or size differs from the stored ones emits nothing, is stored, and sets the timer
again.  So while each report differs from the one before it, no signal is emitted. -/
theorem C17_debounced_reload (LoadFromDisk : Bool) (r : Resource) (info : FileInfo) :
    FileChangedOnDisk r info
      = { resource := { r with m_LastWrittenTo := info.stamp, m_LastWrittenSize := info.size },
          emitted := [], scheduled := true }
    ∧ ((ResourceFileModified LoadFromDisk r info).emitted ≠ []
      ↔ info.stamp = r.m_LastWrittenTo ∧ info.size = r.m_LastWrittenSize
        ∧ info.stamp ≠ r.m_LastSaved)
    ∧ (info.stamp = r.m_LastWrittenTo → info.size = r.m_LastWrittenSize →
        info.stamp ≠ r.m_LastSaved →
        ResourceFileModified LoadFromDisk r info
          = { resource := r,
              emitted := (if LoadFromDisk then [DiskSignal.ResourceUpdatedFromDisk] else [])
                ++ [DiskSignal.ResourceUpdatedOnDisk],
              scheduled := false })
    ∧ (info.stamp = r.m_LastSaved →
        ResourceFileModified LoadFromDisk r info
          = { resource := r, emitted := [], scheduled := false })
    ∧ (info.stamp ≠ r.m_LastSaved →
        info.stamp ≠ r.m_LastWrittenTo ∨ info.size ≠ r.m_LastWrittenSize →
        ResourceFileModified LoadFromDisk r info
          = { resource := { r with m_LastWrittenTo := info.stamp,
                                   m_LastWrittenSize := info.size },
              emitted := [], scheduled := true })
    ∧ (∀ later : List FileInfo, List.Chain (fun a b => b.differs a) info later →
        watch LoadFromDisk r info later = []) := by
  refine ⟨rfl, ?_, fun htime hsize hsaved =>
      ResourceFileModified_settled LoadFromDisk r info hsaved htime hsize,
    ResourceFileModified_echo LoadFromDisk r info,
    ResourceFileModified_changing LoadFromDisk r info, ?_⟩
  · by_cases hsaved : info.stamp = r.m_LastSaved
    · rw [ResourceFileModified_echo LoadFromDisk r info hsaved]
      constructor
      · intro h; exact absurd rfl h
      · rintro ⟨_, _, h⟩; exact absurd hsaved h
    · by_cases hdiff : info.stamp ≠ r.m_LastWrittenTo ∨ info.size ≠ r.m_LastWrittenSize
      · rw [ResourceFileModified_changing LoadFromDisk r info hsaved hdiff]
        constructor
        · intro h; exact absurd rfl h
        · rintro ⟨h1, h2, _⟩
          rcases hdiff with h | h
          · exact absurd h1 h
          · exact absurd h2 h
      · rw [not_or, not_not, not_not] at hdiff
        rw [ResourceFileModified_settled LoadFromDisk r info hsaved hdiff.1 hdiff.2]
        constructor
        · intro _; exact ⟨hdiff.1, hdiff.2, hsaved⟩
        · intro _; simp
  · intro later hchain
    unfold watch
    exact resample_changing LoadFromDisk later _ info rfl rfl hchain

/-- C17, counterexample to the claim as stated.  A member last saved at time 5 has stored
the report (time 3, size 10).  The next report (time 5, size 12) differs from it in time
and in size, and yet it is not stored and the timer is not set again. -/
theorem C17_counterexample :
    sampleSaved.m_LastSaved = 5
    ∧ (sampleSaved.m_LastWrittenTo, sampleSaved.m_LastWrittenSize) = (3, 10)
    ∧ (∀ LoadFromDisk : Bool,
      ResourceFileModified LoadFromDisk sampleSaved { lastModified := some 5, size := 12 }
        = { resource := sampleSaved, emitted := [], scheduled := false }) := by
  decide

/-! ## The signal of an edit in place -/

theorem get?_set_same {α : Type} (l : List α) (i : Nat) (a b : α) (h : l.get? i = some a) :
    (l.set i b).get? i = some b := by
  induction l generalizing i with
  | nil => cases h
  | cons x xs ih =>
    cases i with
    | zero => rfl
    | succ k => exact ih k h

/-- After `setText` the item of a file has the new text and the data it had. -/
theorem textAndData_storeText (m : OPFModel) (item : ItemRef) (text identifier shown : QString)
    (h : textAndData m item = some (text, identifier)) (hdata : identifier ≠ []) :
    textAndData (storeText m shown item) item = some (shown, identifier) := by
  cases item with
  | child f row =>
    simp only [textAndData] at h
    cases hrow : (m.rows f).get? row with
    | none => rw [hrow] at h; cases h
    | some found =>
      rw [hrow] at h
      simp only [Option.some.injEq, Prod.mk.injEq] at h
      simp only [storeText, hrow, textAndData, OPFModel.rows_setRows_same,
        get?_set_same _ _ _ _ hrow, h.2]
  | top row =>
    simp only [textAndData] at h
    cases hrow : m.root.get? row with
    | none => rw [hrow] at h; cases h
    | some found =>
      rw [hrow] at h
      cases found with
      | folder f =>
        simp only [Option.some.injEq, Prod.mk.injEq] at h
        exact absurd h.2.symm hdata
      | file found =>
        simp only [Option.some.injEq, Prod.mk.injEq] at h
        simp only [storeText, hrow, textAndData, get?_set_same _ _ _ _ hrow, h.2]

theorem renamePair_renamed_count {n : Nat} (cx : Context n) (b : Batch n) (resource : Fin n)
    (new_filename : QString) :
    (renamePair cx b resource new_filename).st.signals.count Signal.ResourceRenamed
      = b.st.signals.count Signal.ResourceRenamed := by
  rcases Outcome_cases (renameOutcome cx b resource new_filename) with h | h | h | h
  · rw [renamePair_skipped cx b resource new_filename h]
  · obtain ⟨d, _, hd⟩ := renamePair_rejected_outcome cx b resource new_filename h
    rw [hd]
  · rw [renamePair_failed cx b resource new_filename h]
  · rw [renamePair_applied cx b resource new_filename h]
    simp

theorem finishBatch_renamed_count {n : Nat} (cx : Context n) (b : Batch n) :
    (finishBatch cx b).1.signals.count Signal.ResourceRenamed
      = b.st.signals.count Signal.ResourceRenamed := by
  unfold finishBatch
  split
  · simp
  · rfl

/-- The function `RenameResource` ends, and emits no `ResourceRenamed`. -/
theorem RenameResource_renamed_count {n : Nat} (cx : Context n) (st : State n)
    (resource : Fin n) (new_filename : QString) :
    ∃ renamed, RenameResource cx st resource new_filename = some renamed
      ∧ renamed.1.signals.count Signal.ResourceRenamed
        = st.signals.count Signal.ResourceRenamed := by
  refine ⟨finishBatch cx (renamePair cx (startBatch st) resource new_filename),
    RenameResourceList_single cx st resource new_filename, ?_⟩
  rw [finishBatch_renamed_count, renamePair_renamed_count]
  rfl

/-- The last segment of the name shown for a member is its file name, when the short name
ends in the file name. -/
theorem displayName_filename {n : Nat} (cx : Context n) (r : Resource)
    (hshort : cx.showFullPathOn = false → splitLast '/' r.ShortPathName = r.Filename) :
    (if (displayName cx r).isEmpty then displayName cx r
      else splitLast '/' (displayName cx r)) = r.Filename := by
  have hlast : splitLast '/' (displayName cx r) = r.Filename := by
    unfold displayName
    cases hfull : cx.showFullPathOn with
    | true => rfl
    | false => exact hshort hfull
  split
  · rename_i hempty
    rw [List.isEmpty_iff] at hempty
    rw [← hlast, hempty]
    rfl
  · exact hlast

theorem ItemChangedHandler_no_data {n : Nat} (use_filename_warning : QString → Bool)
    (cx : Context n) (fuel : Nat) (st : State n) (item : ItemRef) (text : QString)
    (hitem : textAndData st.model item = some (text, [])) :
    ItemChangedHandler use_filename_warning cx (fuel + 1) st item
      = some { st with signals := st.signals ++ [Signal.ResourceRenamed] } := by
  simp only [ItemChangedHandler, hitem, List.isEmpty_nil, if_true]

theorem ItemChangedHandler_same_name {n : Nat} (use_filename_warning : QString → Bool)
    (cx : Context n) (fuel : Nat) (st : State n) (item : ItemRef) (text identifier : QString)
    (resource : Fin n) (hitem : textAndData st.model item = some (text, identifier))
    (hmember : GetResourceByIdentifier st.res identifier = some resource)
    (hname : (if text.isEmpty then text else splitLast '/' text) = (st.res resource).Filename) :
    ItemChangedHandler use_filename_warning cx (fuel + 1) st item
      = some { st with signals := st.signals ++ [Signal.ResourceRenamed] } := by
  simp only [ItemChangedHandler, hitem, hmember, hname, ne_eq, not_true_eq_false, if_false,
    ite_self]

theorem ItemChangedHandler_rejected {n : Nat} (use_filename_warning : QString → Bool)
    (cx : Context n) (fuel : Nat) (st : State n) (item : ItemRef) (text identifier : QString)
    (resource : Fin n) (hitem : textAndData st.model item = some (text, identifier))
    (hdata : identifier ≠ [])
    (hmember : GetResourceByIdentifier st.res identifier = some resource)
    (hshort : cx.showFullPathOn = false →
      splitLast '/' (st.res resource).ShortPathName = (st.res resource).Filename)
    (hname : (if text.isEmpty then text else splitLast '/' text) ≠ (st.res resource).Filename)
    (hwarn : use_filename_warning (if text.isEmpty then text else splitLast '/' text) = false) :
    ItemChangedHandler use_filename_warning cx (fuel + 2) st item
      = some { st with
          model := storeText st.model (displayName cx (st.res resource)) item,
          signals := st.signals ++ [Signal.ResourceRenamed] } := by
  have hempty : identifier.isEmpty = false := by
    cases identifier with
    | nil => exact absurd rfl hdata
    | cons c cs => rfl
  have hshown := displayName_filename cx (st.res resource) hshort
  have htext : text ≠ displayName cx (st.res resource) := by
    intro h
    rw [← h] at hshown
    exact hname hshown
  have hnested := ItemChangedHandler_same_name use_filename_warning cx fuel
    { st with model := storeText st.model (displayName cx (st.res resource)) item } item
    (displayName cx (st.res resource)) identifier resource
    (textAndData_storeText st.model item text identifier _ hitem hdata) hmember hshown
  rw [show fuel + 2 = (fuel + 1) + 1 from rfl]
  simp only [ItemChangedHandler, hitem, hempty, hmember, hname, hwarn, htext, ne_eq,
    not_false_eq_true, if_true, if_false, Bool.false_eq_true]
  exact hnested

theorem ItemChangedHandler_accepted {n : Nat} (use_filename_warning : QString → Bool)
    (cx : Context n) (fuel : Nat) (st : State n) (item : ItemRef) (text identifier : QString)
    (resource : Fin n) (renamed : State n × Bool)
    (hitem : textAndData st.model item = some (text, identifier)) (hdata : identifier ≠ [])
    (hmember : GetResourceByIdentifier st.res identifier = some resource)
    (hname : (if text.isEmpty then text else splitLast '/' text) ≠ (st.res resource).Filename)
    (hwarn : use_filename_warning (if text.isEmpty then text else splitLast '/' text) = true)
    (hrenamed : RenameResource cx st resource
      (if text.isEmpty then text else splitLast '/' text) = some renamed) :
    ItemChangedHandler use_filename_warning cx (fuel + 1) st item
      = some { renamed.1 with signals := renamed.1.signals ++ [Signal.ResourceRenamed] } := by
  have hempty : identifier.isEmpty = false := by
    cases identifier with
    | nil => exact absurd rfl hdata
    | cons c cs => rfl
  simp only [ItemChangedHandler, hitem, hempty, hmember, hname, hwarn, hrenamed, ne_eq,
    not_false_eq_true, if_true, if_false, Bool.false_eq_true, Bool.true_eq_false]

/-- C18.  `ItemChangedHandler`, run for an item of the tree whose data, when it has any,
is the identifier of a member whose short name ends in its file name, ends and leaves
`ResourceRenamed` emitted exactly once more: at its own end when the item has no data, when
the name is unchanged, and after `RenameResource`, whatever that answered; and, when the
name is turned down at the filename warning, by the run of the slot that
`item->setText(...)` starts for the text put back, the outer run returning without
emitting. -/
theorem C18_renamed_once {n : Nat} (use_filename_warning : QString → Bool) (cx : Context n)
    (st : State n) (item : ItemRef) (fuel : Nat) (text identifier : QString)
    (hitem : textAndData st.model item = some (text, identifier))
    (hmember : identifier ≠ [] →
      ∃ resource, GetResourceByIdentifier st.res identifier = some resource
        ∧ (cx.showFullPathOn = false →
            splitLast '/' (st.res resource).ShortPathName = (st.res resource).Filename)) :
    (∃ st1, ItemChangedHandler use_filename_warning cx (fuel + 2) st item = some st1
      ∧ st1.signals.count Signal.ResourceRenamed
        = st.signals.count Signal.ResourceRenamed + 1)
    ∧ (∀ resource, identifier ≠ [] →
        GetResourceByIdentifier st.res identifier = some resource →
        (if text.isEmpty then text else splitLast '/' text) ≠ (st.res resource).Filename →
        use_filename_warning (if text.isEmpty then text else splitLast '/' text) = false →
        ItemChangedHandler use_filename_warning cx (fuel + 2) st item
          = some { st with
              model := storeText st.model (displayName cx (st.res resource)) item,
              signals := st.signals ++ [Signal.ResourceRenamed] }) := by
  constructor
  · by_cases hdata : identifier = []
    · subst hdata
      exact ⟨_, ItemChangedHandler_no_data use_filename_warning cx (fuel + 1) st item text
        hitem, by simp⟩
    · obtain ⟨resource, hres, hshort⟩ := hmember hdata
      by_cases hname : (if text.isEmpty then text else splitLast '/' text)
          = (st.res resource).Filename
      · exact ⟨_, ItemChangedHandler_same_name use_filename_warning cx (fuel + 1) st item text
          identifier resource hitem hres hname, by simp⟩
      · by_cases hwarn : use_filename_warning
            (if text.isEmpty then text else splitLast '/' text) = false
        · exact ⟨_, ItemChangedHandler_rejected use_filename_warning cx fuel st item text
            identifier resource hitem hdata hres hshort hname hwarn, by simp⟩
        · obtain ⟨renamed, hrenamed, hcount⟩ := RenameResource_renamed_count cx st resource
            (if text.isEmpty then text else splitLast '/' text)
          exact ⟨{ renamed.1 with signals := renamed.1.signals ++ [Signal.ResourceRenamed] },
            ItemChangedHandler_accepted use_filename_warning cx (fuel + 1) st item text
              identifier resource renamed hitem hdata hres hname
              (by simpa using hwarn) hrenamed, by simp [hcount]⟩
  · intro resource hdata hres hname hwarn
    obtain ⟨owner, hown, hshort⟩ := hmember hdata
    have hsame : owner = resource := Option.some.inj (hown.symm.trans hres)
    subst hsame
    exact ItemChangedHandler_rejected use_filename_warning cx fuel st item text identifier
      owner hitem hdata hres hshort hname hwarn

/-- C18, witness: the first row of the folder `Text`, edited to `Text/new.html`, with a
filename warning that turns every name down. -/
theorem C18_renamed_once_witness :
    textAndData sampleEdited.model (ItemRef.child Folder.Text 0)
      = some ("Text/new.html".toList, "Text/a.html".toList)
    ∧ ("Text/a.html".toList ≠ [] →
        ∃ resource, GetResourceByIdentifier sampleEdited.res "Text/a.html".toList
            = some resource
          ∧ ((sampleContext 3).showFullPathOn = false →
              splitLast '/' (sampleEdited.res resource).ShortPathName
                = (sampleEdited.res resource).Filename))
    ∧ (∃ st1, ItemChangedHandler (fun _ => false) (sampleContext 3) (0 + 2) sampleEdited
          (ItemRef.child Folder.Text 0) = some st1
      ∧ st1.signals.count Signal.ResourceRenamed
        = sampleEdited.signals.count Signal.ResourceRenamed + 1)
    ∧ (∀ resource, "Text/a.html".toList ≠ [] →
        GetResourceByIdentifier sampleEdited.res "Text/a.html".toList = some resource →
        (if "Text/new.html".toList.isEmpty then "Text/new.html".toList
          else splitLast '/' "Text/new.html".toList) ≠ (sampleEdited.res resource).Filename →
        (fun _ : QString => false)
          (if "Text/new.html".toList.isEmpty then "Text/new.html".toList
            else splitLast '/' "Text/new.html".toList) = false →
        ItemChangedHandler (fun _ => false) (sampleContext 3) (0 + 2) sampleEdited
            (ItemRef.child Folder.Text 0)
          = some { sampleEdited with
              model := storeText sampleEdited.model
                (displayName (sampleContext 3) (sampleEdited.res resource))
                (ItemRef.child Folder.Text 0),
              signals := sampleEdited.signals ++ [Signal.ResourceRenamed] }) :=
  ⟨by decide, fun _ => ⟨0, by decide, by decide⟩,
    C18_renamed_once (fun _ => false) (sampleContext 3) sampleEdited
    (ItemRef.child Folder.Text 0) 0 "Text/new.html".toList "Text/a.html".toList (by decide)
    (fun _ => ⟨0, by decide, by decide⟩)⟩

/-! ## Rows lost by a sort -/

/-- C22.  The Text folder holds the five rows `a` to `e`.  `SortHTMLFilesByAlphanumeric`
with the selection given as rows 4 and 0, the lower row first, leaves three rows: what it
leaves is shorter than, and no permutation of, what it found, the rows `a` and `e` being
gone.  With the same rows given as 0 and 4 the five rows are all there. -/
theorem C22_rows_lost :
    (Refresh (sampleContext 5) sampleFive newOPFModel).m_TextFolderItem.length = 5
    ∧ (SortHTMLFilesByAlphanumeric (sampleContext 5)
        (Refresh (sampleContext 5) sampleFive newOPFModel) [4, 0]).m_TextFolderItem.length = 3
    ∧ ¬ List.Perm
        (SortHTMLFilesByAlphanumeric (sampleContext 5)
          (Refresh (sampleContext 5) sampleFive newOPFModel) [4, 0]).m_TextFolderItem
        (Refresh (sampleContext 5) sampleFive newOPFModel).m_TextFolderItem
    ∧ (SortHTMLFilesByAlphanumeric (sampleContext 5)
        (Refresh (sampleContext 5) sampleFive newOPFModel) [4, 0]).m_TextFolderItem.map
          (fun item => item.identifier)
      = ["Text/b.html".toList, "Text/c.html".toList, "Text/d.html".toList]
    ∧ List.Perm
        (SortHTMLFilesByAlphanumeric (sampleContext 5)
          (Refresh (sampleContext 5) sampleFive newOPFModel) [0, 4]).m_TextFolderItem
        (Refresh (sampleContext 5) sampleFive newOPFModel).m_TextFolderItem := by
  decide

/-! ## The index of a member -/

/-- The search finds the first row that carries the identifier. -/
theorem firstRowOf_first (identifier : QString) (hid : identifier ≠ []) (l : List QString)
    (k i : Nat) (hrow : l.get? i = some identifier)
    (hfirst : ∀ j < i, l.get? j ≠ some identifier) :
    firstRowOf identifier l k = some (k + i) := by
  have hempty : identifier.isEmpty = false := by
    cases identifier with
    | nil => exact absurd rfl hid
    | cons c cs => rfl
  induction l generalizing k i with
  | nil => cases hrow
  | cons data rest ih =>
    cases i with
    | zero =>
      have hdata : data = identifier := by
        simpa using hrow
      subst hdata
      simp only [firstRowOf, hempty, and_self, if_true, Nat.add_zero]
    | succ j =>
      have hne : data ≠ identifier := by
        intro h
        exact hfirst 0 (Nat.succ_pos j) (by rw [h]; rfl)
      have hrest := ih (k + 1) j hrow
        (fun j' hj' => hfirst (j' + 1) (Nat.succ_lt_succ hj'))
      simp only [firstRowOf, hne, and_false, if_false]
      rw [hrest]
      congr 1
      omega

/-- An identifier that some row carries is found, at a row that carries it. -/
theorem firstRowOf_of_mem (identifier : QString) (hid : identifier ≠ []) (l : List QString)
    (k : Nat) (hmem : identifier ∈ l) :
    ∃ i, firstRowOf identifier l k = some (k + i) ∧ l.get? i = some identifier := by
  have hempty : identifier.isEmpty = false := by
    cases identifier with
    | nil => exact absurd rfl hid
    | cons c cs => rfl
  induction l generalizing k with
  | nil => cases hmem
  | cons data rest ih =>
    by_cases hdata : data = identifier
    · subst hdata
      exact ⟨0, by simp only [firstRowOf, hempty, and_self, if_true, Nat.add_zero], rfl⟩
    · have hrest : identifier ∈ rest := by
        rcases List.mem_cons.mp hmem with h | h
        · exact absurd h.symm hdata
        · exact h
      obtain ⟨i, hfound, hrow⟩ := ih (k + 1) hrest
      refine ⟨i + 1, ?_, hrow⟩
      simp only [firstRowOf, hdata, and_false, if_false]
      rw [hfound]
      congr 1
      omega

theorem index_of_lt (m : OPFModel) (row : Nat) (parent : Parent)
    (h : row < (childData m parent).length) : index m row parent = ModelIndex.valid parent row := by
  unfold index
  rw [if_pos h]

theorem lt_length_of_get? {α : Type} (l : List α) (i : Nat) (a : α) (h : l.get? i = some a) :
    i < l.length := by
  by_contra hcon
  rw [List.get?_eq_none.mpr (Nat.le_of_not_lt hcon)] at h
  cases h

/-- What `GetModelFolderItemIndex` answers when the search finds row `i`. -/
theorem GetModelFolderItemIndex_found {n : Nat} (m : OPFModel) (res : Fin n → Resource)
    (parent : Parent) (resource : Fin n) (indexChoice : IndexChoice) (i : Nat)
    (hfound : firstRowOf (res resource).GetIdentifier (childData m parent) 0 = some i)
    (hlt : i < (childData m parent).length) :
    GetModelFolderItemIndex m res (some parent) resource indexChoice
      = ModelIndex.valid parent
          (if parent ≠ Parent.root then
            if indexChoice = IndexChoice.IndexChoice_Previous ∧ i > 0 then i - 1
            else if indexChoice = IndexChoice.IndexChoice_Next
                ∧ i + 1 < (childData m parent).length then i + 1
            else i
          else i) := by
  simp only [GetModelFolderItemIndex, hfound]
  apply index_of_lt
  split
  · split
    · omega
    · split
      · rename_i h
        exact h.2
      · exact hlt
  · exact hlt

/-- C21.  For a member with an identifier whose item is row `i` of a parent, no row above
carrying the identifier: in a folder item `GetModelFolderItemIndex` answers the index of
row `i` of that folder for the exact choice, of row `i - 1` for the previous choice when
`i > 0` and of row `i` otherwise, of row `i + 1` for the next choice when `i + 1` is a row
and of row `i` otherwise; in the root it answers the index of row `i` of the top level
whatever the choice, and so does `GetModelItemIndex` for the manifest and the navigation
descriptor. -/
theorem C21_index_of_member {n : Nat} (m : OPFModel) (res : Fin n → Resource)
    (resource : Fin n) (parent : Parent) (i : Nat)
    (hid : (res resource).GetIdentifier ≠ [])
    (hrow : (childData m parent).get? i = some (res resource).GetIdentifier)
    (hfirst : ∀ j < i, (childData m parent).get? j ≠ some (res resource).GetIdentifier) :
    (parent ≠ Parent.root →
      GetModelFolderItemIndex m res (some parent) resource IndexChoice.exact
        = ModelIndex.valid parent i
      ∧ GetModelFolderItemIndex m res (some parent) resource IndexChoice.IndexChoice_Previous
        = ModelIndex.valid parent (if i > 0 then i - 1 else i)
      ∧ GetModelFolderItemIndex m res (some parent) resource IndexChoice.IndexChoice_Next
        = ModelIndex.valid parent (if i + 1 < (childData m parent).length then i + 1 else i))
    ∧ (parent = Parent.root → ∀ indexChoice,
        GetModelFolderItemIndex m res (some parent) resource indexChoice
          = ModelIndex.valid Parent.root i)
    ∧ (parent = Parent.root →
        (res resource).type = ResourceType.OPFResourceType
          ∨ (res resource).type = ResourceType.NCXResourceType →
        ∀ indexChoice, GetModelItemIndex m res resource indexChoice
          = ModelIndex.valid Parent.root i) := by
  have hfound : firstRowOf (res resource).GetIdentifier (childData m parent) 0 = some i := by
    have := firstRowOf_first _ hid (childData m parent) 0 i hrow hfirst
    rwa [Nat.zero_add] at this
  have hlt := lt_length_of_get? _ _ _ hrow
  have hanswer := fun indexChoice =>
    GetModelFolderItemIndex_found m res parent resource indexChoice i hfound hlt
  refine ⟨fun hparent => ⟨?_, ?_, ?_⟩, ?_, ?_⟩
  · rw [hanswer, if_pos hparent]
    simp
  · rw [hanswer, if_pos hparent]
    simp
  · rw [hanswer, if_pos hparent]
    simp
  · intro hparent indexChoice
    rw [hanswer]
    subst hparent
    simp
  · intro hparent htype indexChoice
    subst hparent
    have hparent : searchedParent m (res resource).type = some Parent.root := by
      unfold searchedParent
      rw [if_pos htype]
    show GetModelFolderItemIndex m res (searchedParent m (res resource).type) resource
      indexChoice = ModelIndex.valid Parent.root i
    rw [hparent, hanswer]
    simp

/-- C21, witness: `Text/b.html`, the middle one of three rows of the folder `Text`. -/
theorem C21_index_of_member_witness :
    (sampleThree 1).GetIdentifier ≠ []
    ∧ (childData (Refresh (sampleContext 3) sampleThree newOPFModel)
        (Parent.folder Folder.Text)).get? 1 = some (sampleThree 1).GetIdentifier
    ∧ (∀ j < 1, (childData (Refresh (sampleContext 3) sampleThree newOPFModel)
        (Parent.folder Folder.Text)).get? j ≠ some (sampleThree 1).GetIdentifier)
    ∧ (Parent.folder Folder.Text ≠ Parent.root →
      GetModelFolderItemIndex (Refresh (sampleContext 3) sampleThree newOPFModel) sampleThree
          (some (Parent.folder Folder.Text)) 1 IndexChoice.exact
        = ModelIndex.valid (Parent.folder Folder.Text) 1
      ∧ GetModelFolderItemIndex (Refresh (sampleContext 3) sampleThree newOPFModel) sampleThree
          (some (Parent.folder Folder.Text)) 1 IndexChoice.IndexChoice_Previous
        = ModelIndex.valid (Parent.folder Folder.Text) (if 1 > 0 then 1 - 1 else 1)
      ∧ GetModelFolderItemIndex (Refresh (sampleContext 3) sampleThree newOPFModel) sampleThree
          (some (Parent.folder Folder.Text)) 1 IndexChoice.IndexChoice_Next
        = ModelIndex.valid (Parent.folder Folder.Text)
          (if 1 + 1 < (childData (Refresh (sampleContext 3) sampleThree newOPFModel)
            (Parent.folder Folder.Text)).length then 1 + 1 else 1))
    ∧ (Parent.folder Folder.Text = Parent.root → ∀ indexChoice,
        GetModelFolderItemIndex (Refresh (sampleContext 3) sampleThree newOPFModel) sampleThree
            (some (Parent.folder Folder.Text)) 1 indexChoice
          = ModelIndex.valid Parent.root 1)
    ∧ (Parent.folder Folder.Text = Parent.root →
        (sampleThree 1).type = ResourceType.OPFResourceType
          ∨ (sampleThree 1).type = ResourceType.NCXResourceType →
        ∀ indexChoice,
          GetModelItemIndex (Refresh (sampleContext 3) sampleThree newOPFModel) sampleThree 1
            indexChoice = ModelIndex.valid Parent.root 1) :=
  ⟨by decide, by decide, by decide, C21_index_of_member
    (Refresh (sampleContext 3) sampleThree newOPFModel) sampleThree 1
    (Parent.folder Folder.Text) 1 (by decide) (by decide) (by decide)⟩

/-! ## The folder of a type, function by function -/

theorem listedFolder_eq (t : ResourceType) : listedFolder t = folderOfType t := by
  cases t <;> rfl

/-- The test of `GetModelItemIndex` passes on the folder item `InitializeModel` appends to,
for the types the test names, and on no other row. -/
theorem searchedFor_folder (t : ResourceType) (g : Folder) :
    searchedFor t (TopRow.folder g) = true
      ↔ t ≠ ResourceType.MiscTextResourceType ∧ t ≠ ResourceType.TextResourceType
        ∧ folderOfType t = some g := by
  cases t <;> cases g <;> decide

theorem find?_searchedFor (t : ResourceType) (f : Folder) (l : List TopRow)
    (hmem : TopRow.folder f ∈ l) (hmisc : t ≠ ResourceType.MiscTextResourceType)
    (htext : t ≠ ResourceType.TextResourceType) (hfolder : folderOfType t = some f) :
    l.find? (searchedFor t) = some (TopRow.folder f) := by
  induction l with
  | nil => cases hmem
  | cons row rest ih =>
    cases row with
    | file item =>
      have hrest : TopRow.folder f ∈ rest := by
        rcases List.mem_cons.mp hmem with h | h
        · cases h
        · exact h
      rw [List.find?_cons_of_neg _ (by simp [searchedFor])]
      exact ih hrest
    | folder g =>
      by_cases hg : searchedFor t (TopRow.folder g) = true
      · have hsame : g = f := by
          have := ((searchedFor_folder t g).mp hg).2.2
          rw [hfolder] at this
          exact (Option.some.inj this).symm
        rw [List.find?_cons_of_pos _ hg, hsame]
      · have hne : f ≠ g := by
          intro h
          subst h
          exact hg ((searchedFor_folder t f).mpr ⟨hmisc, htext, hfolder⟩)
        have hrest : TopRow.folder f ∈ rest := by
          rcases List.mem_cons.mp hmem with h | h
          · exact absurd (TopRow.folder.inj h) hne
          · exact h
        rw [List.find?_cons_of_neg _ hg]
        exact ih hrest

/-- In a tree whose root holds the seven folder items, `GetModelItemIndex` searches, for a
type its test names, the parent `InitializeModel` appends to. -/
theorem searchedParent_eq (m : OPFModel) (t : ResourceType)
    (hfolders : ∀ f, TopRow.folder f ∈ m.root)
    (hmisc : t ≠ ResourceType.MiscTextResourceType)
    (htext : t ≠ ResourceType.TextResourceType) :
    searchedParent m t = some (appendedTo t) := by
  unfold searchedParent appendedTo
  by_cases hdesc : t = ResourceType.OPFResourceType ∨ t = ResourceType.NCXResourceType
  · rw [if_pos hdesc]
    rcases hdesc with h | h <;> rw [h] <;> rfl
  · rw [if_neg hdesc]
    cases hf : folderOfType t with
    | none =>
      rw [not_or] at hdesc
      cases t <;> first | exact absurd rfl hdesc.1 | exact absurd rfl hdesc.2 | cases hf
    | some f =>
      rw [find?_searchedFor t f m.root (hfolders f) hmisc htext hf]

theorem mem_removeTopFiles (l : List TopRow) (f : Folder) (h : TopRow.folder f ∈ l) :
    TopRow.folder f ∈ removeTopFiles l := by
  induction l with
  | nil => cases h
  | cons row rest ih =>
    cases row with
    | file item =>
      rcases List.mem_cons.mp h with h1 | h1
      · cases h1
      · exact ih h1
    | folder g =>
      rcases List.mem_cons.mp h with h1 | h1
      · rw [h1]
        exact List.mem_cons_self _ _
      · exact List.mem_cons_of_mem _ (ih h1)

theorem Refresh_folders {n : Nat} (cx : Context n) (res : Fin n → Resource) (m : OPFModel)
    (hfolders : ∀ f, TopRow.folder f ∈ m.root) (f : Folder) :
    TopRow.folder f ∈ (Refresh cx res m).root := by
  rw [Refresh_root]
  exact List.mem_append_left _ (mem_removeTopFiles m.root f (hfolders f))

/-- After a refresh the identifier of a member is the data of a row of the parent
`InitializeModel` appends to. -/
theorem mem_childData_Refresh {n : Nat} (cx : Context n) (res : Fin n → Resource)
    (m : OPFModel) (resource : Fin n) :
    (res resource).GetIdentifier
      ∈ childData (Refresh cx res m) (appendedTo (res resource).type) := by
  unfold appendedTo
  cases hf : folderOfType (res resource).type with
  | some f =>
    have hitem : itemFor cx res resource ∈ (Refresh cx res m).rows f := by
      rw [(Refresh_rows_perm cx res m f).mem_iff]
      exact List.mem_map.mpr ⟨resource, List.mem_filter.mpr
        ⟨List.mem_finRange resource, by simp [hf]⟩, rfl⟩
    exact List.mem_map.mpr ⟨_, hitem, itemFor_identifier cx res resource⟩
  | none =>
    have hrow : TopRow.file (itemFor cx res resource) ∈ (Refresh cx res m).root := by
      rw [Refresh_root]
      exact List.mem_append_right _ (List.mem_map.mpr ⟨resource, List.mem_filter.mpr
        ⟨List.mem_finRange resource, by simp [hf]⟩, rfl⟩)
    exact List.mem_map.mpr ⟨_, hrow, itemFor_identifier cx res resource⟩

theorem GetResourceByIdentifier_of_injective {n : Nat} (res : Fin n → Resource)
    (hinj : Function.Injective fun i => (res i).GetIdentifier) (resource : Fin n) :
    GetResourceByIdentifier res (res resource).GetIdentifier = some resource := by
  unfold GetResourceByIdentifier
  cases hfind : (List.finRange n).find?
      (fun i => decide ((res i).GetIdentifier = (res resource).GetIdentifier)) with
  | none =>
    have := List.find?_eq_none.mp hfind resource (List.mem_finRange resource)
    simp at this
  | some found =>
    have hsame := List.find?_some hfind
    exact congrArg some (hinj (of_decide_eq_true hsame))

/-- `GetModelItemIndex` for a member of the type `MiscTextResourceType`, whose item
`InitializeModel` appends to the folder `Misc`: no row of the root passes the test, and the
answer is the index of row 0 of the top level, the folder item `Text`. -/
theorem GetModelItemIndex_sampleMiscText :
    appendedTo (sampleMiscText 2).type = Parent.folder Folder.Misc
    ∧ childData (Refresh (sampleContext 3) sampleMiscText newOPFModel)
        (Parent.folder Folder.Misc) = [(sampleMiscText 2).GetIdentifier]
    ∧ searchedParent (Refresh (sampleContext 3) sampleMiscText newOPFModel)
        (sampleMiscText 2).type = none
    ∧ GetModelItemIndex (Refresh (sampleContext 3) sampleMiscText newOPFModel) sampleMiscText 2
        IndexChoice.exact = ModelIndex.valid Parent.root 0
    ∧ (Refresh (sampleContext 3) sampleMiscText newOPFModel).root.get? 0
      = some (TopRow.folder Folder.Text) := by
  decide

/-- C23 (as amended).  `GetResourceListInFolder` lists, for every type, the folder to which
`InitializeModel` appends, and nothing for the two descriptors, which `InitializeModel`
appends to the root.  In a tree whose root holds the seven folder items,
`GetModelItemIndex` searches, for every type its test names, the parent to which
`InitializeModel` appends.  So after a refresh, for a member with an identifier no other
member has: when its type is one `GetModelItemIndex` names, the answer for the exact choice
is the index of a row of that parent whose data is the identifier; and when it is not a
descriptor, `GetResourceListInFolder` of the member holds the member. -/
theorem C23_folders_agree {n : Nat} (cx : Context n) (res : Fin n → Resource) (m : OPFModel)
    (resource : Fin n) (hfolders : ∀ f, TopRow.folder f ∈ m.root)
    (hid : (res resource).GetIdentifier ≠ [])
    (hinj : Function.Injective fun i => (res i).GetIdentifier) :
    (∀ t, listedFolder t = folderOfType t)
    ∧ (∀ t, t ≠ ResourceType.MiscTextResourceType → t ≠ ResourceType.TextResourceType →
        searchedParent (Refresh cx res m) t = some (appendedTo t))
    ∧ ((res resource).type ≠ ResourceType.MiscTextResourceType →
        (res resource).type ≠ ResourceType.TextResourceType →
        ∃ row, GetModelItemIndex (Refresh cx res m) res resource IndexChoice.exact
            = ModelIndex.valid (appendedTo (res resource).type) row
          ∧ (childData (Refresh cx res m) (appendedTo (res resource).type)).get? row
            = some (res resource).GetIdentifier)
    ∧ ((res resource).type ≠ ResourceType.OPFResourceType →
        (res resource).type ≠ ResourceType.NCXResourceType →
        some resource ∈ GetResourceListInFolderOf (Refresh cx res m) res resource)
    ∧ ((res resource).type = ResourceType.OPFResourceType
          ∨ (res resource).type = ResourceType.NCXResourceType →
        appendedTo (res resource).type = Parent.root
        ∧ GetResourceListInFolderOf (Refresh cx res m) res resource = []) := by
  have hrefreshed := Refresh_folders cx res m hfolders
  refine ⟨listedFolder_eq, fun t hmisc htext =>
    searchedParent_eq (Refresh cx res m) t hrefreshed hmisc htext, ?_, ?_, ?_⟩
  · intro hmisc htext
    obtain ⟨row, hfound, hrow⟩ := firstRowOf_of_mem _ hid
      (childData (Refresh cx res m) (appendedTo (res resource).type)) 0
      (mem_childData_Refresh cx res m resource)
    rw [Nat.zero_add] at hfound
    refine ⟨row, ?_, hrow⟩
    show GetModelFolderItemIndex (Refresh cx res m) res
      (searchedParent (Refresh cx res m) (res resource).type) resource IndexChoice.exact = _
    rw [searchedParent_eq (Refresh cx res m) _ hrefreshed hmisc htext,
      GetModelFolderItemIndex_found _ res _ resource IndexChoice.exact row hfound
        (lt_length_of_get? _ _ _ hrow)]
    simp
  · intro hopf hncx
    unfold GetResourceListInFolderOf GetResourceListInFolder
    rw [listedFolder_eq]
    cases hf : folderOfType (res resource).type with
    | none =>
      cases ht : (res resource).type <;> rw [ht] at hf hopf hncx <;>
        first | exact absurd rfl hopf | exact absurd rfl hncx | cases hf
    | some f =>
      have hitem : itemFor cx res resource ∈ (Refresh cx res m).rows f := by
        rw [(Refresh_rows_perm cx res m f).mem_iff]
        exact List.mem_map.mpr ⟨resource, List.mem_filter.mpr
          ⟨List.mem_finRange resource, by simp [hf]⟩, rfl⟩
      refine List.mem_map.mpr ⟨_, hitem, ?_⟩
      rw [itemFor_identifier]
      exact GetResourceByIdentifier_of_injective res hinj resource
  · intro hdesc
    unfold GetResourceListInFolderOf GetResourceListInFolder appendedTo
    rcases hdesc with h | h <;> rw [h] <;> exact ⟨rfl, rfl⟩

/-- C23, witness: the stylesheet of the book `sampleKinds`, refreshed from the tree of the
constructor. -/
theorem C23_folders_agree_witness :
    (∀ f, TopRow.folder f ∈ newOPFModel.root)
    ∧ (sampleKinds 1).GetIdentifier ≠ []
    ∧ (Function.Injective fun i => (sampleKinds i).GetIdentifier)
    ∧ (∀ t, listedFolder t = folderOfType t)
    ∧ (∀ t, t ≠ ResourceType.MiscTextResourceType → t ≠ ResourceType.TextResourceType →
        searchedParent (Refresh (sampleContext 6) sampleKinds newOPFModel) t
          = some (appendedTo t))
    ∧ ((sampleKinds 1).type ≠ ResourceType.MiscTextResourceType →
        (sampleKinds 1).type ≠ ResourceType.TextResourceType →
        ∃ row, GetModelItemIndex (Refresh (sampleContext 6) sampleKinds newOPFModel)
              sampleKinds 1 IndexChoice.exact
            = ModelIndex.valid (appendedTo (sampleKinds 1).type) row
          ∧ (childData (Refresh (sampleContext 6) sampleKinds newOPFModel)
              (appendedTo (sampleKinds 1).type)).get? row
            = some (sampleKinds 1).GetIdentifier)
    ∧ ((sampleKinds 1).type ≠ ResourceType.OPFResourceType →
        (sampleKinds 1).type ≠ ResourceType.NCXResourceType →
        some 1 ∈ GetResourceListInFolderOf (Refresh (sampleContext 6) sampleKinds newOPFModel)
          sampleKinds 1)
    ∧ ((sampleKinds 1).type = ResourceType.OPFResourceType
          ∨ (sampleKinds 1).type = ResourceType.NCXResourceType →
        appendedTo (sampleKinds 1).type = Parent.root
        ∧ GetResourceListInFolderOf (Refresh (sampleContext 6) sampleKinds newOPFModel)
            sampleKinds 1 = []) :=
  ⟨fun f => by cases f <;> decide, by decide, by decide,
    C23_folders_agree (sampleContext 6) sampleKinds newOPFModel 1
      (fun f => by cases f <;> decide) (by decide) (by decide)⟩

/-- C23, counterexample to the claim as stated.  The manifest `content.opf` is a member
present after the refresh, its item a row of the top level, where `InitializeModel` appends
it and `GetModelItemIndex` finds it; `GetResourceListInFolder` of the manifest is empty and
holds no member. -/
theorem C23_counterexample :
    (sampleKinds 3).type = ResourceType.OPFResourceType
    ∧ appendedTo (sampleKinds 3).type = Parent.root
    ∧ GetModelItemIndex (Refresh (sampleContext 6) sampleKinds newOPFModel) sampleKinds 3
        IndexChoice.exact = ModelIndex.valid Parent.root 7
    ∧ (childData (Refresh (sampleContext 6) sampleKinds newOPFModel) Parent.root).get? 7
      = some (sampleKinds 3).GetIdentifier
    ∧ GetResourceListInFolderOf (Refresh (sampleContext 6) sampleKinds newOPFModel)
        sampleKinds 3 = []
    ∧ some 3 ∉ GetResourceListInFolderOf (Refresh (sampleContext 6) sampleKinds newOPFModel)
        sampleKinds 3 := by
  decide

/-! ## The test for an empty name, on the names that are validated -/

end Sigil
